import Mathlib

set_option maxRecDepth 100000

/-!
Verification development for the vischunk linearization and chunk-query
analysis engine (`src/js/core/coordinates.js` and the `SimulationModel`).

Shallow embedding conventions:
* JS numbers holding integer values are modelled as `Nat`/`Int`; all values
  arising in the verified statements stay far below `2 ^ 53`, where JS doubles
  are exact.
* JS 32-bit bitwise operators (`&`, `|`, `<<`) are modelled explicitly through
  two's-complement bit patterns (`% 2 ^ 32`) and a final signed reinterpretation
  (`toInt32`), because `mortonEncode2D` really produces negative values.
* JS `Map`s built by enumeration are modelled as association lookups on the
  enumerated lists; a lookup miss (the code throws) is modelled as `none`.
* JS `Set`s (insertion-ordered, deduplicating) are modelled as `List`s grown by
  `jsSetAdd`.
* JS `Array.prototype.sort` with the numeric comparator is a stable ascending
  sort; `List.insertionSort (· ≤ ·)` is extensionally the same function.
-/

/-- Reinterpret a bit pattern as a signed 32-bit integer (result of JS bitwise ops). -/
def toInt32 (n : Nat) : Int :=
  if n % 2 ^ 32 < 2 ^ 31 then ((n % 2 ^ 32 : Nat) : Int)
  else ((n % 2 ^ 32 : Nat) : Int) - 2 ^ 32

/-- Two's-complement 32-bit pattern of a JS number entering a bitwise operator. -/
def jsPat (x : Int) : Nat := (x % (2 ^ 32 : Int)).toNat

/-- JS `x & y` (operands converted to 32-bit, signed result). -/
def jsAnd (x y : Int) : Int := toInt32 (jsPat x &&& jsPat y)

/-- The accumulated bit pattern of `mortonEncode2D`:
`for i in 0..15 { result |= ((x & (1<<i)) << i) | ((y & (1<<i)) << (i+1)) }`.
Every or-ed term has its selected bit below position 32, so the pattern stays
below `2 ^ 32` and the JS shifts do not wrap. -/
def mortonBits2D (x y : Nat) : Nat :=
  (List.range 16).foldl
    (fun r i => r ||| ((((x % 2 ^ 32) &&& (1 <<< i)) <<< i) |||
                       (((y % 2 ^ 32) &&& (1 <<< i)) <<< (i + 1)))) 0

/-- `GridCoordinate.mortonEncode2D` (coordinates.js lines 83-89): the `|=`
accumulation result is a signed 32-bit value. -/
def mortonEncode2D (x y : Nat) : Int :=
  toInt32 (mortonBits2D x y)

/-- `GridCoordinate.mortonEncode3D` (coordinates.js lines 91-100): 10 bits per
axis, x at positions `3i`, y at `3i+1`, z at `3i+2`. All terms stay below
`2 ^ 30`, so no sign wrap occurs on this path. -/
def mortonEncode3D (x y z : Nat) : Int :=
  toInt32 ((List.range 10).foldl
    (fun r i => r ||| ((((x % 2 ^ 32) &&& (1 <<< i)) <<< (2 * i)) |||
                       (((y % 2 ^ 32) &&& (1 <<< i)) <<< (2 * i + 1)) |||
                       (((z % 2 ^ 32) &&& (1 <<< i)) <<< (2 * i + 2)))) 0)

/-- `ceil(log2 n)` via the structural recursion
`ceil(log2 n) = ceil(log2 (ceil(n/2))) + 1` for `n > 1`, with fuel (the
recursion halves `n`, so `fuel = n` always suffices). -/
def clog2Go : Nat → Nat → Nat
  | 0, _ => 0
  | fuel + 1, n => if n ≤ 1 then 0 else clog2Go fuel ((n + 1) / 2) + 1

def ceilLog2 (n : Nat) : Nat := clog2Go n n

/-- `GridCoordinate.nextPowerOfTwo`: `n <= 1 ? 1 : 2 ** ceil(log2 n)`
(the JS float computation is exact for the integer inputs concerned). -/
def nextPowerOfTwo (n : Nat) : Nat := if n ≤ 1 then 1 else 2 ^ ceilLog2 n

/-- `GridCoordinate.hilbertRotate` (coordinates.js lines 122-131). The caller
passes the current scale `s` as the `n` argument. Reflection (when `rx = 1`,
`ry = 0`) and the final swap are combined into the returned pair. -/
def hilbertRotate (n x y : Int) (rx ry : Nat) : Int × Int :=
  if ry = 0 then
    if rx = 1 then (n - 1 - y, n - 1 - x) else (y, x)
  else (x, y)

/-- The `for (s = n/2; s > 0; s /= 2)` loop body of `hilbertEncode2D`, written
with explicit fuel so that the recursion is structural. Whenever `s ≤ fuel` the
fuel never runs out (the loop runs at most `log2 s + 1 ≤ s` times), so the
result does not depend on the fuel. The accumulated `d` is returned as the sum
of the per-scale contributions `s²·((3·rx) xor ry)`. The intermediate
coordinates are `Int`s: the reflection `s-1-x` does go negative, and the
subsequent `(x & s) > 0` tests use the two's-complement pattern as JS does. -/
def hilbertGo : Nat → Nat → Int → Int → Nat
  | 0, _, _, _ => 0
  | _, 0, _, _ => 0
  | fuel + 1, s + 1, x, y =>
      let rx : Nat := if 0 < jsAnd x ((s : Int) + 1) then 1 else 0
      let ry : Nat := if 0 < jsAnd y ((s : Int) + 1) then 1 else 0
      let p := hilbertRotate ((s : Int) + 1) x y rx ry
      (s + 1) * (s + 1) * ((3 * rx) ^^^ ry) + hilbertGo fuel ((s + 1) / 2) p.1 p.2

/-- The hilbert scale loop starting at scale `s` (canonical fuel). -/
def hilbertLoop (s : Nat) (x y : Int) : Nat := hilbertGo s s x y

/-- `GridCoordinate.hilbertEncode2D` (coordinates.js lines 109-120). -/
def hilbertEncode2D (x y : Nat) (maxDim : Nat) : Nat :=
  let n := nextPowerOfTwo maxDim
  hilbertLoop (n / 2) (x : Int) (y : Int)

/-- The algorithm switch shared by `GridCoordinate.calculateLinearPosition`
(lines 31-51, with the instance sizes) and the identical explicit-size override
`CellCoordinate.calculateLinearPosition` (lines 224-242). Unknown algorithm
strings fall through to the row-major formula. -/
def linearPosition (algorithm : String) (sizeX sizeY sizeZ : Nat) (x y z : Nat) : Int :=
  if algorithm = "row-major" then (x : Int) + y * sizeX + z * sizeX * sizeY
  else if algorithm = "col-major" then (y : Int) + x * sizeY + z * sizeX * sizeY
  else if algorithm = "z-order" then
    (if 1 < sizeZ then mortonEncode3D x y z else mortonEncode2D x y)
  else if algorithm = "hilbert" then
    (if 1 < sizeZ then (z : Int) * sizeX * sizeY + hilbertEncode2D x y (max sizeX sizeY)
     else (hilbertEncode2D x y (max sizeX sizeY) : Int))
  else (x : Int) + y * sizeX + z * sizeX * sizeY

structure GridCoordinate where
  sizeX : Nat
  sizeY : Nat
  sizeZ : Nat
  algorithm : String
deriving DecidableEq

namespace GridCoordinate

/-- The constructor normalization `this.sizeZ = Math.max(1, sizeZ || 1)`. -/
def mk' (sX sY sZ : Nat) (alg : String) : GridCoordinate := ⟨sX, sY, max 1 sZ, alg⟩

def calculateLinearPosition (g : GridCoordinate) (x y z : Nat) : Int :=
  linearPosition g.algorithm g.sizeX g.sizeY g.sizeZ x y z

/-- `linearize` only adds a memoization cache around `calculateLinearPosition`;
the cached value is a pure function of the key, so the model is cache-free. -/
def linearize (g : GridCoordinate) (x y z : Nat) : Int :=
  g.calculateLinearPosition x y z

def getTotalCells (g : GridCoordinate) : Nat := g.sizeX * g.sizeY * g.sizeZ

end GridCoordinate

/-- Final content of a JS `Map` built by `list.forEach((v, i) => map.set(key v, i))`:
the value stored at a key is the index of its last occurrence in the list. -/
def seqIndexOf (l : List Int) (p : Int) : Option Nat :=
  ((l.enum.filter (fun q => q.2 = p)).getLast?).map (fun q => q.1)

/-- The enumeration of raw positions of a chunk with actual dimensions
`(aX, aY, aZ)` built by `getNormalizedLocalPosition` (coordinates.js lines
262-277): `lz` outer, `ly` middle, `lx` inner. -/
def localPositions (algorithm : String) (aX aY aZ : Nat) : List Int :=
  (List.range aZ).flatMap fun lz =>
    (List.range aY).flatMap fun ly =>
      (List.range aX).map fun lx => linearPosition algorithm aX aY aZ lx ly lz

/-- The chunk-grid enumeration `(rawPos, cx, cy, cz)` built by
`getNormalizedChunkIndex` (coordinates.js lines 307-316): `cz` outer, `cy`
middle, `cx` inner. -/
def chunkEntries (g : GridCoordinate) : List (Int × Nat × Nat × Nat) :=
  (List.range g.sizeZ).flatMap fun cz =>
    (List.range g.sizeY).flatMap fun cy =>
      (List.range g.sizeX).map fun cx =>
        (g.calculateLinearPosition cx cy cz, cx, cy, cz)

/-- The chunk-grid enumeration sorted ascending by raw position
(`positions.sort((a, b) => a.rawPos - b.rawPos)`, a stable sort). -/
def sortedChunkEntries (g : GridCoordinate) : List (Int × Nat × Nat × Nat) :=
  List.insertionSort (fun a b => a.1 ≤ b.1) (chunkEntries g)

structure CellCoordinate where
  sizeX : Nat
  sizeY : Nat
  sizeZ : Nat
  algorithm : String
  chunkGrid : GridCoordinate
  chunkSizeX : Nat
  chunkSizeY : Nat
  chunkSizeZ : Nat
deriving DecidableEq

namespace CellCoordinate

/-- The `CellCoordinate` constructor runs the `GridCoordinate` super
constructor, normalizing `sizeZ` to at least 1. -/
def mk' (sX sY sZ : Nat) (alg : String) (grid : GridCoordinate) (cX cY cZ : Nat) :
    CellCoordinate :=
  ⟨sX, sY, max 1 sZ, alg, grid, cX, cY, cZ⟩

def getParentChunk (c : CellCoordinate) (cellX cellY cellZ : Nat) : Nat × Nat × Nat :=
  (cellX / c.chunkSizeX, cellY / c.chunkSizeY, cellZ / c.chunkSizeZ)

/-- `CellCoordinate.calculateLinearPosition` (explicit sizes, lines 224-242). -/
def calculateLinearPosition (c : CellCoordinate) (x y z : Nat) (sizeX sizeY sizeZ : Nat) : Int :=
  linearPosition c.algorithm sizeX sizeY sizeZ x y z

/-- `getNormalizedLocalPosition` (lines 244-293): dense rank of `rawPos`
within the sorted enumeration of the chunk's raw positions. The cache key also
contains the chunk coordinate, but the stored map is a pure function of the
actual dimensions and the algorithm. A missing `rawPos` (the code throws) is
`none`. -/
def getNormalizedLocalPosition (c : CellCoordinate) (rawPos : Int) (aX aY aZ : Nat) :
    Option Nat :=
  seqIndexOf (List.insertionSort (· ≤ ·) (localPositions c.algorithm aX aY aZ)) rawPos

/-- `getLocalCellIndex` (lines 181-222). The cell is assumed to lie in the
chunk passed by `getGlobalIndex` (as the caller guarantees), so the JS
subtractions `cellX - chunkStartX` are the truncated `Nat` subtractions. -/
def getLocalCellIndex (c : CellCoordinate) (cellX cellY cellZ : Nat)
    (chunk : Nat × Nat × Nat) : Option Int :=
  let chunkStartX := chunk.1 * c.chunkSizeX
  let chunkStartY := chunk.2.1 * c.chunkSizeY
  let chunkStartZ := chunk.2.2 * c.chunkSizeZ
  let chunkEndX := min (chunkStartX + c.chunkSizeX) c.sizeX
  let chunkEndY := min (chunkStartY + c.chunkSizeY) c.sizeY
  let chunkEndZ := min (chunkStartZ + c.chunkSizeZ) c.sizeZ
  let localX := cellX - chunkStartX
  let localY := cellY - chunkStartY
  let localZ := cellZ - chunkStartZ
  let actualChunkX := chunkEndX - chunkStartX
  let actualChunkY := chunkEndY - chunkStartY
  let actualChunkZ := chunkEndZ - chunkStartZ
  let rawPos := c.calculateLinearPosition localX localY localZ actualChunkX actualChunkY actualChunkZ
  if c.algorithm = "z-order" ∨ c.algorithm = "hilbert" then
    (c.getNormalizedLocalPosition rawPos actualChunkX actualChunkY actualChunkZ).map
      (fun n => (n : Int))
  else some rawPos

/-- `getNormalizedChunkIndex` (lines 295-337): dense rank of the raw chunk
index in the sorted chunk-grid enumeration (last `Map.set` wins). -/
def getNormalizedChunkIndex (c : CellCoordinate) (rawChunkIndex : Int) : Option Nat :=
  seqIndexOf ((sortedChunkEntries c.chunkGrid).map (fun e => e.1)) rawChunkIndex

/-- `delinearizeChunkIndex` (lines 363-416). For z-order/hilbert chunk
orderings the reverse map built alongside the normalization map is consulted
(in every `getGlobalIndex` flow it has been built, being a pure function of the
chunk grid); otherwise direct division/modulo arithmetic, with unknown
algorithm names falling back to the row-major case. -/
def delinearizeChunkIndex (c : CellCoordinate) (chunkIndex : Nat) : Option (Nat × Nat × Nat) :=
  let chunksX := c.chunkGrid.sizeX
  let chunksY := c.chunkGrid.sizeY
  if c.chunkGrid.algorithm = "z-order" ∨ c.chunkGrid.algorithm = "hilbert" then
    ((sortedChunkEntries c.chunkGrid)[chunkIndex]?).map (fun e => e.2)
  else if c.chunkGrid.algorithm = "row-major" then
    let z := chunkIndex / (chunksX * chunksY)
    let xyIndex := chunkIndex % (chunksX * chunksY)
    some (xyIndex % chunksX, xyIndex / chunksX, z)
  else if c.chunkGrid.algorithm = "col-major" then
    let z := chunkIndex / (chunksX * chunksY)
    let xyIndex := chunkIndex % (chunksX * chunksY)
    some (xyIndex / chunksY, xyIndex % chunksY, z)
  else
    let z := chunkIndex / (chunksX * chunksY)
    let xyIndex := chunkIndex % (chunksX * chunksY)
    some (xyIndex % chunksX, xyIndex / chunksX, z)

/-- The boundary-clipped cell count of the chunk at coordinates `ch`
(the `actualCellsInChunk` computation of `calculateCellsBeforeChunk`). -/
def actualCellsInChunk (c : CellCoordinate) (ch : Nat × Nat × Nat) : Nat :=
  let chunkStartX := ch.1 * c.chunkSizeX
  let chunkStartY := ch.2.1 * c.chunkSizeY
  let chunkStartZ := ch.2.2 * c.chunkSizeZ
  let chunkEndX := min (chunkStartX + c.chunkSizeX) c.sizeX
  let chunkEndY := min (chunkStartY + c.chunkSizeY) c.sizeY
  let chunkEndZ := min (chunkStartZ + c.chunkSizeZ) c.sizeZ
  (chunkEndX - chunkStartX) * ((chunkEndY - chunkStartY) * (chunkEndZ - chunkStartZ))

/-- `calculateCellsBeforeChunk` (lines 339-361): sum of the boundary-clipped
cell counts of every chunk with sequential index below `chunkIndex`. -/
def calculateCellsBeforeChunk (c : CellCoordinate) (chunkIndex : Nat) : Option Nat :=
  ((List.range chunkIndex).mapM (fun i => c.delinearizeChunkIndex i)).map
    (fun coords => (coords.map (fun ch => c.actualCellsInChunk ch)).sum)

/-- `getGlobalIndex` (lines 161-179). The raw chunk index of a non-space-filling
chunk ordering is a non-negative integer used directly as the sequential index;
for z-order/hilbert it is first normalized. -/
def getGlobalIndex (c : CellCoordinate) (cellX cellY cellZ : Nat) : Option Int :=
  let chunk := c.getParentChunk cellX cellY cellZ
  let rawChunkIndex := c.chunkGrid.linearize chunk.1 chunk.2.1 chunk.2.2
  ((if c.chunkGrid.algorithm = "z-order" ∨ c.chunkGrid.algorithm = "hilbert" then
      c.getNormalizedChunkIndex rawChunkIndex
    else some rawChunkIndex.toNat).bind fun chunkIndex =>
    (c.calculateCellsBeforeChunk chunkIndex).bind fun cellsBeforeThisChunk =>
      (c.getLocalCellIndex cellX cellY cellZ chunk).map fun localCellIndex =>
        (cellsBeforeThisChunk : Int) + localCellIndex)

end CellCoordinate

/-! ## SimulationModel (query analysis pipeline) -/

structure SimParams where
  sizeX : Nat
  sizeY : Nat
  sizeZ : Nat
  chunkX : Nat
  chunkY : Nat
  chunkZ : Nat
  cellAlgorithm : String
  chunkAlgorithm : String
  queryX0 : Nat
  queryX1 : Nat
  queryY0 : Nat
  queryY1 : Nat
  queryZ0 : Nat
  queryZ1 : Nat
deriving DecidableEq

namespace SimulationModel

/-- `Math.ceil(a / b)` for the integer operands used by the model (exact for
the magnitudes concerned). -/
def ceilDiv (a b : Nat) : Nat := (a + b - 1) / b

/-- `getCellCoordinateSystem` (SimulationModel): builds the chunk grid over
`ceil(size/chunk)` chunk counts and the composed `CellCoordinate`. -/
def getCellCoordinateSystem (p : SimParams) : CellCoordinate :=
  let chunksX := ceilDiv p.sizeX p.chunkX
  let chunksY := ceilDiv p.sizeY p.chunkY
  let chunksZ := ceilDiv p.sizeZ p.chunkZ
  CellCoordinate.mk' p.sizeX p.sizeY p.sizeZ p.cellAlgorithm
    (GridCoordinate.mk' chunksX chunksY chunksZ p.chunkAlgorithm)
    p.chunkX p.chunkY p.chunkZ

/-- `getGlobalPosition` (SimulationModel). -/
def getGlobalPosition (p : SimParams) (x y z : Nat) : Option Int :=
  (getCellCoordinateSystem p).getGlobalIndex x y z

/-- `getChunkIndex` (SimulationModel): flat row-major chunk key
`cx + cy * chunksX + cz * (chunksX * chunksY)` over the per-axis chunk
coordinates `floor(coord / chunkSize)`. -/
def getChunkIndex (p : SimParams) (x y z : Nat) : Nat :=
  x / p.chunkX + y / p.chunkY * ceilDiv p.sizeX p.chunkX +
    z / p.chunkZ * (ceilDiv p.sizeX p.chunkX * ceilDiv p.sizeY p.chunkY)

/-- JS `Set.prototype.add` on an insertion-ordered deduplicating set. -/
def jsSetAdd {α : Type} [DecidableEq α] (s : List α) (a : α) : List α :=
  if a ∈ s then s else s ++ [a]

/-- The integer interval `[a, b]` (empty when `a > b`), as iterated by a JS
`for (v = a; v <= b; v++)` loop. -/
def rangeIncl (a b : Nat) : List Nat := (List.range (b + 1 - a)).map (a + ·)

/-- The cells enumerated by the nested query loops of
`calculateRequestedCellsAndChunks` (part_004 lines 407-428): `x` outer, `y`
middle, `z` inner, each upper bound clipped by the array size; when
`sizeZ = 0` the `z` loop is replaced by the single value `0`. -/
def queryBoxCells (p : SimParams) : List (Nat × Nat × Nat) :=
  (rangeIncl p.queryX0 (min p.queryX1 (p.sizeX - 1))).flatMap fun x =>
    (rangeIncl p.queryY0 (min p.queryY1 (p.sizeY - 1))).flatMap fun y =>
      if 0 < p.sizeZ then
        (rangeIncl p.queryZ0 (min p.queryZ1 (p.sizeZ - 1))).map fun z => (x, y, z)
      else [(x, y, 0)]

/-- `calculateRequestedCellsAndChunks`: one pass over the query box, adding the
cell to `requestedCells` and its flat chunk index to `touchedChunks`. -/
def calculateRequestedCellsAndChunks (p : SimParams) :
    List (Nat × Nat × Nat) × List Nat :=
  (queryBoxCells p).foldl
    (fun acc c => (jsSetAdd acc.1 c, jsSetAdd acc.2 (getChunkIndex p c.1 c.2.1 c.2.2)))
    ([], [])

/-- `getChunkCoordsFromIndex` (part_004 lines 442-447). -/
def getChunkCoordsFromIndex (chunkIdx chunksX chunksY : Nat) : Nat × Nat × Nat :=
  (chunkIdx % chunksX, chunkIdx % (chunksX * chunksY) / chunksX, chunkIdx / (chunksX * chunksY))

/-- The cells enumerated by `addChunkCells` (part_004 lines 449-464) for the
chunk at `ch`: `dx` outer, `dy` middle, `dz` inner, keeping only cells inside
the array bounds. -/
def chunkCellList (p : SimParams) (ch : Nat × Nat × Nat) : List (Nat × Nat × Nat) :=
  (List.range p.chunkX).flatMap fun dx =>
    (List.range p.chunkY).flatMap fun dy =>
      (List.range (if 0 < p.sizeZ then p.chunkZ else 1)).filterMap fun dz =>
        let x := ch.1 * p.chunkX + dx
        let y := ch.2.1 * p.chunkY + dy
        let z := ch.2.2 * p.chunkZ + dz
        if x < p.sizeX ∧ y < p.sizeY ∧ (p.sizeZ = 0 ∨ z < p.sizeZ) then some (x, y, z)
        else none

/-- `calculateActualCellsFromChunks` (part_004 lines 430-440). -/
def calculateActualCellsFromChunks (p : SimParams) (touched : List Nat) :
    List (Nat × Nat × Nat) :=
  let chunksX := ceilDiv p.sizeX p.chunkX
  let chunksY := ceilDiv p.sizeY p.chunkY
  touched.foldl
    (fun s idx => (chunkCellList p (getChunkCoordsFromIndex idx chunksX chunksY)).foldl jsSetAdd s)
    []

/-- `calculateByteRanges` (part_004 lines 473-491): sort ascending, then merge
consecutive runs into inclusive `[start, end]` intervals. -/
def calculateByteRanges (positions : List Int) : List (Int × Int) :=
  match List.insertionSort (· ≤ ·) positions with
  | [] => []
  | v :: rest =>
      let step := rest.foldl
        (fun (acc : List (Int × Int) × Int × Int) vi =>
          if vi = acc.2.2 + 1 then (acc.1, acc.2.1, vi)
          else (acc.1 ++ [(acc.2.1, acc.2.2)], vi, vi))
        ([], v, v)
      step.1 ++ [step.2]

structure SimData where
  requestedCells : List (Nat × Nat × Nat)
  actualCells : List (Nat × Nat × Nat)
  touchedChunks : List Nat
  chunkedRanges : Option (List (Int × Int))
  unchunkedRanges : Option (List (Int × Int))
  totalCells : Nat

/-- `calculateData` (part_004 lines 375-405): the full query-analysis pipeline.
`cellSetToPositions` maps each cell set to global positions (a thrown
normalization error surfacing as `none` for the derived range lists). -/
def calculateData (p : SimParams) : SimData :=
  let rc := calculateRequestedCellsAndChunks p
  let actual := calculateActualCellsFromChunks p rc.2
  { requestedCells := rc.1
    actualCells := actual
    touchedChunks := rc.2
    chunkedRanges :=
      ((actual.mapM (fun c => getGlobalPosition p c.1 c.2.1 c.2.2)).map calculateByteRanges)
    unchunkedRanges :=
      ((rc.1.mapM (fun c => getGlobalPosition p c.1 c.2.1 c.2.2)).map calculateByteRanges)
    totalCells := p.sizeX * p.sizeY * max 1 p.sizeZ }

end SimulationModel

/-! ## Named example configurations used by witnesses and counterexamples -/

/-- 3×3×2 array in a single chunk, hilbert cell ordering: the 3D hilbert
layering `z·sizeX·sizeY + hilbert2D` collides across layers. -/
def ceC1 : SimParams :=
  ⟨3, 3, 2, 3, 3, 2, "hilbert", "row-major", 0, 2, 0, 2, 0, 1⟩

/-- 5×5×3 array, 2×2×2 chunks, hilbert chunk ordering: two chunks of the
3×3×2 chunk grid share the raw rank 13, so their dense indices collide while
their boundary-clipped cell counts differ. -/
def ceC2 : SimParams :=
  ⟨5, 5, 3, 2, 2, 2, "row-major", "hilbert", 0, 4, 0, 4, 0, 2⟩

/-- 2×2 array covered by one 2×2 chunk, but with an inverted query interval
`x ∈ [1, 0]`: the query loops never run. -/
def ceC8 : SimParams := ⟨2, 2, 1, 2, 2, 1, "row-major", "row-major", 1, 0, 0, 1, 0, 0⟩

/-- A chunk-grid shape for the C9/C10 witnesses. -/
def wGrid : GridCoordinate := ⟨3, 4, 2, "row-major"⟩

/-- A `CellCoordinate` (12×8×2 cells in 4×2×1 chunks) for the C9 witness. -/
def wCellCoord : CellCoordinate := ⟨12, 8, 2, "row-major", wGrid, 4, 2, 1⟩

/-- A `CellCoordinate` whose orderings are the unknown string "spiral",
for the C10 witness. -/
def wUnknown : CellCoordinate := ⟨12, 8, 2, "spiral", ⟨3, 4, 2, "spiral"⟩, 4, 2, 1⟩

/-- Chunk size equal to array size with a non-empty query (C8 witness). -/
def wC8 : SimParams := ⟨4, 4, 1, 4, 4, 1, "row-major", "row-major", 1, 2, 1, 2, 0, 0⟩

/-- The spec's scenario §8 preset shape: a 4×4 array in 2×2 chunks, row-major
orderings, with a query covering the whole array (C6/C7 witnesses). -/
def sc1 : SimParams := ⟨4, 4, 1, 2, 2, 1, "row-major", "row-major", 0, 3, 0, 3, 0, 0⟩

/-- A 5×5 array in 2×2 chunks with hilbert cell and chunk orderings
(witness configuration for the 2D global-index bijection). -/
def wC1 : SimParams := ⟨5, 5, 1, 2, 2, 1, "hilbert", "hilbert", 0, 0, 0, 0, 0, 0⟩

/-! ## Definitions used by the verification development -/

/-- Proof helper: the canonical (in-range) transformed coordinates after one
scale step, matching `hilbertRotate` modulo `2^m`. -/
def hilbertStepCanon (m x y : Nat) : Nat × Nat :=
  if y / 2 ^ m = 0 then
    (if x / 2 ^ m = 1 then (2 ^ m - 1 - y % 2 ^ m, 2 ^ m - 1 - x % 2 ^ m)
     else (y % 2 ^ m, x % 2 ^ m))
  else (x % 2 ^ m, y % 2 ^ m)

/-- Modelled from the spec: the per-scale recurrence of `hilbert2D(x,y,n)` as
§4.1 words it — quadrant bits `rx = (x&s)!=0`, `ry = (y&s)!=0`, accumulate
`d += s²·((3·rx) xor ry)`, and when `ry==0`: if `rx==1` reflect both axes as
`(n-1-x, n-1-y)` (in terms of the full grid size `n`), then swap x and y.
Coordinates stay inside `[0, n)`, so plain `Nat` arithmetic suffices.
Written with fuel so the recursion is structural. -/
def hilbertSpecGo (n : Nat) : Nat → Nat → Nat → Nat → Nat
  | 0, _, _, _ => 0
  | _, 0, _, _ => 0
  | fuel + 1, s + 1, x, y =>
      let rx : Nat := if x &&& (s + 1) ≠ 0 then 1 else 0
      let ry : Nat := if y &&& (s + 1) ≠ 0 then 1 else 0
      let p : Nat × Nat :=
        if ry = 0 then
          (if rx = 1 then (n - 1 - y, n - 1 - x) else (y, x))
        else (x, y)
      (s + 1) * (s + 1) * ((3 * rx) ^^^ ry) + hilbertSpecGo n fuel ((s + 1) / 2) p.1 p.2

/-- Modelled from the spec: the scale loop of the spec's recurrence. -/
def hilbertSpecLoop (n s x y : Nat) : Nat := hilbertSpecGo n s s x y

/-- Modelled from the spec: `hilbert2D(x, y, n)` for a power-of-two `n`. -/
def hilbertSpec2D (x y n : Nat) : Nat := hilbertSpecLoop n (n / 2) x y

/-- The first stage of `getGlobalIndex` (lines 163-170): the sequential chunk
index used to sum the cells of the preceding chunks — the raw linearized rank
for direct orderings, its dense normalization for z-order/hilbert. -/
def denseChunkIndex (c : CellCoordinate) (u v w : Nat) : Option Nat :=
  if c.chunkGrid.algorithm = "z-order" ∨ c.chunkGrid.algorithm = "hilbert" then
    c.getNormalizedChunkIndex (c.chunkGrid.linearize u v w)
  else some (c.chunkGrid.linearize u v w).toNat

/-- `delinearizeChunkIndex` with a dummy default, for stating the value of
`calculateCellsBeforeChunk` as a pure sum. -/
def delinD (c : CellCoordinate) (j : Nat) : Nat × Nat × Nat :=
  (c.delinearizeChunkIndex j).getD (0, 0, 0)

/-- The boundary-clipped cell count of the chunk holding sequential index `j`. -/
def chunkCellCount (c : CellCoordinate) (j : Nat) : Nat :=
  c.actualCellsInChunk (delinD c j)

/-- `D` enumerates the chunk grid densely: it is a bijection from the chunk
coordinates onto `[0, CX·CY)` realized by the first stage of `getGlobalIndex`,
and `delinearizeChunkIndex` inverts it. -/
def DenseOk (c : CellCoordinate) (CX CY : Nat) (D : Nat → Nat → Nat) : Prop :=
  (∀ u v, u < CX → v < CY → D u v < CX * CY) ∧
  (∀ u v u' v', u < CX → v < CY → u' < CX → v' < CY → D u v = D u' v' →
    u = u' ∧ v = v') ∧
  (∀ i, i < CX * CY → ∃ u v, u < CX ∧ v < CY ∧ D u v = i) ∧
  (∀ u v, u < CX → v < CY → denseChunkIndex c u v 0 = some (D u v)) ∧
  (∀ u v, u < CX → v < CY → c.delinearizeChunkIndex (D u v) = some (u, v, 0))

/-- The actual (boundary-clipped) extent of chunk `u` along an axis of size `s`
with chunk size `cs`: `min(chunkStart + chunkSize, size) - chunkStart`. -/
def axCount (cs s u : Nat) : Nat := min (u * cs + cs) s - u * cs

/-- The run decomposition performed by the fold of `calculateByteRanges`,
written structurally: `s` is the start and `e` the current end of the open
run. -/
def runsGo : List Int → Int → Int → List (Int × Int)
  | [], s, e => [(s, e)]
  | v :: rest, s, e => if v = e + 1 then runsGo rest s v else (s, e) :: runsGo rest v v


/-! ## Row-major / column-major arithmetic -/

theorem block_decompose (B a c : Nat) (ha : a < B) :
    (a + c * B) / B = c ∧ (a + c * B) % B = a := by
  have hb : 0 < B := Nat.pos_of_ne_zero (by omega)
  constructor
  · rw [Nat.add_mul_div_right _ _ hb, Nat.div_eq_of_lt ha, Nat.zero_add]
  · rw [Nat.add_mul_mod_self_right, Nat.mod_eq_of_lt ha]

theorem xy_lt (CX CY cx cy : Nat) (hx : cx < CX) (hy : cy < CY) :
    cx + cy * CX < CX * CY := by
  calc cx + cy * CX < CX + cy * CX := by omega
  _ = (cy + 1) * CX := by ring
  _ ≤ CY * CX := Nat.mul_le_mul_right CX hy
  _ = CX * CY := Nat.mul_comm _ _

/-- Shared inversion fact: the row-major branch of `delinearizeChunkIndex`
inverts the row-major rank. -/
theorem delin_rowMajor_arith (CX CY cx cy cz : Nat) (hx : cx < CX) (hy : cy < CY) :
    ((cx + cy * CX + cz * (CX * CY)) % (CX * CY) % CX,
     (cx + cy * CX + cz * (CX * CY)) % (CX * CY) / CX,
     (cx + cy * CX + cz * (CX * CY)) / (CX * CY)) = (cx, cy, cz) := by
  obtain ⟨h1, h2⟩ := block_decompose (CX * CY) (cx + cy * CX) cz (xy_lt CX CY cx cy hx hy)
  obtain ⟨h3, h4⟩ := block_decompose CX cx cy hx
  rw [h1, h2, h3, h4]

/-- Shared inversion fact for the column-major branch. -/
theorem delin_colMajor_arith (CX CY cx cy cz : Nat) (hx : cx < CX) (hy : cy < CY) :
    ((cy + cx * CY + cz * (CX * CY)) % (CX * CY) / CY,
     (cy + cx * CY + cz * (CX * CY)) % (CX * CY) % CY,
     (cy + cx * CY + cz * (CX * CY)) / (CX * CY)) = (cx, cy, cz) := by
  have hlt : cy + cx * CY < CX * CY := by
    rw [Nat.mul_comm CX CY]
    exact xy_lt CY CX cy cx hy hx
  obtain ⟨h1, h2⟩ := block_decompose (CX * CY) (cy + cx * CY) cz hlt
  obtain ⟨h3, h4⟩ := block_decompose CY cy cx hy
  rw [h1, h2, h3, h4]

theorem linearize_rowMajor (g : GridCoordinate) (h : g.algorithm = "row-major")
    (x y z : Nat) :
    g.linearize x y z = ((x + y * g.sizeX + z * (g.sizeX * g.sizeY) : Nat) : Int) := by
  simp only [GridCoordinate.linearize, GridCoordinate.calculateLinearPosition, linearPosition, h]
  push_cast
  ring

theorem linearize_colMajor (g : GridCoordinate) (h : g.algorithm = "col-major")
    (x y z : Nat) :
    g.linearize x y z = ((y + x * g.sizeY + z * (g.sizeX * g.sizeY) : Nat) : Int) := by
  simp only [GridCoordinate.linearize, GridCoordinate.calculateLinearPosition, linearPosition, h]
  push_cast
  ring

/-- C9 helper: the round trip for a row-major chunk grid. -/
theorem delin_linearize_rowMajor (c : CellCoordinate) (h : c.chunkGrid.algorithm = "row-major")
    (cx cy cz : Nat) (hx : cx < c.chunkGrid.sizeX) (hy : cy < c.chunkGrid.sizeY) :
    c.delinearizeChunkIndex (c.chunkGrid.linearize cx cy cz).toNat = some (cx, cy, cz) := by
  rw [linearize_rowMajor _ h, Int.toNat_natCast]
  unfold CellCoordinate.delinearizeChunkIndex
  rw [h, if_neg (by decide), if_pos rfl]
  exact congrArg some (delin_rowMajor_arith _ _ _ _ _ hx hy)

/-- C9 helper: the round trip for a column-major chunk grid. -/
theorem delin_linearize_colMajor (c : CellCoordinate) (h : c.chunkGrid.algorithm = "col-major")
    (cx cy cz : Nat) (hx : cx < c.chunkGrid.sizeX) (hy : cy < c.chunkGrid.sizeY) :
    c.delinearizeChunkIndex (c.chunkGrid.linearize cx cy cz).toNat = some (cx, cy, cz) := by
  rw [linearize_colMajor _ h, Int.toNat_natCast]
  unfold CellCoordinate.delinearizeChunkIndex
  rw [h, if_neg (by decide), if_neg (by decide), if_pos rfl]
  exact congrArg some (delin_colMajor_arith _ _ _ _ _ hx hy)

/-- C9: For row-major and column-major chunk orderings, `delinearizeChunkIndex`
is a left inverse of the chunk grid's linearization: for every chunk coordinate
within the chunk grid, delinearizing the linearized rank returns the same
coordinate. -/
theorem C9_delinearize_roundtrip (c : CellCoordinate)
    (h : c.chunkGrid.algorithm = "row-major" ∨ c.chunkGrid.algorithm = "col-major")
    (cx cy cz : Nat) (hx : cx < c.chunkGrid.sizeX) (hy : cy < c.chunkGrid.sizeY)
    (_hz : cz < c.chunkGrid.sizeZ) :
    c.delinearizeChunkIndex (c.chunkGrid.linearize cx cy cz).toNat = some (cx, cy, cz) := by
  rcases h with h | h
  · exact delin_linearize_rowMajor c h cx cy cz hx hy
  · exact delin_linearize_colMajor c h cx cy cz hx hy

/-- C9 witness at a concrete chunk grid and coordinate. -/
theorem C9_delinearize_roundtrip_witness :
    wCellCoord.delinearizeChunkIndex (wCellCoord.chunkGrid.linearize 2 3 1).toNat =
      some (2, 3, 1) :=
  C9_delinearize_roundtrip wCellCoord (Or.inl rfl) 2 3 1 (by decide) (by decide) (by decide)

/-- C10: any algorithm identifier outside the four known ones falls back to the
row-major formulas, both in `linearize` and in `delinearizeChunkIndex` (which
then inverts that same row-major formula); no error is raised (both functions
are total on this path). -/
theorem C10_unknown_algorithm_fallback (c : CellCoordinate)
    (halg : c.chunkGrid.algorithm ≠ "row-major" ∧ c.chunkGrid.algorithm ≠ "col-major" ∧
            c.chunkGrid.algorithm ≠ "z-order" ∧ c.chunkGrid.algorithm ≠ "hilbert")
    (x y z cx cy cz : Nat) (hx : cx < c.chunkGrid.sizeX) (hy : cy < c.chunkGrid.sizeY) :
    c.chunkGrid.linearize x y z = (x : Int) + y * c.chunkGrid.sizeX +
      z * c.chunkGrid.sizeX * c.chunkGrid.sizeY ∧
    c.delinearizeChunkIndex (cx + cy * c.chunkGrid.sizeX +
      cz * (c.chunkGrid.sizeX * c.chunkGrid.sizeY)) = some (cx, cy, cz) := by
  obtain ⟨h1, h2, h3, h4⟩ := halg
  constructor
  · unfold GridCoordinate.linearize GridCoordinate.calculateLinearPosition linearPosition
    rw [if_neg h1, if_neg h2, if_neg h3, if_neg h4]
  · unfold CellCoordinate.delinearizeChunkIndex
    rw [if_neg (by rintro (h | h) <;> [exact h3 h; exact h4 h]), if_neg h1, if_neg h2]
    exact congrArg some (delin_rowMajor_arith _ _ _ _ _ hx hy)

/-- C10 witness at the unknown algorithm string "spiral". -/
theorem C10_unknown_algorithm_fallback_witness :
    wUnknown.chunkGrid.linearize 5 6 1 = (5 : Int) + 6 * wUnknown.chunkGrid.sizeX +
      1 * wUnknown.chunkGrid.sizeX * wUnknown.chunkGrid.sizeY ∧
    wUnknown.delinearizeChunkIndex (2 + 3 * wUnknown.chunkGrid.sizeX +
      1 * (wUnknown.chunkGrid.sizeX * wUnknown.chunkGrid.sizeY)) = some (2, 3, 1) :=
  C10_unknown_algorithm_fallback wUnknown
    ⟨by decide, by decide, by decide, by decide⟩ 5 6 1 2 3 1 (by decide) (by decide)

/-! ## JS-set (insertion-ordered list) machinery -/

namespace SimulationModel

theorem mem_jsSetAdd {α : Type} [DecidableEq α] (s : List α) (b a : α) :
    a ∈ jsSetAdd s b ↔ a ∈ s ∨ a = b := by
  unfold jsSetAdd
  by_cases hb : b ∈ s
  · rw [if_pos hb]
    constructor
    · exact Or.inl
    · rintro (h | rfl) <;> [exact h; exact hb]
  · rw [if_neg hb]
    simp [List.mem_append]

theorem nodup_jsSetAdd {α : Type} [DecidableEq α] (s : List α) (b : α) (h : s.Nodup) :
    (jsSetAdd s b).Nodup := by
  unfold jsSetAdd
  by_cases hb : b ∈ s
  · rwa [if_pos hb]
  · rw [if_neg hb]
    rw [List.nodup_append]
    exact ⟨h, List.nodup_singleton b, by simpa using fun hmem => hb hmem⟩

theorem mem_foldl_jsSetAdd {α β : Type} [DecidableEq α] (g : β → α) (l : List β)
    (init : List α) (a : α) :
    a ∈ l.foldl (fun s c => jsSetAdd s (g c)) init ↔ a ∈ init ∨ ∃ c ∈ l, g c = a := by
  induction l generalizing init with
  | nil => simp
  | cons hd tl ih =>
      rw [List.foldl_cons, ih, mem_jsSetAdd]
      simp only [List.mem_cons]
      constructor
      · rintro ((h | rfl) | ⟨c, hc, rfl⟩)
        · exact Or.inl h
        · exact Or.inr ⟨hd, Or.inl rfl, rfl⟩
        · exact Or.inr ⟨c, Or.inr hc, rfl⟩
      · rintro (h | ⟨c, (rfl | hc), rfl⟩)
        · exact Or.inl (Or.inl h)
        · exact Or.inl (Or.inr rfl)
        · exact Or.inr ⟨c, hc, rfl⟩

theorem nodup_foldl_jsSetAdd {α β : Type} [DecidableEq α] (g : β → α) (l : List β)
    (init : List α) (h : init.Nodup) :
    (l.foldl (fun s c => jsSetAdd s (g c)) init).Nodup := by
  induction l generalizing init with
  | nil => exact h
  | cons hd tl ih => exact ih _ (nodup_jsSetAdd _ _ h)

theorem foldl_pair {α β γ : Type} (f : β → α → β) (g : γ → α → γ) (l : List α) (b : β) (c : γ) :
    l.foldl (fun acc a => (f acc.1 a, g acc.2 a)) (b, c) = (l.foldl f b, l.foldl g c) := by
  induction l generalizing b c with
  | nil => rfl
  | cons hd tl ih => rw [List.foldl_cons, List.foldl_cons, List.foldl_cons, ih]

/-- The two components of `calculateRequestedCellsAndChunks` as separate folds. -/
theorem calculateRequestedCellsAndChunks_eq (p : SimParams) :
    calculateRequestedCellsAndChunks p =
      ((queryBoxCells p).foldl (fun s c => jsSetAdd s c) [],
       (queryBoxCells p).foldl (fun s c => jsSetAdd s (getChunkIndex p c.1 c.2.1 c.2.2)) []) := by
  unfold calculateRequestedCellsAndChunks
  exact foldl_pair (fun s c => jsSetAdd s c)
    (fun s c => jsSetAdd s (getChunkIndex p c.1 c.2.1 c.2.2)) (queryBoxCells p) [] []

theorem mem_requestedCells (p : SimParams) (c : Nat × Nat × Nat) :
    c ∈ (calculateRequestedCellsAndChunks p).1 ↔ c ∈ queryBoxCells p := by
  rw [calculateRequestedCellsAndChunks_eq]
  have := mem_foldl_jsSetAdd (fun c : Nat × Nat × Nat => c) (queryBoxCells p) [] c
  simpa using this

theorem mem_touchedChunks (p : SimParams) (k : Nat) :
    k ∈ (calculateRequestedCellsAndChunks p).2 ↔
      ∃ c ∈ queryBoxCells p, getChunkIndex p c.1 c.2.1 c.2.2 = k := by
  rw [calculateRequestedCellsAndChunks_eq]
  have := mem_foldl_jsSetAdd (fun c : Nat × Nat × Nat => getChunkIndex p c.1 c.2.1 c.2.2)
    (queryBoxCells p) [] k
  simpa using this

theorem mem_rangeIncl (a b v : Nat) : v ∈ rangeIncl a b ↔ a ≤ v ∧ v ≤ b := by
  unfold rangeIncl
  simp only [List.mem_map, List.mem_range]
  constructor
  · rintro ⟨i, hi, rfl⟩
    omega
  · rintro ⟨h1, h2⟩
    exact ⟨v - a, by omega, by omega⟩

theorem mem_queryBoxCells (p : SimParams) (hsX : 0 < p.sizeX) (hsY : 0 < p.sizeY)
    (hsZ : 0 < p.sizeZ) (c : Nat × Nat × Nat) :
    c ∈ queryBoxCells p ↔
      p.queryX0 ≤ c.1 ∧ c.1 ≤ p.queryX1 ∧ c.1 < p.sizeX ∧
      p.queryY0 ≤ c.2.1 ∧ c.2.1 ≤ p.queryY1 ∧ c.2.1 < p.sizeY ∧
      p.queryZ0 ≤ c.2.2 ∧ c.2.2 ≤ p.queryZ1 ∧ c.2.2 < p.sizeZ := by
  obtain ⟨x, y, z⟩ := c
  unfold queryBoxCells
  simp only [hsZ, if_true]
  simp only [List.mem_flatMap, List.mem_map, mem_rangeIncl, Nat.min_def]
  constructor
  · rintro ⟨x', hx', y', hy', z', hz', h⟩
    obtain ⟨rfl, rfl, rfl⟩ : x' = x ∧ y' = y ∧ z' = z := by
      rw [Prod.mk.injEq, Prod.mk.injEq] at h
      tauto
    refine ⟨hx'.1, ?_, ?_, hy'.1, ?_, ?_, hz'.1, ?_, ?_⟩ <;>
      [skip; skip; skip; skip; skip; skip] <;>
      split_ifs at hx' hy' hz' <;> omega
  · rintro ⟨h1, h2, h3, h4, h5, h6, h7, h8, h9⟩
    refine ⟨x, ⟨h1, ?_⟩, y, ⟨h4, ?_⟩, z, ⟨h7, ?_⟩, rfl⟩ <;> split_ifs <;> omega

/-- C6: with positive sizes, `requestedCells` is exactly the set of coordinate
triples inside both the query box and the array bounds; inverted query
intervals make both `requestedCells` and `touchedChunks` empty (the model is
total — no error path is reachable). -/
theorem C6_requested_cells_exact (p : SimParams)
    (hsX : 0 < p.sizeX) (hsY : 0 < p.sizeY) (hsZ : 0 < p.sizeZ) :
    (∀ c : Nat × Nat × Nat,
      c ∈ (SimulationModel.calculateData p).requestedCells ↔
        p.queryX0 ≤ c.1 ∧ c.1 ≤ p.queryX1 ∧ c.1 < p.sizeX ∧
        p.queryY0 ≤ c.2.1 ∧ c.2.1 ≤ p.queryY1 ∧ c.2.1 < p.sizeY ∧
        p.queryZ0 ≤ c.2.2 ∧ c.2.2 ≤ p.queryZ1 ∧ c.2.2 < p.sizeZ) ∧
    ((p.queryX1 < p.queryX0 ∨ p.queryY1 < p.queryY0 ∨ p.queryZ1 < p.queryZ0) →
      (SimulationModel.calculateData p).requestedCells = [] ∧
      (SimulationModel.calculateData p).touchedChunks = []) := by
  have hreq : (SimulationModel.calculateData p).requestedCells =
      (calculateRequestedCellsAndChunks p).1 := rfl
  have htch : (SimulationModel.calculateData p).touchedChunks =
      (calculateRequestedCellsAndChunks p).2 := rfl
  constructor
  · intro c
    rw [hreq, mem_requestedCells, mem_queryBoxCells p hsX hsY hsZ]
  · intro hinv
    have hbox : queryBoxCells p = [] := by
      rw [List.eq_nil_iff_forall_not_mem]
      intro c hc
      rw [mem_queryBoxCells p hsX hsY hsZ] at hc
      omega
    rw [hreq, htch, calculateRequestedCellsAndChunks_eq, hbox]
    exact ⟨rfl, rfl⟩

/-- C6 witness: the 4×4 preset-style configuration. -/
theorem C6_requested_cells_exact_witness :
    (∀ c : Nat × Nat × Nat,
      c ∈ (SimulationModel.calculateData sc1).requestedCells ↔
        sc1.queryX0 ≤ c.1 ∧ c.1 ≤ sc1.queryX1 ∧ c.1 < sc1.sizeX ∧
        sc1.queryY0 ≤ c.2.1 ∧ c.2.1 ≤ sc1.queryY1 ∧ c.2.1 < sc1.sizeY ∧
        sc1.queryZ0 ≤ c.2.2 ∧ c.2.2 ≤ sc1.queryZ1 ∧ c.2.2 < sc1.sizeZ) ∧
    ((sc1.queryX1 < sc1.queryX0 ∨ sc1.queryY1 < sc1.queryY0 ∨ sc1.queryZ1 < sc1.queryZ0) →
      (SimulationModel.calculateData sc1).requestedCells = [] ∧
      (SimulationModel.calculateData sc1).touchedChunks = []) :=
  C6_requested_cells_exact sc1 (by decide) (by decide) (by decide)

end SimulationModel

/-! ## Actual cells, C7 and C8 -/

namespace SimulationModel

theorem mem_foldl_foldl_jsSetAdd {α β : Type} [DecidableEq α] (h : β → List α) (l : List β)
    (init : List α) (a : α) :
    a ∈ l.foldl (fun s idx => (h idx).foldl jsSetAdd s) init ↔
      a ∈ init ∨ ∃ idx ∈ l, a ∈ h idx := by
  induction l generalizing init with
  | nil => simp
  | cons hd tl ih =>
      rw [List.foldl_cons, ih]
      have inner : a ∈ (h hd).foldl jsSetAdd init ↔ a ∈ init ∨ a ∈ h hd := by
        have := mem_foldl_jsSetAdd (fun c : α => c) (h hd) init a
        simpa using this
      rw [inner]
      simp only [List.mem_cons]
      constructor
      · rintro ((h0 | h1) | ⟨idx, hidx, hmem⟩)
        · exact Or.inl h0
        · exact Or.inr ⟨hd, Or.inl rfl, h1⟩
        · exact Or.inr ⟨idx, Or.inr hidx, hmem⟩
      · rintro (h0 | ⟨idx, (rfl | hidx), hmem⟩)
        · exact Or.inl (Or.inl h0)
        · exact Or.inl (Or.inr hmem)
        · exact Or.inr ⟨idx, hidx, hmem⟩

theorem mem_actualCells (p : SimParams) (touched : List Nat) (a : Nat × Nat × Nat) :
    a ∈ calculateActualCellsFromChunks p touched ↔
      ∃ idx ∈ touched, a ∈ chunkCellList p
        (getChunkCoordsFromIndex idx (ceilDiv p.sizeX p.chunkX) (ceilDiv p.sizeY p.chunkY)) := by
  unfold calculateActualCellsFromChunks
  have := mem_foldl_foldl_jsSetAdd
    (fun idx => chunkCellList p
      (getChunkCoordsFromIndex idx (ceilDiv p.sizeX p.chunkX) (ceilDiv p.sizeY p.chunkY)))
    touched [] a
  simpa using this

theorem div_lt_ceilDiv (s c v : Nat) (hc : 0 < c) (hv : v < s) : v / c < ceilDiv s c := by
  unfold ceilDiv
  have h1 : s + c - 1 = (s - 1) + c := by omega
  rw [h1, Nat.add_div_right _ hc]
  have : v / c ≤ (s - 1) / c := Nat.div_le_div_right (by omega)
  omega

theorem getChunkCoords_roundtrip (p : SimParams) (hcX : 0 < p.chunkX) (hcY : 0 < p.chunkY)
    (x y z : Nat) (hx : x < p.sizeX) (hy : y < p.sizeY) :
    getChunkCoordsFromIndex (getChunkIndex p x y z)
        (ceilDiv p.sizeX p.chunkX) (ceilDiv p.sizeY p.chunkY) =
      (x / p.chunkX, y / p.chunkY, z / p.chunkZ) := by
  have hCX := div_lt_ceilDiv p.sizeX p.chunkX x hcX hx
  have hCY := div_lt_ceilDiv p.sizeY p.chunkY y hcY hy
  obtain ⟨e1, e2⟩ := block_decompose (ceilDiv p.sizeX p.chunkX * ceilDiv p.sizeY p.chunkY)
    (x / p.chunkX + y / p.chunkY * ceilDiv p.sizeX p.chunkX) (z / p.chunkZ)
    (xy_lt _ _ _ _ hCX hCY)
  obtain ⟨e3, e4⟩ := block_decompose (ceilDiv p.sizeX p.chunkX) (x / p.chunkX) (y / p.chunkY) hCX
  unfold getChunkIndex getChunkCoordsFromIndex
  rw [Prod.mk.injEq, Prod.mk.injEq]
  refine ⟨?_, ?_, ?_⟩
  · rw [← Nat.mod_mod_of_dvd _ ⟨ceilDiv p.sizeY p.chunkY, rfl⟩, e2, e4]
  · rw [e2, e3]
  · exact e1

theorem cell_mem_chunkCellList (p : SimParams) (hcX : 0 < p.chunkX) (hcY : 0 < p.chunkY)
    (hcZ : 0 < p.chunkZ) (x y z : Nat) (hx : x < p.sizeX) (hy : y < p.sizeY)
    (hz : z < p.sizeZ) :
    (x, y, z) ∈ chunkCellList p (x / p.chunkX, y / p.chunkY, z / p.chunkZ) := by
  have hsZ : 0 < p.sizeZ := by omega
  unfold chunkCellList
  rw [List.mem_flatMap]
  refine ⟨x % p.chunkX, List.mem_range.mpr (Nat.mod_lt _ hcX), ?_⟩
  rw [List.mem_flatMap]
  refine ⟨y % p.chunkY, List.mem_range.mpr (Nat.mod_lt _ hcY), ?_⟩
  rw [List.mem_filterMap]
  refine ⟨z % p.chunkZ, ?_, ?_⟩
  · rw [if_pos hsZ]
    exact List.mem_range.mpr (Nat.mod_lt _ hcZ)
  · have exX : x / p.chunkX * p.chunkX + x % p.chunkX = x := Nat.div_add_mod' x p.chunkX
    have exY : y / p.chunkY * p.chunkY + y % p.chunkY = y := Nat.div_add_mod' y p.chunkY
    have exZ : z / p.chunkZ * p.chunkZ + z % p.chunkZ = z := Nat.div_add_mod' z p.chunkZ
    simp only [exX, exY, exZ]
    rw [if_pos ⟨hx, hy, Or.inr hz⟩]

theorem chunkCellList_bounds (p : SimParams) (ch : Nat × Nat × Nat) (a : Nat × Nat × Nat)
    (ha : a ∈ chunkCellList p ch) :
    a.1 < p.sizeX ∧ a.2.1 < p.sizeY ∧ (p.sizeZ = 0 ∨ a.2.2 < p.sizeZ) := by
  unfold chunkCellList at ha
  simp only [List.mem_flatMap, List.mem_filterMap, List.mem_range] at ha
  obtain ⟨dx, _, dy, _, dz, _, h⟩ := ha
  split_ifs at h with hcond
  obtain rfl : _ = a := Option.some.inj h
  exact hcond

theorem nodup_subset_length {α : Type} [DecidableEq α] {l1 l2 : List α} (h1 : l1.Nodup)
    (hsub : ∀ a ∈ l1, a ∈ l2) : l1.length ≤ l2.length := by
  calc l1.length = l1.toFinset.card := (List.toFinset_card_of_nodup h1).symm
  _ ≤ l2.toFinset.card :=
      Finset.card_le_card (fun a ha => List.mem_toFinset.mpr (hsub a (List.mem_toFinset.mp ha)))
  _ ≤ l2.length := List.toFinset_card_le l2

theorem requestedCells_nodup (p : SimParams) :
    (SimulationModel.calculateData p).requestedCells.Nodup := by
  have : (SimulationModel.calculateData p).requestedCells =
      (calculateRequestedCellsAndChunks p).1 := rfl
  rw [this, calculateRequestedCellsAndChunks_eq]
  have := nodup_foldl_jsSetAdd (fun c : Nat × Nat × Nat => c) (queryBoxCells p) [] List.nodup_nil
  simpa using this

/-- C7: `requestedCells ⊆ actualCells`, `|actualCells| ≥ |requestedCells|`, and
the derived amplification `|actualCells| / |requestedCells|` is at least 1
whenever `requestedCells` is non-empty. -/
theorem C7_requested_subset_actual (p : SimParams)
    (hsX : 0 < p.sizeX) (hsY : 0 < p.sizeY) (hsZ : 0 < p.sizeZ)
    (hcX : 0 < p.chunkX) (hcY : 0 < p.chunkY) (hcZ : 0 < p.chunkZ) :
    (∀ c ∈ (SimulationModel.calculateData p).requestedCells,
       c ∈ (SimulationModel.calculateData p).actualCells) ∧
    (SimulationModel.calculateData p).requestedCells.length ≤
      (SimulationModel.calculateData p).actualCells.length ∧
    (0 < (SimulationModel.calculateData p).requestedCells.length →
      1 ≤ ((SimulationModel.calculateData p).actualCells.length : ℚ) /
            (SimulationModel.calculateData p).requestedCells.length) := by
  have hreq : (SimulationModel.calculateData p).requestedCells =
      (calculateRequestedCellsAndChunks p).1 := rfl
  have hact : (SimulationModel.calculateData p).actualCells =
      calculateActualCellsFromChunks p (calculateRequestedCellsAndChunks p).2 := rfl
  have hsub : ∀ c ∈ (SimulationModel.calculateData p).requestedCells,
      c ∈ (SimulationModel.calculateData p).actualCells := by
    intro c hc
    rw [hreq, mem_requestedCells] at hc
    obtain ⟨x, y, z⟩ := c
    have hb : p.queryX0 ≤ x ∧ x ≤ p.queryX1 ∧ x < p.sizeX ∧
        p.queryY0 ≤ y ∧ y ≤ p.queryY1 ∧ y < p.sizeY ∧
        p.queryZ0 ≤ z ∧ z ≤ p.queryZ1 ∧ z < p.sizeZ :=
      (mem_queryBoxCells p hsX hsY hsZ (x, y, z)).mp hc
    rw [hact, mem_actualCells]
    refine ⟨getChunkIndex p x y z, ?_, ?_⟩
    · rw [mem_touchedChunks]
      exact ⟨(x, y, z), hc, rfl⟩
    · rw [getChunkCoords_roundtrip p hcX hcY x y z (by omega) (by omega)]
      exact cell_mem_chunkCellList p hcX hcY hcZ x y z (by omega) (by omega) (by omega)
  have hlen : (SimulationModel.calculateData p).requestedCells.length ≤
      (SimulationModel.calculateData p).actualCells.length :=
    nodup_subset_length (requestedCells_nodup p) hsub
  refine ⟨hsub, hlen, ?_⟩
  intro hpos
  rw [le_div_iff₀ (by exact_mod_cast hpos), one_mul]
  exact_mod_cast hlen

/-- C7 witness at the 4×4 configuration. -/
theorem C7_requested_subset_actual_witness :
    (∀ c ∈ (SimulationModel.calculateData sc1).requestedCells,
       c ∈ (SimulationModel.calculateData sc1).actualCells) ∧
    (SimulationModel.calculateData sc1).requestedCells.length ≤
      (SimulationModel.calculateData sc1).actualCells.length ∧
    (0 < (SimulationModel.calculateData sc1).requestedCells.length →
      1 ≤ ((SimulationModel.calculateData sc1).actualCells.length : ℚ) /
            (SimulationModel.calculateData sc1).requestedCells.length) :=
  C7_requested_subset_actual sc1 (by decide) (by decide) (by decide)
    (by decide) (by decide) (by decide)

theorem foldl_jsSetAdd_mem_noop {α β : Type} [DecidableEq α] (g : β → α) (k : α) (l : List β)
    (hall : ∀ c ∈ l, g c = k) (init : List α) (hk : k ∈ init) :
    l.foldl (fun s c => jsSetAdd s (g c)) init = init := by
  induction l generalizing init with
  | nil => rfl
  | cons hd tl ih =>
      rw [List.foldl_cons]
      have hstep : jsSetAdd init (g hd) = init := by
        unfold jsSetAdd
        rw [hall hd (List.mem_cons_self hd tl), if_pos hk]
      rw [hstep]
      exact ih (fun c hc => hall c (List.mem_cons_of_mem hd hc)) init hk

theorem foldl_jsSetAdd_const {α β : Type} [DecidableEq α] (g : β → α) (k : α) (l : List β)
    (hall : ∀ c ∈ l, g c = k) (hne : l ≠ []) :
    l.foldl (fun s c => jsSetAdd s (g c)) [] = [k] := by
  obtain ⟨hd, tl, rfl⟩ := List.exists_cons_of_ne_nil hne
  rw [List.foldl_cons]
  have hstep : jsSetAdd ([] : List α) (g hd) = [k] := by
    unfold jsSetAdd
    rw [hall hd (List.mem_cons_self hd tl), if_neg (List.not_mem_nil k)]
    rfl
  rw [hstep]
  exact foldl_jsSetAdd_mem_noop g k tl (fun c hc => hall c (List.mem_cons_of_mem hd hc)) [k]
    (List.mem_singleton.mpr rfl)

/-- C8 (amended): when the chunk size equals the array size on every axis and
the query box actually intersects the array (`requestedCells` non-empty),
`touchedChunks` has size exactly 1 and `actualCells` is the full array. -/
theorem C8_single_chunk (p : SimParams)
    (hsX : 0 < p.sizeX) (hsY : 0 < p.sizeY) (hsZ : 0 < p.sizeZ)
    (heX : p.chunkX = p.sizeX) (heY : p.chunkY = p.sizeY) (heZ : p.chunkZ = p.sizeZ)
    (hne : (SimulationModel.calculateData p).requestedCells ≠ []) :
    (SimulationModel.calculateData p).touchedChunks.length = 1 ∧
    (∀ c : Nat × Nat × Nat, c ∈ (SimulationModel.calculateData p).actualCells ↔
      c.1 < p.sizeX ∧ c.2.1 < p.sizeY ∧ c.2.2 < p.sizeZ) := by
  have hreq : (SimulationModel.calculateData p).requestedCells =
      (calculateRequestedCellsAndChunks p).1 := rfl
  have htch : (SimulationModel.calculateData p).touchedChunks =
      (calculateRequestedCellsAndChunks p).2 := rfl
  have hact : (SimulationModel.calculateData p).actualCells =
      calculateActualCellsFromChunks p (calculateRequestedCellsAndChunks p).2 := rfl
  have hboxne : queryBoxCells p ≠ [] := by
    intro hempty
    apply hne
    rw [hreq, calculateRequestedCellsAndChunks_eq, hempty]
    rfl
  have hall : ∀ c ∈ queryBoxCells p, getChunkIndex p c.1 c.2.1 c.2.2 = 0 := by
    intro c hc
    have hb := (mem_queryBoxCells p hsX hsY hsZ c).mp hc
    unfold getChunkIndex
    have h1 : c.1 / p.chunkX = 0 := Nat.div_eq_of_lt (by omega)
    have h2 : c.2.1 / p.chunkY = 0 := Nat.div_eq_of_lt (by omega)
    have h3 : c.2.2 / p.chunkZ = 0 := Nat.div_eq_of_lt (by omega)
    simp [h1, h2, h3]
  have htched : (calculateRequestedCellsAndChunks p).2 = [0] := by
    rw [calculateRequestedCellsAndChunks_eq]
    exact foldl_jsSetAdd_const _ 0 (queryBoxCells p) hall hboxne
  constructor
  · rw [htch, htched]
    rfl
  · intro c
    obtain ⟨x, y, z⟩ := c
    rw [hact, htched, mem_actualCells]
    have hcoords : getChunkCoordsFromIndex 0 (ceilDiv p.sizeX p.chunkX)
        (ceilDiv p.sizeY p.chunkY) = (0, 0, 0) := by
      unfold getChunkCoordsFromIndex
      simp [Nat.zero_mod, Nat.zero_div]
    constructor
    · rintro ⟨idx, hidx, hmem⟩
      have hb : x < p.sizeX ∧ y < p.sizeY ∧ (p.sizeZ = 0 ∨ z < p.sizeZ) :=
        chunkCellList_bounds p _ (x, y, z) hmem
      exact ⟨hb.1, hb.2.1, show z < p.sizeZ by rcases hb.2.2 with h0 | h0 <;> omega⟩
    · rintro ⟨h1, h2, h3⟩
      have h1' : x < p.sizeX := h1
      have h2' : y < p.sizeY := h2
      have h3' : z < p.sizeZ := h3
      refine ⟨0, List.mem_singleton.mpr rfl, ?_⟩
      rw [hcoords]
      have hmem := cell_mem_chunkCellList p (by omega) (by omega) (by omega) x y z h1' h2' h3'
      have hdx : x / p.chunkX = 0 := Nat.div_eq_of_lt (by omega)
      have hdy : y / p.chunkY = 0 := Nat.div_eq_of_lt (by omega)
      have hdz : z / p.chunkZ = 0 := Nat.div_eq_of_lt (by omega)
      rwa [hdx, hdy, hdz] at hmem

/-- C8 witness: 4×4 array in one 4×4 chunk with a non-empty query. -/
theorem C8_single_chunk_witness :
    (SimulationModel.calculateData wC8).touchedChunks.length = 1 ∧
    (∀ c : Nat × Nat × Nat, c ∈ (SimulationModel.calculateData wC8).actualCells ↔
      c.1 < wC8.sizeX ∧ c.2.1 < wC8.sizeY ∧ c.2.2 < wC8.sizeZ) :=
  C8_single_chunk wC8 (by decide) (by decide) (by decide) (by decide) (by decide) (by decide)
    (by decide)

/-- C8 counterexample: with chunk size equal to array size but an inverted
query interval, `touchedChunks` is empty, not of size 1. -/
theorem C8_counterexample :
    ceC8.chunkX = ceC8.sizeX ∧ ceC8.chunkY = ceC8.sizeY ∧ ceC8.chunkZ = ceC8.sizeZ ∧
    0 < ceC8.sizeX ∧ 0 < ceC8.sizeY ∧ 0 < ceC8.sizeZ ∧
    (SimulationModel.calculateData ceC8).touchedChunks.length ≠ 1 := by
  decide

end SimulationModel

/-! ## Morton (z-order) bit analysis and C4 -/

theorem fold_or_testBit (f : Nat → Nat) (l : List Nat) (a j : Nat) :
    (l.foldl (fun r i => r ||| f i) a).testBit j =
      (a.testBit j || l.any (fun i => (f i).testBit j)) := by
  induction l generalizing a with
  | nil => simp
  | cons hd tl ih =>
      rw [List.foldl_cons, ih, List.any_cons, Nat.testBit_lor, Bool.or_assoc]

/-- testBit of one iteration's or-term of `mortonBits2D`. -/
theorem mortonTerm2D_testBit (x y i j : Nat) (hi : i < 32) :
    ((((x % 2 ^ 32) &&& (1 <<< i)) <<< i) |||
     (((y % 2 ^ 32) &&& (1 <<< i)) <<< (i + 1))).testBit j =
      ((x.testBit i && decide (j = 2 * i)) || (y.testBit i && decide (j = 2 * i + 1))) := by
  have hx : (x % 2 ^ 32).testBit i = x.testBit i := by
    rw [Nat.testBit_mod_two_pow, decide_eq_true hi, Bool.true_and]
  have hy : (y % 2 ^ 32).testBit i = y.testBit i := by
    rw [Nat.testBit_mod_two_pow, decide_eq_true hi, Bool.true_and]
  rw [Nat.one_shiftLeft, Nat.and_two_pow, Nat.and_two_pow, hx, hy, Nat.testBit_lor,
    Nat.shiftLeft_eq, Nat.shiftLeft_eq]
  congr 1
  · cases hbx : x.testBit i with
    | false => simp
    | true =>
        have : (2 : Nat) ^ i * 2 ^ i = 2 ^ (2 * i) := by
          rw [← pow_add]
          ring_nf
        simp only [Bool.toNat_true, one_mul, this, Nat.testBit_two_pow, Bool.true_and]
        exact decide_eq_decide.mpr eq_comm
  · cases hby : y.testBit i with
    | false => simp
    | true =>
        have : (2 : Nat) ^ i * 2 ^ (i + 1) = 2 ^ (2 * i + 1) := by
          rw [← pow_add]
          ring_nf
        simp only [Bool.toNat_true, one_mul, this, Nat.testBit_two_pow, Bool.true_and]
        exact decide_eq_decide.mpr eq_comm

theorem mortonBits2D_testBit_even (x y i : Nat) (hi : i < 16) :
    (mortonBits2D x y).testBit (2 * i) = x.testBit i := by
  unfold mortonBits2D
  rw [fold_or_testBit, Nat.zero_testBit, Bool.false_or]
  cases hx : x.testBit i with
  | true =>
      rw [List.any_eq_true]
      refine ⟨i, List.mem_range.mpr hi, ?_⟩
      rw [mortonTerm2D_testBit x y i (2 * i) (by omega), hx]
      simp
  | false =>
      rw [List.any_eq_false]
      intro i' hi'
      rw [List.mem_range] at hi'
      rw [mortonTerm2D_testBit x y i' (2 * i) (by omega)]
      rcases eq_or_ne i' i with rfl | hne
      · simp [hx]
      · have h1 : ¬(2 * i = 2 * i') := by omega
        have h2 : ¬(2 * i = 2 * i' + 1) := by omega
        simp [h1, h2]

theorem mortonBits2D_testBit_odd (x y i : Nat) (hi : i < 16) :
    (mortonBits2D x y).testBit (2 * i + 1) = y.testBit i := by
  unfold mortonBits2D
  rw [fold_or_testBit, Nat.zero_testBit, Bool.false_or]
  cases hy : y.testBit i with
  | true =>
      rw [List.any_eq_true]
      refine ⟨i, List.mem_range.mpr hi, ?_⟩
      rw [mortonTerm2D_testBit x y i (2 * i + 1) (by omega), hy]
      simp
  | false =>
      rw [List.any_eq_false]
      intro i' hi'
      rw [List.mem_range] at hi'
      rw [mortonTerm2D_testBit x y i' (2 * i + 1) (by omega)]
      rcases eq_or_ne i' i with rfl | hne
      · simp [hy]
      · have h1 : ¬(2 * i + 1 = 2 * i') := by omega
        have h2 : ¬(2 * i + 1 = 2 * i' + 1) := by omega
        simp [h1, h2]

theorem mortonBits2D_testBit_high (x y j : Nat) (hj : 32 ≤ j) :
    (mortonBits2D x y).testBit j = false := by
  unfold mortonBits2D
  rw [fold_or_testBit, Nat.zero_testBit, Bool.false_or, List.any_eq_false]
  intro i hi
  rw [List.mem_range] at hi
  rw [mortonTerm2D_testBit x y i j (by omega)]
  have h1 : ¬(j = 2 * i) := by omega
  have h2 : ¬(j = 2 * i + 1) := by omega
  simp [h1, h2]

theorem mortonBits2D_lt (x y : Nat) : mortonBits2D x y < 2 ^ 32 := by
  have heq : mortonBits2D x y = mortonBits2D x y % 2 ^ 32 := by
    apply Nat.eq_of_testBit_eq
    intro j
    rw [Nat.testBit_mod_two_pow]
    by_cases hj : j < 32
    · rw [decide_eq_true hj, Bool.true_and]
    · rw [mortonBits2D_testBit_high x y j (by omega)]
      simp
  rw [heq]
  exact Nat.mod_lt _ (by norm_num)

theorem mortonBits2D_inj (x y x' y' : Nat) (hx : x < 2 ^ 16) (hy : y < 2 ^ 16)
    (hx' : x' < 2 ^ 16) (hy' : y' < 2 ^ 16) (h : mortonBits2D x y = mortonBits2D x' y') :
    x = x' ∧ y = y' := by
  constructor
  · apply Nat.eq_of_testBit_eq
    intro i
    by_cases hi : i < 16
    · rw [← mortonBits2D_testBit_even x y i hi, ← mortonBits2D_testBit_even x' y' i hi, h]
    · rw [Nat.testBit_eq_false_of_lt (lt_of_lt_of_le hx (Nat.pow_le_pow_right (by omega) (by omega))),
        Nat.testBit_eq_false_of_lt (lt_of_lt_of_le hx' (Nat.pow_le_pow_right (by omega) (by omega)))]
  · apply Nat.eq_of_testBit_eq
    intro i
    by_cases hi : i < 16
    · rw [← mortonBits2D_testBit_odd x y i hi, ← mortonBits2D_testBit_odd x' y' i hi, h]
    · rw [Nat.testBit_eq_false_of_lt (lt_of_lt_of_le hy (Nat.pow_le_pow_right (by omega) (by omega))),
        Nat.testBit_eq_false_of_lt (lt_of_lt_of_le hy' (Nat.pow_le_pow_right (by omega) (by omega)))]

theorem toInt32_mem (n : Nat) : -(2 ^ 31 : Int) ≤ toInt32 n ∧ toInt32 n < 2 ^ 31 := by
  unfold toInt32
  have := Nat.mod_lt n (show 0 < 2 ^ 32 by norm_num)
  split_ifs with h <;> constructor <;> omega

theorem toInt32_inj (a b : Nat) (ha : a < 2 ^ 32) (hb : b < 2 ^ 32)
    (h : toInt32 a = toInt32 b) : a = b := by
  unfold toInt32 at h
  rw [Nat.mod_eq_of_lt ha, Nat.mod_eq_of_lt hb] at h
  split_ifs at h <;> omega

theorem jsPat_toInt32 (n : Nat) : jsPat (toInt32 n) = n % 2 ^ 32 := by
  unfold jsPat toInt32
  have := Nat.mod_lt n (show 0 < 2 ^ 32 by norm_num)
  split_ifs with h <;> omega

theorem mortonEncode2D_injOn :
    Set.InjOn (fun p : Nat × Nat => mortonEncode2D p.1 p.2)
      {p : Nat × Nat | p.1 < 2 ^ 16 ∧ p.2 < 2 ^ 16} := by
  rintro ⟨x, y⟩ hxy ⟨x', y'⟩ hxy' h
  have h' : mortonBits2D x y = mortonBits2D x' y' :=
    toInt32_inj _ _ (mortonBits2D_lt x y) (mortonBits2D_lt x' y') h
  obtain ⟨rfl, rfl⟩ := mortonBits2D_inj x y x' y' hxy.1 hxy.2 hxy'.1 hxy'.2 h'
  rfl

theorem mortonEncode2D_surj (v : Int) (hv1 : -(2 ^ 31) ≤ v) (hv2 : v < 2 ^ 31) :
    ∃ x y : Nat, x < 2 ^ 16 ∧ y < 2 ^ 16 ∧ mortonEncode2D x y = v := by
  obtain ⟨n, hn⟩ : ∃ n : Nat, n = 2 ^ 16 := ⟨2 ^ 16, rfl⟩
  obtain ⟨lo, hlo⟩ : ∃ lo : Int, lo = -(2 ^ 31) := ⟨-(2 ^ 31), rfl⟩
  obtain ⟨hi, hhi⟩ : ∃ hi : Int, hi = 2 ^ 31 := ⟨2 ^ 31, rfl⟩
  have himg : (Finset.range n ×ˢ Finset.range n).image
      (fun p : Nat × Nat => mortonEncode2D p.1 p.2) = Finset.Ico lo hi := by
    apply Finset.eq_of_subset_of_card_le
    · intro w hw
      rw [Finset.mem_image] at hw
      obtain ⟨p, _, rfl⟩ := hw
      rw [Finset.mem_Ico]
      refine ⟨?_, ?_⟩
      · rw [hlo]
        exact (toInt32_mem _).1
      · rw [hhi]
        exact (toInt32_mem _).2
    · rw [Int.card_Ico]
      have hinj : Set.InjOn (fun p : Nat × Nat => mortonEncode2D p.1 p.2)
          ↑(Finset.range n ×ˢ Finset.range n) := by
        intro p hp q hq h
        rw [Finset.mem_coe, Finset.mem_product, Finset.mem_range, Finset.mem_range] at hp hq
        rw [hn] at hp hq
        exact mortonEncode2D_injOn ⟨hp.1, hp.2⟩ ⟨hq.1, hq.2⟩ h
      rw [Finset.card_image_of_injOn hinj, Finset.card_product, Finset.card_range]
      rw [hlo, hhi, hn]
      norm_num
  have hvmem : v ∈ Finset.Ico lo hi :=
    Finset.mem_Ico.mpr ⟨by rw [hlo]; exact hv1, by rw [hhi]; exact hv2⟩
  rw [← himg, Finset.mem_image] at hvmem
  obtain ⟨⟨x, y⟩, hp, heq⟩ := hvmem
  rw [Finset.mem_product, Finset.mem_range, Finset.mem_range] at hp
  rw [hn] at hp
  exact ⟨x, y, hp.1, hp.2, heq⟩

/-- C4 (amended): for `x, y < 2^16`, `mortonEncode2D` places bit `i` of `x` at
even position `2i` and bit `i` of `y` at odd position `2i+1` of the result's
32-bit two's-complement pattern, and is a bijection from `[0, 2^16)²` onto the
signed 32-bit range `[-2^31, 2^31)` (not onto `[0, 4^16)`: the sign bit makes
half the outputs negative). -/
theorem C4_morton_bits_bijection :
    (∀ x y i : Nat, x < 2 ^ 16 → y < 2 ^ 16 → i < 16 →
      (jsPat (mortonEncode2D x y)).testBit (2 * i) = x.testBit i ∧
      (jsPat (mortonEncode2D x y)).testBit (2 * i + 1) = y.testBit i) ∧
    Set.BijOn (fun p : Nat × Nat => mortonEncode2D p.1 p.2)
      {p : Nat × Nat | p.1 < 2 ^ 16 ∧ p.2 < 2 ^ 16}
      (Set.Ico (-(2 ^ 31) : ℤ) (2 ^ 31)) := by
  constructor
  · intro x y i _ _ hi
    have hpat : jsPat (mortonEncode2D x y) = mortonBits2D x y := by
      unfold mortonEncode2D
      rw [jsPat_toInt32, Nat.mod_eq_of_lt (mortonBits2D_lt x y)]
    rw [hpat]
    exact ⟨mortonBits2D_testBit_even x y i hi, mortonBits2D_testBit_odd x y i hi⟩
  · refine ⟨?_, mortonEncode2D_injOn, ?_⟩
    · rintro ⟨x, y⟩ _
      rw [Set.mem_Ico]
      exact ⟨(toInt32_mem _).1, (toInt32_mem _).2⟩
    · rintro v hv
      rw [Set.mem_Ico] at hv
      obtain ⟨x, y, hx, hy, heq⟩ := mortonEncode2D_surj v hv.1 hv.2
      exact ⟨(x, y), ⟨hx, hy⟩, heq⟩

/-- C4 witness: bit placement at concrete coordinates. -/
theorem C4_morton_bits_bijection_witness :
    (jsPat (mortonEncode2D 3 5)).testBit (2 * 2) = (3 : Nat).testBit 2 ∧
    (jsPat (mortonEncode2D 3 5)).testBit (2 * 2 + 1) = (5 : Nat).testBit 2 :=
  C4_morton_bits_bijection.1 3 5 2 (by decide) (by decide) (by decide)

/-- C4 counterexample: `mortonEncode2D(0, 2^15)` equals `-2^31`, a negative
value, so on `[0, 2^16)²` the function is neither non-negative nor onto
`[0, 4^16)`. -/
theorem C4_counterexample :
    (0 : Nat) < 2 ^ 16 ∧ (2 ^ 15 : Nat) < 2 ^ 16 ∧
    mortonEncode2D 0 (2 ^ 15) = -(2 ^ 31) ∧ mortonEncode2D 0 (2 ^ 15) < 0 := by
  decide

/-! ## Hilbert loop: fuel elimination and JS bit tests -/

theorem hilbertGo_congr : ∀ (f1 f2 s : Nat) (x y : Int), s ≤ f1 → s ≤ f2 →
    hilbertGo f1 s x y = hilbertGo f2 s x y := by
  intro f1
  induction f1 with
  | zero =>
      intro f2 s x y h1 _
      interval_cases s
      cases f2 <;> rfl
  | succ f1' ih =>
      intro f2 s x y h1 h2
      cases s with
      | zero => cases f2 <;> rfl
      | succ s' =>
          cases f2 with
          | zero => omega
          | succ f2' =>
              show _ + hilbertGo f1' ((s' + 1) / 2) _ _ = _ + hilbertGo f2' ((s' + 1) / 2) _ _
              have hh : (s' + 1) / 2 ≤ s' := by omega
              rw [ih f2' ((s' + 1) / 2) _ _ (by omega) (by omega)]

/-- The defining equation of the scale loop, with the canonical fuel removed. -/
theorem hilbertLoop_eq (s : Nat) (x y : Int) :
    hilbertLoop s x y = if s = 0 then 0 else
      (s * s * ((3 * (if 0 < jsAnd x (s : Int) then 1 else 0)) ^^^
                (if 0 < jsAnd y (s : Int) then 1 else 0)) +
       hilbertLoop (s / 2)
         (hilbertRotate (s : Int) x y (if 0 < jsAnd x (s : Int) then 1 else 0)
           (if 0 < jsAnd y (s : Int) then 1 else 0)).1
         (hilbertRotate (s : Int) x y (if 0 < jsAnd x (s : Int) then 1 else 0)
           (if 0 < jsAnd y (s : Int) then 1 else 0)).2) := by
  cases s with
  | zero => rfl
  | succ s' =>
      rw [if_neg (Nat.succ_ne_zero s')]
      show hilbertGo (s' + 1) (s' + 1) x y = _
      have hcast : ((s' : Int) + 1) = ((s' + 1 : Nat) : Int) := by push_cast; ring
      show _ + hilbertGo s' ((s' + 1) / 2) _ _ = _ + hilbertLoop ((s' + 1) / 2) _ _
      rw [hcast]
      unfold hilbertLoop
      rw [hilbertGo_congr s' ((s' + 1) / 2) ((s' + 1) / 2) _ _ (by omega) le_rfl]

theorem jsPat_natCast (x : Nat) (hx : x < 2 ^ 32) : jsPat (x : Int) = x := by
  unfold jsPat
  rw [Int.emod_eq_of_lt (by positivity) (by exact_mod_cast hx)]
  exact Int.toNat_natCast x

/-- The JS test `(x & 2^j) > 0` extracts bit `j` of the 32-bit pattern. -/
theorem jsAnd_two_pow_pos (x : Int) (j : Nat) (hj : j ≤ 30) :
    (0 < jsAnd x ((2 ^ j : Nat) : Int)) ↔ (jsPat x).testBit j = true := by
  unfold jsAnd
  rw [jsPat_natCast (2 ^ j) (by exact Nat.pow_lt_pow_right (by omega) (by omega)),
    Nat.and_two_pow]
  unfold toInt32
  cases hb : (jsPat x).testBit j with
  | false =>
      simp only [Bool.toNat_false, Nat.zero_mul, Nat.zero_mod]
      norm_num
  | true =>
      have hlt : (2 : Nat) ^ j < 2 ^ 31 := Nat.pow_lt_pow_right (by omega) (by omega)
      simp only [Bool.toNat_true, Nat.one_mul]
      rw [Nat.mod_eq_of_lt (lt_trans hlt (by norm_num)), if_pos hlt]
      refine ⟨fun _ => trivial, fun _ => ?_⟩
      positivity

/-- Bit `j` of the 32-bit pattern only depends on the value modulo `2^(j+1)`. -/
theorem jsPat_testBit_congr (x x' : Int) (j : Nat) (hj : j ≤ 30)
    (h : x % ((2 ^ (j + 1) : Nat) : Int) = x' % ((2 ^ (j + 1) : Nat) : Int)) :
    (jsPat x).testBit j = (jsPat x').testBit j := by
  have key : ∀ z : Int, (jsPat z).testBit j =
      ((z % ((2 ^ (j + 1) : Nat) : Int)).toNat).testBit j := by
    intro z
    have h1 : (jsPat z).testBit j = ((jsPat z) % 2 ^ (j + 1)).testBit j := by
      rw [Nat.testBit_mod_two_pow, decide_eq_true (by omega : j < j + 1), Bool.true_and]
    have h2 : (jsPat z) % 2 ^ (j + 1) = (z % ((2 ^ (j + 1) : Nat) : Int)).toNat := by
      have hz32 : (0 : Int) ≤ z % (2 ^ 32 : Int) := Int.emod_nonneg z (by positivity)
      have hdvd : ((2 ^ (j + 1) : Nat) : Int) ∣ ((2 : Int) ^ 32) := by
        exact_mod_cast pow_dvd_pow (2 : Nat) (by omega : j + 1 ≤ 32)
      have hzn : ((jsPat z : Nat) : Int) = z % (2 ^ 32 : Int) := by
        unfold jsPat
        exact Int.toNat_of_nonneg hz32
      have hmm : z % ((2 ^ (j + 1) : Nat) : Int) =
          ((jsPat z : Nat) : Int) % ((2 ^ (j + 1) : Nat) : Int) := by
        rw [hzn, Int.emod_emod_of_dvd z hdvd]
      rw [hmm, ← Int.natCast_mod, Int.toNat_natCast]
    rw [h1, h2]
  rw [key x, key x', h]

theorem jsPat_testBit_natCast (x : Nat) (j : Nat) (hj : j ≤ 30) (hx : x < 2 ^ 32) :
    (jsPat (x : Int)).testBit j = x.testBit j := by
  rw [jsPat_natCast x hx]

/-- The scale loop starting at `2^m / 2` only depends on the coordinates
modulo `2^m`: each scale tests one bit below position `m`, and the rotations
preserve congruences. -/
theorem hilbertLoop_congr_mod : ∀ (m : Nat), m ≤ 31 → ∀ (x y x' y' : Int),
    x % ((2 ^ m : Nat) : Int) = x' % ((2 ^ m : Nat) : Int) →
    y % ((2 ^ m : Nat) : Int) = y' % ((2 ^ m : Nat) : Int) →
    hilbertLoop (2 ^ m / 2) x y = hilbertLoop (2 ^ m / 2) x' y' := by
  intro m
  induction m with
  | zero => intro _ x y x' y' _ _; rfl
  | succ m' ih =>
      intro _hm x y x' y' hx hy
      have hs : 2 ^ (m' + 1) / 2 = 2 ^ m' := by
        rw [Nat.pow_succ, Nat.mul_div_cancel _ (by omega)]
      have hsne : (2 : Nat) ^ m' ≠ 0 := by positivity
      have hred : ∀ a b : Int,
          a % ((2 ^ (m' + 1) : Nat) : Int) = b % ((2 ^ (m' + 1) : Nat) : Int) →
          a % ((2 ^ m' : Nat) : Int) = b % ((2 ^ m' : Nat) : Int) := by
        intro a b h
        have hdvd : ((2 ^ m' : Nat) : Int) ∣ ((2 ^ (m' + 1) : Nat) : Int) := by
          exact_mod_cast pow_dvd_pow 2 (Nat.le_succ m')
        rw [← Int.emod_emod_of_dvd a hdvd, ← Int.emod_emod_of_dvd b hdvd, h]
      have hxr := hred x x' hx
      have hyr := hred y y' hy
      have hbx : (jsPat x).testBit m' = (jsPat x').testBit m' :=
        jsPat_testBit_congr x x' m' (by omega) hx
      have hby : (jsPat y).testBit m' = (jsPat y').testBit m' :=
        jsPat_testBit_congr y y' m' (by omega) hy
      have hrx : (if 0 < jsAnd x ((2 ^ m' : Nat) : Int) then (1 : Nat) else 0) =
          (if 0 < jsAnd x' ((2 ^ m' : Nat) : Int) then (1 : Nat) else 0) := by
        refine if_congr ?_ rfl rfl
        rw [jsAnd_two_pow_pos x m' (by omega), jsAnd_two_pow_pos x' m' (by omega), hbx]
      have hry : (if 0 < jsAnd y ((2 ^ m' : Nat) : Int) then (1 : Nat) else 0) =
          (if 0 < jsAnd y' ((2 ^ m' : Nat) : Int) then (1 : Nat) else 0) := by
        refine if_congr ?_ rfl rfl
        rw [jsAnd_two_pow_pos y m' (by omega), jsAnd_two_pow_pos y' m' (by omega), hby]
      rw [hs, hilbertLoop_eq (2 ^ m') x y, hilbertLoop_eq (2 ^ m') x' y',
        if_neg hsne, if_neg hsne, hrx, hry]
      generalize (if 0 < jsAnd x' ((2 ^ m' : Nat) : Int) then (1 : Nat) else 0) = rx
      generalize (if 0 < jsAnd y' ((2 ^ m' : Nat) : Int) then (1 : Nat) else 0) = ry
      have hcomp :
          (hilbertRotate ((2 ^ m' : Nat) : Int) x y rx ry).1 % ((2 ^ m' : Nat) : Int) =
            (hilbertRotate ((2 ^ m' : Nat) : Int) x' y' rx ry).1 % ((2 ^ m' : Nat) : Int) ∧
          (hilbertRotate ((2 ^ m' : Nat) : Int) x y rx ry).2 % ((2 ^ m' : Nat) : Int) =
            (hilbertRotate ((2 ^ m' : Nat) : Int) x' y' rx ry).2 % ((2 ^ m' : Nat) : Int) := by
        unfold hilbertRotate
        split_ifs
        · exact ⟨by rw [Int.sub_emod _ y, Int.sub_emod _ y', hyr],
                 by rw [Int.sub_emod _ x, Int.sub_emod _ x', hxr]⟩
        · exact ⟨hyr, hxr⟩
        · exact ⟨hxr, hyr⟩
      exact congrArg₂ HAdd.hAdd rfl (ih (by omega) _ _ _ _ hcomp.1 hcomp.2)

theorem testBit_high_bit (x m : Nat) (hx : x < 2 ^ (m + 1)) :
    x.testBit m = decide (2 ^ m ≤ x) := by
  rw [Nat.testBit_to_div_mod]
  have hP : 0 < 2 ^ m := by positivity
  have hd2 : x / 2 ^ m < 2 := by
    rw [Nat.div_lt_iff_lt_mul hP]
    rw [Nat.pow_succ] at hx
    omega
  have h1 : 1 ≤ x / 2 ^ m ↔ 2 ^ m ≤ x := Nat.one_le_div_iff hP
  have hd01 : x / 2 ^ m = 0 ∨ x / 2 ^ m = 1 :=
    Nat.le_one_iff_eq_zero_or_eq_one.mp (Nat.lt_succ_iff.mp hd2)
  rcases hd01 with h | h <;> rw [h]
  · have hn : ¬(2 ^ m ≤ x) := by
      intro hle
      have := h1.mpr hle
      omega
    simp [hn]
  · have hy : 2 ^ m ≤ x := h1.mp (by omega)
    simp [hy]

/-- For a coordinate below `2^(m+1)`, the JS quadrant bit at scale `2^m` is the
top bit `x / 2^m`. -/
theorem rx_of_lt (x m : Nat) (hm : m ≤ 30) (hx : x < 2 ^ (m + 1)) :
    (if 0 < jsAnd (x : Int) ((2 ^ m : Nat) : Int) then (1 : Nat) else 0) = x / 2 ^ m := by
  have hx32 : x < 2 ^ 32 :=
    lt_of_lt_of_le hx (Nat.pow_le_pow_right (by omega) (by omega))
  have hcond : (0 < jsAnd (x : Int) ((2 ^ m : Nat) : Int)) ↔ (2 ^ m ≤ x) := by
    rw [jsAnd_two_pow_pos _ m hm, jsPat_natCast x hx32, testBit_high_bit x m hx]
    simp
  have hP : 0 < 2 ^ m := by positivity
  by_cases hc : 2 ^ m ≤ x
  · rw [if_pos (hcond.mpr hc)]
    symm
    apply Nat.div_eq_of_lt_le (by omega)
    rw [Nat.pow_succ] at hx
    omega
  · rw [if_neg (fun h => hc (hcond.mp h)), Nat.div_eq_of_lt (by omega)]

theorem hilbertStepCanon_lt (m x y : Nat) :
    (hilbertStepCanon m x y).1 < 2 ^ m ∧ (hilbertStepCanon m x y).2 < 2 ^ m := by
  have hP : 0 < 2 ^ m := by positivity
  have h1 := Nat.mod_lt x hP
  have h2 := Nat.mod_lt y hP
  unfold hilbertStepCanon
  split_ifs <;> constructor <;> simp only [] <;> omega

theorem hilbertLoop_decomp (m : Nat) (hm : m ≤ 30) (x y : Nat)
    (hx : x < 2 ^ (m + 1)) (hy : y < 2 ^ (m + 1)) :
    hilbertLoop (2 ^ (m + 1) / 2) (x : Int) (y : Int) =
      2 ^ m * 2 ^ m * ((3 * (x / 2 ^ m)) ^^^ (y / 2 ^ m)) +
      hilbertLoop (2 ^ m / 2) ((hilbertStepCanon m x y).1 : Int)
        ((hilbertStepCanon m x y).2 : Int) := by
  have hP : (0 : Nat) < 2 ^ m := by positivity
  have hs : 2 ^ (m + 1) / 2 = 2 ^ m := by
    rw [Nat.pow_succ, Nat.mul_div_cancel _ (by omega)]
  rw [hs, hilbertLoop_eq (2 ^ m), if_neg (by omega : ¬(2 : Nat) ^ m = 0),
    rx_of_lt x m hm hx, rx_of_lt y m hm hy]
  have hcan : ∀ a : Nat, ((a % 2 ^ m : Nat) : Int) % ((2 ^ m : Nat) : Int) =
      (a : Int) % ((2 ^ m : Nat) : Int) := by
    intro a
    push_cast
    exact Int.emod_emod_of_dvd _ dvd_rfl
  have hx2 : x < 2 ^ m * 2 := by rw [← Nat.pow_succ]; exact hx
  have hy2 : y < 2 ^ m * 2 := by rw [← Nat.pow_succ]; exact hy
  have hcomp :
      (hilbertRotate ((2 ^ m : Nat) : Int) (x : Int) (y : Int) (x / 2 ^ m) (y / 2 ^ m)).1 %
          ((2 ^ m : Nat) : Int) =
        ((hilbertStepCanon m x y).1 : Int) % ((2 ^ m : Nat) : Int) ∧
      (hilbertRotate ((2 ^ m : Nat) : Int) (x : Int) (y : Int) (x / 2 ^ m) (y / 2 ^ m)).2 %
          ((2 ^ m : Nat) : Int) =
        ((hilbertStepCanon m x y).2 : Int) % ((2 ^ m : Nat) : Int) := by
    by_cases hry : y / 2 ^ m = 0
    · have hylt : y < 2 ^ m := by
        rcases Nat.lt_or_ge y (2 ^ m) with h | h
        · exact h
        · exact absurd hry (by have := (Nat.one_le_div_iff hP).mpr h; omega)
      by_cases hrx : x / 2 ^ m = 1
      · have hxge : 2 ^ m ≤ x := by
          rcases Nat.lt_or_ge x (2 ^ m) with h | h
          · rw [Nat.div_eq_of_lt h] at hrx; omega
          · exact h
        have hrot : hilbertRotate ((2 ^ m : Nat) : Int) (x : Int) (y : Int)
            (x / 2 ^ m) (y / 2 ^ m) =
            (((2 ^ m : Nat) : Int) - 1 - (y : Int), ((2 ^ m : Nat) : Int) - 1 - (x : Int)) := by
          unfold hilbertRotate
          rw [hry, hrx, if_pos rfl, if_pos rfl]
        have hcanon : hilbertStepCanon m x y =
            (2 ^ m - 1 - y % 2 ^ m, 2 ^ m - 1 - x % 2 ^ m) := by
          unfold hilbertStepCanon
          rw [hry, hrx, if_pos rfl, if_pos rfl]
        rw [hrot, hcanon]
        constructor
        · show (((2 ^ m : Nat) : Int) - 1 - (y : Int)) % ((2 ^ m : Nat) : Int) =
            ((2 ^ m - 1 - y % 2 ^ m : Nat) : Int) % ((2 ^ m : Nat) : Int)
          rw [Nat.mod_eq_of_lt hylt]
          congr 1
          omega
        · show (((2 ^ m : Nat) : Int) - 1 - (x : Int)) % ((2 ^ m : Nat) : Int) =
            ((2 ^ m - 1 - x % 2 ^ m : Nat) : Int) % ((2 ^ m : Nat) : Int)
          have hxm : x % 2 ^ m = x - 2 ^ m := by
            rw [Nat.mod_eq_sub_mod hxge, Nat.mod_eq_of_lt (by omega)]
          have harg : ((2 ^ m : Nat) : Int) - 1 - (x : Int) =
              ((2 ^ m - 1 - x % 2 ^ m : Nat) : Int) - ((2 ^ m : Nat) : Int) := by
            rw [hxm]
            omega
          have hsub : ∀ A n : Int, (A - n) % n = A % n := by
            intro A n
            rw [Int.sub_emod, Int.emod_self, sub_zero, Int.emod_emod_of_dvd _ dvd_rfl]
          rw [harg, hsub]
      · have hrx0 : x / 2 ^ m = 0 := by
          rcases Nat.lt_or_ge x (2 ^ m) with h | h
          · exact Nat.div_eq_of_lt h
          · exact absurd
              (Nat.div_eq_of_lt_le (by omega : 1 * 2 ^ m ≤ x)
                (by omega : x < (1 + 1) * 2 ^ m))
              hrx
        have hrot : hilbertRotate ((2 ^ m : Nat) : Int) (x : Int) (y : Int)
            (x / 2 ^ m) (y / 2 ^ m) = ((y : Int), (x : Int)) := by
          unfold hilbertRotate
          rw [hry, hrx0, if_pos rfl, if_neg (by omega : ¬(0 : Nat) = 1)]
        have hcanon : hilbertStepCanon m x y = (y % 2 ^ m, x % 2 ^ m) := by
          unfold hilbertStepCanon
          rw [hry, hrx0, if_pos rfl, if_neg (by omega : ¬(0 : Nat) = 1)]
        rw [hrot, hcanon]
        exact ⟨(hcan y).symm, (hcan x).symm⟩
    · have hrot : hilbertRotate ((2 ^ m : Nat) : Int) (x : Int) (y : Int)
          (x / 2 ^ m) (y / 2 ^ m) = ((x : Int), (y : Int)) := by
        unfold hilbertRotate
        rw [if_neg hry]
      have hcanon : hilbertStepCanon m x y = (x % 2 ^ m, y % 2 ^ m) := by
        unfold hilbertStepCanon
        rw [if_neg hry]
      rw [hrot, hcanon]
      exact ⟨(hcan x).symm, (hcan y).symm⟩
  refine congrArg₂ HAdd.hAdd rfl ?_
  exact hilbertLoop_congr_mod m (by omega) _ _ _ _ hcomp.1 hcomp.2

theorem quad_le (rx ry : Nat) (h1 : rx ≤ 1) (h2 : ry ≤ 1) : (3 * rx) ^^^ ry ≤ 3 := by
  interval_cases rx <;> interval_cases ry <;> decide

theorem quad_inj (rx ry rx' ry' : Nat) (h1 : rx ≤ 1) (h2 : ry ≤ 1) (h3 : rx' ≤ 1)
    (h4 : ry' ≤ 1) (h : (3 * rx) ^^^ ry = (3 * rx') ^^^ ry') : rx = rx' ∧ ry = ry' := by
  interval_cases rx <;> interval_cases ry <;> interval_cases rx' <;> interval_cases ry' <;>
    revert h <;> decide

theorem quad_surj (q : Nat) (hq : q < 4) :
    ∃ rx ry : Nat, rx ≤ 1 ∧ ry ≤ 1 ∧ (3 * rx) ^^^ ry = q := by
  interval_cases q
  · exact ⟨0, 0, by decide, by decide, by decide⟩
  · exact ⟨0, 1, by decide, by decide, by decide⟩
  · exact ⟨1, 1, by decide, by decide, by decide⟩
  · exact ⟨1, 0, by decide, by decide, by decide⟩

theorem euclid_unique (F q1 r1 q2 r2 : Nat) (hr1 : r1 < F) (hr2 : r2 < F)
    (h : F * q1 + r1 = F * q2 + r2) : q1 = q2 ∧ r1 = r2 := by
  have e1 : r1 + q1 * F = F * q1 + r1 := by ring
  have e2 : r2 + q2 * F = F * q2 + r2 := by ring
  obtain ⟨d1, m1⟩ := block_decompose F r1 q1 hr1
  obtain ⟨d2, m2⟩ := block_decompose F r2 q2 hr2
  rw [e1] at d1 m1
  rw [e2] at d2 m2
  rw [h] at d1 m1
  exact ⟨d1.symm.trans d2, m1.symm.trans m2⟩

theorem top_div_le (x m : Nat) (hx : x < 2 ^ (m + 1)) : x / 2 ^ m ≤ 1 := by
  have hP : 0 < 2 ^ m := by positivity
  have h2 : x / 2 ^ m < 2 := by
    rw [Nat.div_lt_iff_lt_mul hP]
    rw [Nat.pow_succ] at hx
    omega
  omega

theorem two_pow_sq (m : Nat) : (2 : Nat) ^ m * 2 ^ m = 4 ^ m := by
  rw [← pow_add]
  have : (4 : Nat) = 2 ^ 2 := rfl
  rw [this, ← pow_mul]
  ring_nf

/-- Building a level-`m+1` coordinate pair realizing a given quadrant and a
given level-`m` canonical pair. -/
theorem hilbert_exists_step (m : Nat) (hm : m ≤ 30) (rx ry a b d : Nat)
    (ha : a < 2 ^ m) (hb : b < 2 ^ m) (hrx : rx ≤ 1) (hry : ry ≤ 1)
    (hd : d = 4 ^ m * ((3 * rx) ^^^ ry) + hilbertLoop (2 ^ m / 2) (a : Int) (b : Int)) :
    ∃ x y : Nat, x < 2 ^ (m + 1) ∧ y < 2 ^ (m + 1) ∧
      hilbertLoop (2 ^ (m + 1) / 2) (x : Int) (y : Int) = d := by
  have hP : (0 : Nat) < 2 ^ m := by positivity
  have hPP : (2 : Nat) ^ m < 2 ^ (m + 1) := by rw [Nat.pow_succ]; omega
  interval_cases rx <;> interval_cases ry
  · -- (rx, ry) = (0, 0): x := b, y := a, canon = (y, x) = (a, b)
    refine ⟨b, a, by omega, by omega, ?_⟩
    rw [hilbertLoop_decomp m hm b a (by omega) (by omega)]
    have hdb : b / 2 ^ m = 0 := Nat.div_eq_of_lt hb
    have hda : a / 2 ^ m = 0 := Nat.div_eq_of_lt ha
    have hcanon : hilbertStepCanon m b a = (a, b) := by
      unfold hilbertStepCanon
      rw [hda, hdb, if_pos rfl, if_neg (by omega), Nat.mod_eq_of_lt ha, Nat.mod_eq_of_lt hb]
    rw [hdb, hda, hcanon, two_pow_sq, hd]
  · -- (0, 1): x := a, y := 2^m + b, canon = (x % 2^m, y % 2^m) = (a, b)
    refine ⟨a, 2 ^ m + b, by omega, by rw [Nat.pow_succ]; omega, ?_⟩
    rw [hilbertLoop_decomp m hm a (2 ^ m + b) (by omega) (by rw [Nat.pow_succ]; omega)]
    have hda : a / 2 ^ m = 0 := Nat.div_eq_of_lt ha
    have hdy : (2 ^ m + b) / 2 ^ m = 1 := by
      rw [Nat.add_comm, Nat.add_div_right _ hP, Nat.div_eq_of_lt hb]
    have hcanon : hilbertStepCanon m a (2 ^ m + b) = (a, b) := by
      unfold hilbertStepCanon
      rw [hdy, if_neg (by omega), Nat.mod_eq_of_lt ha, Nat.add_comm,
        Nat.add_mod_right, Nat.mod_eq_of_lt hb]
    rw [hda, hdy, hcanon, two_pow_sq]
    dsimp only
    exact hd.symm
  · -- (1, 0): x := 2^m + (2^m - 1 - b), y := 2^m - 1 - a
    refine ⟨2 ^ m + (2 ^ m - 1 - b), 2 ^ m - 1 - a, by rw [Nat.pow_succ]; omega, by omega, ?_⟩
    rw [hilbertLoop_decomp m hm (2 ^ m + (2 ^ m - 1 - b)) (2 ^ m - 1 - a)
      (by rw [Nat.pow_succ]; omega) (by omega)]
    have hdx : (2 ^ m + (2 ^ m - 1 - b)) / 2 ^ m = 1 := by
      rw [Nat.add_comm, Nat.add_div_right _ hP, Nat.div_eq_of_lt (by omega)]
    have hdy : (2 ^ m - 1 - a) / 2 ^ m = 0 := Nat.div_eq_of_lt (by omega)
    have hcanon : hilbertStepCanon m (2 ^ m + (2 ^ m - 1 - b)) (2 ^ m - 1 - a) = (a, b) := by
      unfold hilbertStepCanon
      rw [hdy, hdx, if_pos rfl, if_pos rfl, Nat.mod_eq_of_lt (by omega : 2 ^ m - 1 - a < 2 ^ m),
        Nat.add_comm, Nat.add_mod_right, Nat.mod_eq_of_lt (by omega : 2 ^ m - 1 - b < 2 ^ m)]
      have e1 : 2 ^ m - 1 - (2 ^ m - 1 - a) = a := by omega
      have e2 : 2 ^ m - 1 - (2 ^ m - 1 - b) = b := by omega
      rw [e1, e2]
    rw [hdx, hdy, hcanon, two_pow_sq]
    dsimp only
    exact hd.symm

  · -- (1, 1): x := 2^m + a, y := 2^m + b
    refine ⟨2 ^ m + a, 2 ^ m + b, by rw [Nat.pow_succ]; omega, by rw [Nat.pow_succ]; omega, ?_⟩
    rw [hilbertLoop_decomp m hm (2 ^ m + a) (2 ^ m + b) (by rw [Nat.pow_succ]; omega)
      (by rw [Nat.pow_succ]; omega)]
    have hdx : (2 ^ m + a) / 2 ^ m = 1 := by
      rw [Nat.add_comm, Nat.add_div_right _ hP, Nat.div_eq_of_lt ha]
    have hdy : (2 ^ m + b) / 2 ^ m = 1 := by
      rw [Nat.add_comm, Nat.add_div_right _ hP, Nat.div_eq_of_lt hb]
    have hcanon : hilbertStepCanon m (2 ^ m + a) (2 ^ m + b) = (a, b) := by
      unfold hilbertStepCanon
      rw [hdy, if_neg (by omega), Nat.add_comm (2 ^ m) a, Nat.add_comm (2 ^ m) b,
        Nat.add_mod_right, Nat.add_mod_right, Nat.mod_eq_of_lt ha, Nat.mod_eq_of_lt hb]
    rw [hdx, hdy, hcanon, two_pow_sq]
    dsimp only
    exact hd.symm
/-- The hilbert scale loop is a bijection from `[0, 2^k)²` onto `[0, 4^k)`. -/
theorem hilbert_bij : ∀ (k : Nat), k ≤ 31 →
    (∀ x y : Nat, x < 2 ^ k → y < 2 ^ k →
       hilbertLoop (2 ^ k / 2) (x : Int) (y : Int) < 4 ^ k) ∧
    (∀ d : Nat, d < 4 ^ k → ∃! p : Nat × Nat, p.1 < 2 ^ k ∧ p.2 < 2 ^ k ∧
       hilbertLoop (2 ^ k / 2) (p.1 : Int) (p.2 : Int) = d) := by
  intro k
  induction k with
  | zero =>
      intro _
      constructor
      · intro x y hx hy
        interval_cases x
        interval_cases y
        show hilbertLoop 0 0 0 < 1
        decide
      · intro d hd
        interval_cases d
        refine ⟨(0, 0), ⟨by norm_num, by norm_num, by decide⟩, ?_⟩
        rintro ⟨a, b⟩ ⟨ha, hb, _⟩
        have ha0 : a = 0 := by omega
        have hb0 : b = 0 := by omega
        rw [ha0, hb0]
  | succ m ih =>
      intro hk
      have ihA := (ih (by omega)).1
      have ihB := (ih (by omega)).2
      have hm : m ≤ 30 := by omega
      have hP : (0 : Nat) < 2 ^ m := by positivity
      have hF : (0 : Nat) < 4 ^ m := by positivity
      have hinj : ∀ x y x' y' : Nat, x < 2 ^ (m + 1) → y < 2 ^ (m + 1) →
          x' < 2 ^ (m + 1) → y' < 2 ^ (m + 1) →
          hilbertLoop (2 ^ (m + 1) / 2) (x : Int) (y : Int) =
            hilbertLoop (2 ^ (m + 1) / 2) (x' : Int) (y' : Int) →
          x = x' ∧ y = y' := by
        intro x y x' y' hx hy hx' hy' heq
        rw [hilbertLoop_decomp m hm x y hx hy, hilbertLoop_decomp m hm x' y' hx' hy',
          two_pow_sq] at heq
        have hc1 := hilbertStepCanon_lt m x y
        have hc2 := hilbertStepCanon_lt m x' y'
        have hr1 := ihA _ _ hc1.1 hc1.2
        have hr2 := ihA _ _ hc2.1 hc2.2
        obtain ⟨hq, hr⟩ := euclid_unique (4 ^ m) _ _ _ _ hr1 hr2 heq
        obtain ⟨hrx, hry⟩ := quad_inj _ _ _ _ (top_div_le x m hx) (top_div_le y m hy)
          (top_div_le x' m hx') (top_div_le y' m hy') hq
        obtain ⟨pc, _, hunc⟩ :=
          ihB (hilbertLoop (2 ^ m / 2) ((hilbertStepCanon m x y).1 : Int)
            ((hilbertStepCanon m x y).2 : Int)) hr1
        have e1 : hilbertStepCanon m x y = pc := hunc _ ⟨hc1.1, hc1.2, rfl⟩
        have e2 : hilbertStepCanon m x' y' = pc := hunc _ ⟨hc2.1, hc2.2, hr.symm⟩
        have ecanon : hilbertStepCanon m x y = hilbertStepCanon m x' y' := e1.trans e2.symm
        have hmx := Nat.mod_lt x hP
        have hmy := Nat.mod_lt y hP
        have hmx' := Nat.mod_lt x' hP
        have hmy' := Nat.mod_lt y' hP
        have hmods : x % 2 ^ m = x' % 2 ^ m ∧ y % 2 ^ m = y' % 2 ^ m := by
          unfold hilbertStepCanon at ecanon
          rw [hrx, hry] at ecanon
          split_ifs at ecanon with h1 h2
          · have f1 := congrArg Prod.fst ecanon
            have f2 := congrArg Prod.snd ecanon
            simp only [] at f1 f2
            constructor <;> omega
          · have f1 := congrArg Prod.fst ecanon
            have f2 := congrArg Prod.snd ecanon
            simp only [] at f1 f2
            exact ⟨f2, f1⟩
          · have f1 := congrArg Prod.fst ecanon
            have f2 := congrArg Prod.snd ecanon
            simp only [] at f1 f2
            exact ⟨f1, f2⟩
        have dx1 := Nat.div_add_mod x (2 ^ m)
        have dx2 := Nat.div_add_mod x' (2 ^ m)
        have dy1 := Nat.div_add_mod y (2 ^ m)
        have dy2 := Nat.div_add_mod y' (2 ^ m)
        rw [hrx, hmods.1] at dx1
        rw [hry, hmods.2] at dy1
        constructor <;> omega
      constructor
      · -- range
        intro x y hx hy
        rw [hilbertLoop_decomp m hm x y hx hy, two_pow_sq]
        have hrest := ihA _ _ (hilbertStepCanon_lt m x y).1 (hilbertStepCanon_lt m x y).2
        have hq := quad_le _ _ (top_div_le x m hx) (top_div_le y m hy)
        have hmul : 4 ^ m * ((3 * (x / 2 ^ m)) ^^^ (y / 2 ^ m)) ≤ 4 ^ m * 3 :=
          Nat.mul_le_mul_left _ hq
        have h4 : (4 : Nat) ^ (m + 1) = 4 * 4 ^ m := by rw [Nat.pow_succ]; ring
        omega
      · -- bijection
        intro d hd
        have hq4 : d / 4 ^ m < 4 := by
          rw [Nat.div_lt_iff_lt_mul hF]
          rw [Nat.pow_succ] at hd
          omega
        have hrlt : d % 4 ^ m < 4 ^ m := Nat.mod_lt _ hF
        obtain ⟨⟨a, b⟩, hpab, _⟩ := ihB (d % 4 ^ m) hrlt
        have ha : a < 2 ^ m := hpab.1
        have hb : b < 2 ^ m := hpab.2.1
        have hab : hilbertLoop (2 ^ m / 2) (a : Int) (b : Int) = d % 4 ^ m := hpab.2.2
        obtain ⟨rx, ry, hrx1, hry1, hqv⟩ := quad_surj (d / 4 ^ m) hq4
        have hdecomp : d = 4 ^ m * ((3 * rx) ^^^ ry) +
            hilbertLoop (2 ^ m / 2) (a : Int) (b : Int) := by
          rw [hqv, hab]
          have := Nat.div_add_mod d (4 ^ m)
          omega
        obtain ⟨x, y, hx, hy, hval⟩ :=
          hilbert_exists_step m hm rx ry a b d ha hb hrx1 hry1 hdecomp
        refine ⟨(x, y), ⟨hx, hy, hval⟩, ?_⟩
        rintro ⟨x', y'⟩ ⟨hx', hy', hval'⟩
        obtain ⟨ex, ey⟩ := hinj x' y' x y hx' hy' hx hy (hval'.trans hval.symm)
        rw [ex, ey]

/-! ## The spec's hilbert recurrence (refinement comparison for C3) -/

theorem hilbertSpecGo_congr (n : Nat) : ∀ (f1 f2 s x y : Nat), s ≤ f1 → s ≤ f2 →
    hilbertSpecGo n f1 s x y = hilbertSpecGo n f2 s x y := by
  intro f1
  induction f1 with
  | zero =>
      intro f2 s x y h1 _
      interval_cases s
      cases f2 <;> rfl
  | succ f1' ih =>
      intro f2 s x y h1 h2
      cases s with
      | zero => cases f2 <;> rfl
      | succ s' =>
          cases f2 with
          | zero => omega
          | succ f2' =>
              show _ + hilbertSpecGo n f1' ((s' + 1) / 2) _ _ =
                _ + hilbertSpecGo n f2' ((s' + 1) / 2) _ _
              rw [ih f2' ((s' + 1) / 2) _ _ (by omega) (by omega)]

theorem hilbertSpecLoop_eq (n s : Nat) (x y : Nat) :
    hilbertSpecLoop n s x y = if s = 0 then 0 else
      (s * s * ((3 * (if x &&& s ≠ 0 then 1 else 0)) ^^^ (if y &&& s ≠ 0 then 1 else 0)) +
       hilbertSpecLoop n (s / 2)
         (if (if y &&& s ≠ 0 then 1 else 0) = 0 then
            (if (if x &&& s ≠ 0 then 1 else 0) = 1 then (n - 1 - y, n - 1 - x) else (y, x))
          else (x, y)).1
         (if (if y &&& s ≠ 0 then 1 else 0) = 0 then
            (if (if x &&& s ≠ 0 then 1 else 0) = 1 then (n - 1 - y, n - 1 - x) else (y, x))
          else (x, y)).2) := by
  cases s with
  | zero => rfl
  | succ s' =>
      rw [if_neg (Nat.succ_ne_zero s')]
      show _ + hilbertSpecGo n s' ((s' + 1) / 2) _ _ = _ + hilbertSpecLoop n ((s' + 1) / 2) _ _
      unfold hilbertSpecLoop
      rw [hilbertSpecGo_congr n s' ((s' + 1) / 2) ((s' + 1) / 2) _ _ (by omega) le_rfl]

/-- Reflection congruence: the code's `s-1-x` and the spec's `n-1-x` agree
modulo `2^m` when `2^m` divides `n`. -/
theorem reflect_congr (m n : Nat) (hn : (2 ^ m : Nat) ∣ n) (u : Int) (u' : Nat)
    (hu' : u' < n)
    (h : u % ((2 ^ m : Nat) : Int) = ((u' % 2 ^ m : Nat) : Int)) :
    (((2 ^ m : Nat) : Int) - 1 - u) % ((2 ^ m : Nat) : Int) =
      (((n - 1 - u') % 2 ^ m : Nat) : Int) := by
  obtain ⟨t, ht⟩ := hn
  have hcanon : ∀ w : Int, (-1 - w) % ((2 ^ m : Nat) : Int) =
      (-1 - (w % ((2 ^ m : Nat) : Int))) % ((2 ^ m : Nat) : Int) := by
    intro w
    conv_lhs => rw [Int.sub_emod]
    conv_rhs => rw [Int.sub_emod, Int.emod_emod_of_dvd _ dvd_rfl]
  have lhs_eq : (((2 ^ m : Nat) : Int) - 1 - u) % ((2 ^ m : Nat) : Int) =
      (-1 - ((u' % 2 ^ m : Nat) : Int)) % ((2 ^ m : Nat) : Int) := by
    rw [show ((2 ^ m : Nat) : Int) - 1 - u = (-1 - u) + ((2 ^ m : Nat) : Int) * 1 by ring,
      Int.add_mul_emod_self_left, hcanon u, h]
  have hcast : ((u' % 2 ^ m : Nat) : Int) = (u' : Int) % ((2 ^ m : Nat) : Int) := by
    push_cast
    rfl
  have hn' : (n : Int) = ((2 ^ m : Nat) : Int) * (t : Int) := by exact_mod_cast ht
  have hsub : ((n - 1 - u' : Nat) : Int) = (-1 - (u' : Int)) + ((2 ^ m : Nat) : Int) * t := by
    have h1 : ((n - 1 - u' : Nat) : Int) = (n : Int) - 1 - (u' : Int) := by omega
    rw [h1, hn']
    ring
  have rhs_eq : (((n - 1 - u') % 2 ^ m : Nat) : Int) =
      (-1 - ((u' % 2 ^ m : Nat) : Int)) % ((2 ^ m : Nat) : Int) := by
    have step1 : (((n - 1 - u') % 2 ^ m : Nat) : Int) =
        ((n - 1 - u' : Nat) : Int) % ((2 ^ m : Nat) : Int) := by
      push_cast
      rfl
    rw [step1, hsub, Int.add_mul_emod_self_left, hcanon, hcast]
  rw [lhs_eq, rhs_eq]

/-- The code's loop (rotating with the scale `s` and JS 32-bit bit tests) and
the spec's recurrence (rotating with the full `n`) compute the same value. -/
theorem hilbert_spec_agree : ∀ (m : Nat), m ≤ 31 → ∀ (n : Nat), (2 ^ m : Nat) ∣ n →
    ∀ (x y : Int) (x' y' : Nat), x' < n → y' < n →
    x % ((2 ^ m : Nat) : Int) = ((x' % 2 ^ m : Nat) : Int) →
    y % ((2 ^ m : Nat) : Int) = ((y' % 2 ^ m : Nat) : Int) →
    hilbertLoop (2 ^ m / 2) x y = hilbertSpecLoop n (2 ^ m / 2) x' y' := by
  intro m
  induction m with
  | zero => intro _ n _ x y x' y' _ _ _ _; rfl
  | succ m' ih =>
      intro hm n hdvd x y x' y' hx'n hy'n hx hy
      have hs : 2 ^ (m' + 1) / 2 = 2 ^ m' := by
        rw [Nat.pow_succ, Nat.mul_div_cancel _ (by omega)]
      have hsne : (2 : Nat) ^ m' ≠ 0 := by positivity
      have hdvd' : (2 ^ m' : Nat) ∣ n := dvd_trans (pow_dvd_pow 2 (Nat.le_succ m')) hdvd
      have hredm : ∀ (u : Int) (u' : Nat),
          u % ((2 ^ (m' + 1) : Nat) : Int) = ((u' % 2 ^ (m' + 1) : Nat) : Int) →
          u % ((2 ^ m' : Nat) : Int) = ((u' % 2 ^ m' : Nat) : Int) := by
        intro u u' h
        have hdd : ((2 ^ m' : Nat) : Int) ∣ ((2 ^ (m' + 1) : Nat) : Int) := by
          exact_mod_cast pow_dvd_pow 2 (Nat.le_succ m')
        rw [← Int.emod_emod_of_dvd u hdd, h]
        rw [show ((u' % 2 ^ (m' + 1) : Nat) : Int) % ((2 ^ m' : Nat) : Int) =
          (((u' % 2 ^ (m' + 1)) % 2 ^ m' : Nat) : Int) from by push_cast; rfl]
        rw [Nat.mod_mod_of_dvd u' (pow_dvd_pow 2 (Nat.le_succ m'))]
      have hbit : ∀ (u : Int) (u' : Nat),
          u % ((2 ^ (m' + 1) : Nat) : Int) = ((u' % 2 ^ (m' + 1) : Nat) : Int) →
          (jsPat u).testBit m' = u'.testBit m' := by
        intro u u' h
        have hmlt : u' % 2 ^ (m' + 1) < 2 ^ 32 :=
          lt_of_lt_of_le (Nat.mod_lt u' (by positivity))
            (Nat.pow_le_pow_right (by omega) (by omega))
        have h1 : (jsPat u).testBit m' =
            (jsPat ((u' % 2 ^ (m' + 1) : Nat) : Int)).testBit m' := by
          apply jsPat_testBit_congr u _ m' (by omega)
          rw [h, Int.emod_eq_of_lt (by positivity)
            (by exact_mod_cast Nat.mod_lt u' (by positivity))]
        rw [h1, jsPat_natCast _ hmlt, Nat.testBit_mod_two_pow,
          decide_eq_true (by omega : m' < m' + 1), Bool.true_and]
      have hrxeq : (if 0 < jsAnd x ((2 ^ m' : Nat) : Int) then (1 : Nat) else 0) =
          (if x' &&& 2 ^ m' ≠ 0 then (1 : Nat) else 0) := by
        refine if_congr ?_ rfl rfl
        rw [jsAnd_two_pow_pos x m' (by omega), hbit x x' hx, Nat.and_two_pow]
        cases hb : x'.testBit m'
        · simp
        · simp only [Bool.toNat_true, Nat.one_mul]
          constructor
          · intro _
            positivity
          · intro _
            trivial
      have hryeq : (if 0 < jsAnd y ((2 ^ m' : Nat) : Int) then (1 : Nat) else 0) =
          (if y' &&& 2 ^ m' ≠ 0 then (1 : Nat) else 0) := by
        refine if_congr ?_ rfl rfl
        rw [jsAnd_two_pow_pos y m' (by omega), hbit y y' hy, Nat.and_two_pow]
        cases hb : y'.testBit m'
        · simp
        · simp only [Bool.toNat_true, Nat.one_mul]
          constructor
          · intro _
            positivity
          · intro _
            trivial
      rw [hs, hilbertLoop_eq (2 ^ m') x y, hilbertSpecLoop_eq n (2 ^ m') x' y',
        if_neg hsne, if_neg hsne, hrxeq, hryeq]
      generalize (if x' &&& 2 ^ m' ≠ 0 then (1 : Nat) else 0) = rx
      generalize (if y' &&& 2 ^ m' ≠ 0 then (1 : Nat) else 0) = ry
      refine congrArg₂ HAdd.hAdd rfl ?_
      have hxr := hredm x x' hx
      have hyr := hredm y y' hy
      have hnpos : 0 < n := by omega
      unfold hilbertRotate
      by_cases hry0 : ry = 0
      · by_cases hrx1 : rx = 1
        · rw [if_pos hry0, if_pos hrx1, if_pos hry0, if_pos hrx1]
          exact ih (by omega) n hdvd' _ _ _ _ (by omega) (by omega)
            (reflect_congr m' n hdvd' y y' hy'n hyr)
            (reflect_congr m' n hdvd' x x' hx'n hxr)
        · rw [if_pos hry0, if_neg hrx1, if_pos hry0, if_neg hrx1]
          exact ih (by omega) n hdvd' _ _ _ _ hy'n hx'n hyr hxr
      · rw [if_neg hry0, if_neg hry0]
        exact ih (by omega) n hdvd' _ _ _ _ hx'n hy'n hxr hyr

/-! ## nextPowerOfTwo facts -/

theorem clog2Go_congr : ∀ (f1 f2 n : Nat), n ≤ f1 → n ≤ f2 →
    clog2Go f1 n = clog2Go f2 n := by
  intro f1
  induction f1 with
  | zero =>
      intro f2 n h1 _
      interval_cases n
      cases f2 <;> rfl
  | succ f1' ih =>
      intro f2 n h1 h2
      cases f2 with
      | zero =>
          interval_cases n
          rfl
      | succ f2' =>
          show (if n ≤ 1 then 0 else clog2Go f1' ((n + 1) / 2) + 1) =
            (if n ≤ 1 then 0 else clog2Go f2' ((n + 1) / 2) + 1)
          by_cases hn : n ≤ 1
          · rw [if_pos hn, if_pos hn]
          · rw [if_neg hn, if_neg hn, ih f2' ((n + 1) / 2) (by omega) (by omega)]

theorem ceilLog2_eq (n : Nat) :
    ceilLog2 n = if n ≤ 1 then 0 else ceilLog2 ((n + 1) / 2) + 1 := by
  by_cases hn : n ≤ 1
  · rw [if_pos hn]
    unfold ceilLog2
    interval_cases n <;> rfl
  · rw [if_neg hn]
    unfold ceilLog2
    cases n with
    | zero => omega
    | succ n' =>
        show (if n' + 1 ≤ 1 then 0 else clog2Go n' ((n' + 1 + 1) / 2) + 1) = _
        rw [if_neg hn, clog2Go_congr n' ((n' + 1 + 1) / 2) ((n' + 1 + 1) / 2)
          (by omega) le_rfl]

theorem le_two_pow_ceilLog2 : ∀ n : Nat, n ≤ 2 ^ ceilLog2 n := by
  intro n
  induction n using Nat.strong_induction_on with
  | _ n ih =>
      rw [ceilLog2_eq]
      by_cases hn : n ≤ 1
      · rw [if_pos hn]
        omega
      · rw [if_neg hn]
        have hrec := ih ((n + 1) / 2) (by omega)
        rw [Nat.pow_succ]
        omega

theorem nextPowerOfTwo_pow (n : Nat) : ∃ k : Nat, nextPowerOfTwo n = 2 ^ k := by
  unfold nextPowerOfTwo
  by_cases hn : n ≤ 1
  · refine ⟨0, ?_⟩
    rw [if_pos hn]
    norm_num
  · exact ⟨ceilLog2 n, by rw [if_neg hn]⟩

theorem le_nextPowerOfTwo (n : Nat) : n ≤ nextPowerOfTwo n := by
  unfold nextPowerOfTwo
  by_cases hn : n ≤ 1
  · rw [if_pos hn]
    omega
  · rw [if_neg hn]
    exact le_two_pow_ceilLog2 n

/-- C3 (amended): for `n = nextPowerOfTwo(maxDim) ≤ 2^26` (where the JS number
and 32-bit bitwise semantics are exact), `hilbertEncode2D` restricted to
`[0,n)²` is a bijection onto `[0,n²)` and computes the spec's per-scale
recurrence (whose reflection is written `(n-1-x, n-1-y)` with the full `n`;
the code reflects with the current scale `s`, which is extensionally equal). -/
theorem C3_hilbert_bijection_spec (maxDim : Nat)
    (hbound : nextPowerOfTwo maxDim ≤ 2 ^ 26) :
    (∀ x y : Nat, x < nextPowerOfTwo maxDim → y < nextPowerOfTwo maxDim →
       hilbertEncode2D x y maxDim < nextPowerOfTwo maxDim ^ 2 ∧
       hilbertEncode2D x y maxDim = hilbertSpec2D x y (nextPowerOfTwo maxDim)) ∧
    (∀ d : Nat, d < nextPowerOfTwo maxDim ^ 2 →
       ∃! p : Nat × Nat, p.1 < nextPowerOfTwo maxDim ∧ p.2 < nextPowerOfTwo maxDim ∧
         hilbertEncode2D p.1 p.2 maxDim = d) := by
  obtain ⟨k, hk⟩ := nextPowerOfTwo_pow maxDim
  have hk26 : k ≤ 26 := by
    rw [hk] at hbound
    exact (Nat.pow_le_pow_iff_right (by omega)).mp hbound
  have hsq : nextPowerOfTwo maxDim ^ 2 = 4 ^ k := by
    rw [hk, pow_two, two_pow_sq]
  have henc : ∀ x y : Nat, hilbertEncode2D x y maxDim =
      hilbertLoop (2 ^ k / 2) (x : Int) (y : Int) := by
    intro x y
    unfold hilbertEncode2D
    rw [hk]
  constructor
  · intro x y hx hy
    rw [hk] at hx hy
    constructor
    · rw [henc, hsq]
      exact (hilbert_bij k (by omega)).1 x y hx hy
    · rw [henc, hk]
      unfold hilbertSpec2D
      exact hilbert_spec_agree k (by omega) (2 ^ k) dvd_rfl (x : Int) (y : Int) x y hx hy
        (by push_cast; rfl) (by push_cast; rfl)
  · intro d hd
    rw [hsq] at hd
    obtain ⟨p, ⟨hp1, hp2, hp3⟩, hun⟩ := (hilbert_bij k (by omega)).2 d hd
    refine ⟨p, ⟨by rw [hk]; exact hp1, by rw [hk]; exact hp2, by rw [henc]; exact hp3⟩, ?_⟩
    rintro q ⟨hq1, hq2, hq3⟩
    rw [hk] at hq1 hq2
    rw [henc] at hq3
    exact hun q ⟨hq1, hq2, hq3⟩

/-- C3 witness: maxDim = 3, n = 4, at the cell (2, 1). -/
theorem C3_hilbert_bijection_spec_witness :
    hilbertEncode2D 2 1 3 < nextPowerOfTwo 3 ^ 2 ∧
    hilbertEncode2D 2 1 3 = hilbertSpec2D 2 1 (nextPowerOfTwo 3) :=
  (C3_hilbert_bijection_spec 3 (by decide)).1 2 1 (by decide) (by decide)

/-- C3 counterexample: at `maxDim = 2^32` (`n = 2^32`, a power of two), two
distinct points of `[0,n)²` collide (the 32-bit `&` wraps at the sign bit), so
the restriction is not a bijection. -/
theorem C3_counterexample :
    nextPowerOfTwo (2 ^ 32) = 2 ^ 32 ∧
    (2 ^ 31 : Nat) < 2 ^ 32 ∧ (0 : Nat) < 2 ^ 32 ∧
    hilbertEncode2D (2 ^ 31) 0 (2 ^ 32) = hilbertEncode2D 0 0 (2 ^ 32) ∧
    ¬((2 ^ 31 : Nat) = 0) := by
  decide

/-! ## Dense-rank machinery: JS `Map.set` lookup over a sorted enumeration -/

theorem all_eq_getLast {α : Type} (l : List α) (a : α) (hne : l ≠ [])
    (hall : ∀ x ∈ l, x = a) : l.getLast? = some a := by
  induction l with
  | nil => exact absurd rfl hne
  | cons hd tl ih =>
      cases tl with
      | nil =>
          rw [List.getLast?_singleton]
          exact congrArg some (hall hd (by simp))
      | cons hd2 tl2 =>
          rw [List.getLast?_cons_cons]
          exact ih (by simp) (fun x hx => hall x (List.mem_cons_of_mem hd hx))

theorem getLast?_mem' {α : Type} (l : List α) (a : α) (h : l.getLast? = some a) : a ∈ l := by
  induction l with
  | nil => simp at h
  | cons hd tl ih =>
      cases tl with
      | nil =>
          rw [List.getLast?_singleton] at h
          simp at h
          simp [h]
      | cons hd2 tl2 =>
          rw [List.getLast?_cons_cons] at h
          exact List.mem_cons_of_mem hd (ih h)

/-- In a duplicate-free list, the `Map` built by `forEach set` sends the
element at index `i` to `i`. -/
theorem seqIndexOf_get (l : List Int) (hl : l.Nodup) (i : Nat) (hi : i < l.length) :
    seqIndexOf l (l.get ⟨i, hi⟩) = some i := by
  unfold seqIndexOf
  have hmem : ((i, l.get ⟨i, hi⟩) : Nat × Int) ∈
      l.enum.filter (fun q => q.2 = l.get ⟨i, hi⟩) := by
    rw [List.mem_filter]
    constructor
    · rw [List.mem_enum_iff_get?]
      exact List.get?_eq_get hi
    · simp
  have hall : ∀ q ∈ l.enum.filter (fun q => q.2 = l.get ⟨i, hi⟩),
      q = (i, l.get ⟨i, hi⟩) := by
    rintro ⟨j, q⟩ hq
    rw [List.mem_filter] at hq
    have hq2 : q = l.get ⟨i, hi⟩ := by simpa using hq.2
    have hjq : l.get? j = some q := List.mem_enum_iff_get?.mp hq.1
    obtain ⟨hj, hget⟩ := List.get?_eq_some.mp hjq
    have : j = i := by
      have hinj := List.nodup_iff_injective_get.mp hl
      have : (⟨j, hj⟩ : Fin l.length) = ⟨i, hi⟩ := hinj (by rw [hget, hq2])
      exact congrArg Fin.val this
    rw [this, hq2]
  rw [all_eq_getLast _ _ (List.ne_nil_of_mem hmem) hall]
  rfl

/-- Whatever index the lookup returns holds the looked-up raw value. -/
theorem seqIndexOf_get? (l : List Int) (p : Int) (i : Nat)
    (h : seqIndexOf l p = some i) : l.get? i = some p := by
  unfold seqIndexOf at h
  cases hlast : (l.enum.filter (fun q => q.2 = p)).getLast? with
  | none =>
      rw [hlast] at h
      exact Option.noConfusion h
  | some q =>
      rw [hlast] at h
      have hq : q ∈ l.enum.filter (fun q => q.2 = p) := getLast?_mem' _ _ hlast
      rw [List.mem_filter] at hq
      have hq2 : q.2 = p := by simpa using hq.2
      have hq1 : l.get? q.1 = some q.2 := List.mem_enum_iff_get?.mp hq.1
      have hqi : q.1 = i := Option.some.inj (show some q.1 = some i from h)
      rw [← hqi, hq1, hq2]

theorem seqIndexOf_lt_length (l : List Int) (p : Int) (i : Nat)
    (h : seqIndexOf l p = some i) : i < l.length := by
  have := seqIndexOf_get? l p i h
  exact (List.get?_eq_some.mp this).1

/-- `mapM` over an everywhere-`some` function. -/
theorem mapM_eq_map {α β : Type} (f : α → Option β) (g : α → β) (l : List α)
    (h : ∀ a ∈ l, f a = some (g a)) : l.mapM f = some (l.map g) := by
  induction l with
  | nil => rfl
  | cons hd tl ih =>
      rw [List.mapM_cons, h hd (by simp), ih (fun a ha => h a (List.mem_cons_of_mem hd ha))]
      rfl

/-! ## 2D grid enumerations -/

theorem range_one_flatMap {α : Type} (f : Nat → List α) :
    (List.range 1).flatMap f = f 0 := by
  have : List.range 1 = [0] := rfl
  rw [this]
  simp

theorem grid2_mem {γ : Type} (A B : Nat) (F : Nat → Nat → γ) (v : γ) :
    (v ∈ (List.range B).flatMap fun yy => (List.range A).map fun xx => F xx yy) ↔
      ∃ xx yy : Nat, xx < A ∧ yy < B ∧ v = F xx yy := by
  simp only [List.mem_flatMap, List.mem_map, List.mem_range]
  constructor
  · rintro ⟨yy, hy, xx, hx, rfl⟩
    exact ⟨xx, yy, hx, hy, rfl⟩
  · rintro ⟨xx, yy, hx, hy, rfl⟩
    exact ⟨yy, hy, xx, hx, rfl⟩

theorem grid2_nodup {γ : Type} (A B : Nat) (F : Nat → Nat → γ)
    (hF : ∀ x y x' y', x < A → y < B → x' < A → y' < B → F x y = F x' y' →
      x = x' ∧ y = y') :
    ((List.range B).flatMap fun yy => (List.range A).map fun xx => F xx yy).Nodup := by
  rw [List.nodup_flatMap]
  constructor
  · intro yy hyy
    rw [List.mem_range] at hyy
    refine List.Nodup.map_on ?_ (List.nodup_range A)
    intro x hx x' hx' heq
    rw [List.mem_range] at hx hx'
    exact (hF x yy x' yy hx hyy hx' hyy heq).1
  · have hpl := List.pairwise_lt_range B
    refine hpl.imp_of_mem ?_
    intro yy yy' hyy hyy' hlt
    rw [List.mem_range] at hyy hyy'
    intro v hv hv'
    simp only [Function.onFun, List.mem_map, List.mem_range] at hv hv'
    obtain ⟨x, hx, rfl⟩ := hv
    obtain ⟨x', hx', heq⟩ := hv'
    exact absurd (hF x' yy' x yy hx' hyy' hx hyy heq).2.symm (Nat.ne_of_lt hlt)

theorem grid2_length {γ : Type} (A B : Nat) (F : Nat → Nat → γ) :
    ((List.range B).flatMap fun yy => (List.range A).map fun xx => F xx yy).length = B * A := by
  rw [List.length_flatMap]
  have : (List.map (List.length ∘ fun yy => (List.range A).map fun xx => F xx yy)
      (List.range B)) = List.replicate B A := by
    rw [List.eq_replicate_iff]
    constructor
    · rw [List.length_map, List.length_range]
    · intro v hv
      rw [List.mem_map] at hv
      obtain ⟨yy, _, rfl⟩ := hv
      simp
  rw [this, List.sum_replicate, smul_eq_mul]

/-! ## Partial-sum (block) lemmas over `List.range` -/

theorem listSum_range_succ (N : Nat → Nat) (i : Nat) :
    ((List.range (i + 1)).map N).sum = ((List.range i).map N).sum + N i := by
  rw [List.range_succ, List.map_append, List.sum_append]
  simp

theorem listSum_range_mono (N : Nat → Nat) (i j : Nat) (h : i ≤ j) :
    ((List.range i).map N).sum ≤ ((List.range j).map N).sum := by
  induction j with
  | zero =>
      interval_cases i
      exact le_rfl
  | succ j' ih =>
      rcases Nat.lt_or_ge i (j' + 1) with hlt | hge
      · calc ((List.range i).map N).sum ≤ ((List.range j').map N).sum := ih (by omega)
        _ ≤ _ := by rw [listSum_range_succ]; omega
      · have : i = j' + 1 := by omega
        rw [this]

theorem block_sum_lt (N : Nat → Nat) (i r M : Nat) (hi : i < M) (hr : r < N i) :
    ((List.range i).map N).sum + r < ((List.range M).map N).sum := by
  have h1 : ((List.range i).map N).sum + r < ((List.range (i + 1)).map N).sum := by
    rw [listSum_range_succ]
    omega
  exact lt_of_lt_of_le h1 (listSum_range_mono N (i + 1) M hi)

theorem block_sum_rep (N : Nat → Nat) (M : Nat) : ∀ k : Nat,
    k < ((List.range M).map N).sum →
    ∃ i r : Nat, i < M ∧ r < N i ∧ ((List.range i).map N).sum + r = k := by
  induction M with
  | zero => intro k hk; simp at hk
  | succ M' ih =>
      intro k hk
      rcases Nat.lt_or_ge k (((List.range M').map N).sum) with hlt | hge
      · obtain ⟨i, r, h1, h2, h3⟩ := ih k hlt
        exact ⟨i, r, by omega, h2, h3⟩
      · refine ⟨M', k - ((List.range M').map N).sum, by omega, ?_, by omega⟩
        rw [listSum_range_succ] at hk
        omega

theorem block_sum_unique (N : Nat → Nat) (i r i' r' : Nat) (hr : r < N i) (hr' : r' < N i')
    (h : ((List.range i).map N).sum + r = ((List.range i').map N).sum + r') :
    i = i' ∧ r = r' := by
  rcases Nat.lt_trichotomy i i' with hlt | heq | hgt
  · exfalso
    have h1 : ((List.range i).map N).sum + r < ((List.range (i + 1)).map N).sum := by
      rw [listSum_range_succ]; omega
    have h2 := listSum_range_mono N (i + 1) i' hlt
    omega
  · constructor
    · exact heq
    · rw [heq] at h
      omega
  · exfalso
    have h1 : ((List.range i').map N).sum + r' < ((List.range (i' + 1)).map N).sum := by
      rw [listSum_range_succ]; omega
    have h2 := listSum_range_mono N (i' + 1) i hgt
    omega

theorem block_sum_order (N : Nat → Nat) (i r i' r' : Nat) (hr : r < N i) (hr' : r' < N i') :
    ((List.range i).map N).sum + r < ((List.range i').map N).sum + r' ↔
      (i < i' ∨ (i = i' ∧ r < r')) := by
  constructor
  · intro h
    rcases Nat.lt_trichotomy i i' with hlt | heq | hgt
    · exact Or.inl hlt
    · refine Or.inr ⟨heq, ?_⟩
      rw [heq] at h
      omega
    · exfalso
      have h1 : ((List.range i').map N).sum + r' < ((List.range (i' + 1)).map N).sum := by
        rw [listSum_range_succ]; omega
      have h2 := listSum_range_mono N (i' + 1) i hgt
      omega
  · rintro (hlt | ⟨rfl, hlt⟩)
    · have h1 : ((List.range i).map N).sum + r < ((List.range (i + 1)).map N).sum := by
        rw [listSum_range_succ]; omega
      have h2 := listSum_range_mono N (i + 1) i' hlt
      omega
    · omega

/-! ## ceilDiv facts -/

namespace SimulationModel

theorem ceilDiv_le_self (a b : Nat) (hb : 0 < b) : ceilDiv a b ≤ a := by
  unfold ceilDiv
  rcases Nat.eq_zero_or_pos a with rfl | ha
  · simp only [Nat.zero_add, Nat.le_zero]
    exact Nat.div_eq_of_lt (by omega)
  · have h1 : a + b - 1 = (a - 1) + b := by omega
    rw [h1, Nat.add_div_right _ hb]
    have := Nat.div_le_self (a - 1) b
    have h2 : (a - 1) / b ≤ a - 1 := Nat.div_le_self _ _
    omega

theorem lt_of_lt_ceilDiv_mul (a b u : Nat) (hb : 0 < b) (ha : 0 < a)
    (hu : u < ceilDiv a b) : u * b < a := by
  unfold ceilDiv at hu
  have h1 : a + b - 1 = (a - 1) + b := by omega
  rw [h1, Nat.add_div_right _ hb] at hu
  have h2 : u ≤ (a - 1) / b := by omega
  have h3 : u * b ≤ (a - 1) / b * b := Nat.mul_le_mul_right b h2
  have h4 : (a - 1) / b * b ≤ a - 1 := Nat.div_mul_le_self _ _
  omega

theorem ceilDiv_mul_ge (a b : Nat) (hb : 0 < b) : a ≤ ceilDiv a b * b := by
  unfold ceilDiv
  rcases Nat.eq_zero_or_pos a with rfl | ha
  · simp
  · have h1 : a + b - 1 = (a - 1) + b := by omega
    rw [h1, Nat.add_div_right _ hb, Nat.add_mul, Nat.one_mul]
    have h2 : (a - 1) / b * b + (a - 1) % b = a - 1 := Nat.div_add_mod' (a - 1) b
    have h3 : (a - 1) % b < b := Nat.mod_lt _ hb
    omega

end SimulationModel

/-! ## 2D injectivity of the linear-position switch -/

theorem ceilLog2_le (n j : Nat) (h : n ≤ 2 ^ j) : ceilLog2 n ≤ j := by
  induction n using Nat.strong_induction_on generalizing j with
  | _ n ih =>
      rw [ceilLog2_eq]
      by_cases hn : n ≤ 1
      · rw [if_pos hn]
        omega
      · rw [if_neg hn]
        cases j with
        | zero =>
            exfalso
            simp at h
            omega
        | succ j' =>
            have hrec : (n + 1) / 2 ≤ 2 ^ j' := by
              rw [Nat.pow_succ] at h
              omega
            have := ih ((n + 1) / 2) (by omega) j' hrec
            omega

theorem nextPowerOfTwo_le_pow (n j : Nat) (h : n ≤ 2 ^ j) : nextPowerOfTwo n ≤ 2 ^ j := by
  unfold nextPowerOfTwo
  by_cases hn : n ≤ 1
  · rw [if_pos hn]
    exact Nat.one_le_two_pow
  · rw [if_neg hn]
    exact Nat.pow_le_pow_right (by omega) (ceilLog2_le n j h)

theorem hilbertEncode2D_inj (maxDim : Nat) (hM : maxDim ≤ 2 ^ 16)
    (x y x' y' : Nat) (hx : x < maxDim) (hy : y < maxDim) (hx' : x' < maxDim) (hy' : y' < maxDim)
    (h : hilbertEncode2D x y maxDim = hilbertEncode2D x' y' maxDim) : x = x' ∧ y = y' := by
  obtain ⟨k, hk⟩ := nextPowerOfTwo_pow maxDim
  have hn := le_nextPowerOfTwo maxDim
  have hk16 : k ≤ 16 := by
    have := nextPowerOfTwo_le_pow maxDim 16 hM
    rw [hk] at this
    exact (Nat.pow_le_pow_iff_right (by omega)).mp this
  have hxk : x < 2 ^ k := by rw [← hk]; omega
  have hyk : y < 2 ^ k := by rw [← hk]; omega
  have hxk' : x' < 2 ^ k := by rw [← hk]; omega
  have hyk' : y' < 2 ^ k := by rw [← hk]; omega
  have henc : ∀ a b : Nat, hilbertEncode2D a b maxDim =
      hilbertLoop (2 ^ k / 2) (a : Int) (b : Int) := by
    intro a b
    unfold hilbertEncode2D
    rw [hk]
  rw [henc, henc] at h
  have hd : hilbertLoop (2 ^ k / 2) (x' : Int) (y' : Int) < 4 ^ k :=
    (hilbert_bij k (by omega)).1 x' y' hxk' hyk'
  obtain ⟨p, _, hun⟩ := (hilbert_bij k (by omega)).2 _ hd
  have h1 := hun (x, y) ⟨hxk, hyk, h⟩
  have h2 := hun (x', y') ⟨hxk', hyk', rfl⟩
  have h3 : ((x, y) : Nat × Nat) = (x', y') := h1.trans h2.symm
  exact ⟨congrArg Prod.fst h3, congrArg Prod.snd h3⟩

theorem linearPosition_rowMajor (A B C x y z : Nat) :
    linearPosition "row-major" A B C x y z = ((x + y * A + z * (A * B) : Nat) : Int) := by
  unfold linearPosition
  rw [if_pos rfl]
  push_cast
  ring

theorem linearPosition_colMajor (A B C x y z : Nat) :
    linearPosition "col-major" A B C x y z = ((y + x * B + z * (A * B) : Nat) : Int) := by
  unfold linearPosition
  rw [if_neg (by decide), if_pos rfl]
  push_cast
  ring

theorem linearPosition_zOrder2D (A B x y z : Nat) :
    linearPosition "z-order" A B 1 x y z = mortonEncode2D x y := by
  unfold linearPosition
  rw [if_neg (by decide), if_neg (by decide), if_pos rfl, if_neg (by decide)]

theorem linearPosition_hilbert2D (A B x y z : Nat) :
    linearPosition "hilbert" A B 1 x y z = ((hilbertEncode2D x y (max A B) : Nat) : Int) := by
  unfold linearPosition
  rw [if_neg (by decide), if_neg (by decide), if_neg (by decide), if_pos rfl, if_neg (by decide)]

theorem linearPosition_inj_2d (alg : String)
    (halg : alg = "row-major" ∨ alg = "col-major" ∨ alg = "z-order" ∨ alg = "hilbert")
    (A B : Nat) (hA : A ≤ 2 ^ 16) (hB : B ≤ 2 ^ 16)
    (x y x' y' : Nat) (hx : x < A) (hy : y < B) (hx' : x' < A) (hy' : y' < B)
    (h : linearPosition alg A B 1 x y 0 = linearPosition alg A B 1 x' y' 0) :
    x = x' ∧ y = y' := by
  rcases halg with rfl | rfl | rfl | rfl
  · rw [linearPosition_rowMajor, linearPosition_rowMajor, Int.natCast_inj] at h
    simp only [Nat.zero_mul, Nat.add_zero] at h
    obtain ⟨hd, hm⟩ := block_decompose A x y hx
    obtain ⟨hd', hm'⟩ := block_decompose A x' y' hx'
    refine ⟨?_, ?_⟩
    · rw [← hm, h, hm']
    · rw [← hd, h, hd']
  · rw [linearPosition_colMajor, linearPosition_colMajor, Int.natCast_inj] at h
    simp only [Nat.zero_mul, Nat.add_zero] at h
    obtain ⟨hd, hm⟩ := block_decompose B y x hy
    obtain ⟨hd', hm'⟩ := block_decompose B y' x' hy'
    refine ⟨?_, ?_⟩
    · rw [← hd, h, hd']
    · rw [← hm, h, hm']
  · rw [linearPosition_zOrder2D, linearPosition_zOrder2D] at h
    have h3 := mortonEncode2D_injOn
      (show (x, y) ∈ {p : Nat × Nat | p.1 < 2 ^ 16 ∧ p.2 < 2 ^ 16} from ⟨by omega, by omega⟩)
      (show (x', y') ∈ {p : Nat × Nat | p.1 < 2 ^ 16 ∧ p.2 < 2 ^ 16} from ⟨by omega, by omega⟩)
      h
    exact ⟨congrArg Prod.fst h3, congrArg Prod.snd h3⟩
  · rw [linearPosition_hilbert2D, linearPosition_hilbert2D, Int.natCast_inj] at h
    exact hilbertEncode2D_inj (max A B) (Nat.max_le.mpr ⟨hA, hB⟩) x y x' y'
      (lt_of_lt_of_le hx (le_max_left A B)) (lt_of_lt_of_le hy (le_max_right A B))
      (lt_of_lt_of_le hx' (le_max_left A B)) (lt_of_lt_of_le hy' (le_max_right A B)) h

/-! ## The dense chunk index of `getGlobalIndex` -/

theorem getGlobalIndex_eq (c : CellCoordinate) (x y z : Nat) :
    c.getGlobalIndex x y z =
      (denseChunkIndex c (c.getParentChunk x y z).1 (c.getParentChunk x y z).2.1
          (c.getParentChunk x y z).2.2).bind fun chunkIndex =>
        (c.calculateCellsBeforeChunk chunkIndex).bind fun cb =>
          (c.getLocalCellIndex x y z (c.getParentChunk x y z)).map fun l =>
            (cb : Int) + l := by
  unfold CellCoordinate.getGlobalIndex denseChunkIndex
  by_cases h : c.chunkGrid.algorithm = "z-order" ∨ c.chunkGrid.algorithm = "hilbert"
  · simp only [if_pos h]
  · simp only [if_neg h]

theorem chunk_dense_rowMajor (c : CellCoordinate)
    (halg : c.chunkGrid.algorithm = "row-major") (hz : c.chunkGrid.sizeZ = 1) :
    DenseOk c c.chunkGrid.sizeX c.chunkGrid.sizeY
      (fun u v => u + v * c.chunkGrid.sizeX) := by
  refine ⟨fun u v hu hv => xy_lt _ _ _ _ hu hv, ?_, ?_, ?_, ?_⟩
  · intro u v u' v' hu hv hu' hv' h
    obtain ⟨hd, hm⟩ := block_decompose c.chunkGrid.sizeX u v hu
    obtain ⟨hd', hm'⟩ := block_decompose c.chunkGrid.sizeX u' v' hu'
    simp only at h
    refine ⟨?_, ?_⟩
    · rw [← hm, h, hm']
    · rw [← hd, h, hd']
  · intro i hi
    have hCX : 0 < c.chunkGrid.sizeX := by
      rcases Nat.eq_zero_or_pos c.chunkGrid.sizeX with hx0 | h
      · rw [hx0] at hi; simp at hi
      · exact h
    refine ⟨i % c.chunkGrid.sizeX, i / c.chunkGrid.sizeX, Nat.mod_lt _ hCX, ?_, ?_⟩
    · rw [Nat.div_lt_iff_lt_mul hCX, Nat.mul_comm]
      exact hi
    · exact Nat.mod_add_div' i c.chunkGrid.sizeX
  · intro u v hu hv
    unfold denseChunkIndex
    rw [if_neg (by rw [halg]; decide), linearize_rowMajor _ halg, Int.toNat_natCast]
    simp only [Nat.zero_mul, Nat.add_zero]
  · intro u v hu hv
    have := delin_rowMajor_arith c.chunkGrid.sizeX c.chunkGrid.sizeY u v 0 hu hv
    simp only [Nat.zero_mul, Nat.add_zero] at this
    unfold CellCoordinate.delinearizeChunkIndex
    rw [halg, if_neg (by decide), if_pos rfl]
    exact congrArg some this

theorem chunk_dense_colMajor (c : CellCoordinate)
    (halg : c.chunkGrid.algorithm = "col-major") (hz : c.chunkGrid.sizeZ = 1) :
    DenseOk c c.chunkGrid.sizeX c.chunkGrid.sizeY
      (fun u v => v + u * c.chunkGrid.sizeY) := by
  refine ⟨?_, ?_, ?_, ?_, ?_⟩
  · intro u v hu hv
    rw [Nat.mul_comm c.chunkGrid.sizeX c.chunkGrid.sizeY]
    exact xy_lt _ _ _ _ hv hu
  · intro u v u' v' hu hv hu' hv' h
    obtain ⟨hd, hm⟩ := block_decompose c.chunkGrid.sizeY v u hv
    obtain ⟨hd', hm'⟩ := block_decompose c.chunkGrid.sizeY v' u' hv'
    simp only at h
    refine ⟨?_, ?_⟩
    · rw [← hd, h, hd']
    · rw [← hm, h, hm']
  · intro i hi
    have hCY : 0 < c.chunkGrid.sizeY := by
      rcases Nat.eq_zero_or_pos c.chunkGrid.sizeY with hy0 | h
      · rw [hy0] at hi; simp at hi
      · exact h
    refine ⟨i / c.chunkGrid.sizeY, i % c.chunkGrid.sizeY, ?_, Nat.mod_lt _ hCY, ?_⟩
    · rw [Nat.div_lt_iff_lt_mul hCY]
      exact hi
    · exact Nat.mod_add_div' i c.chunkGrid.sizeY
  · intro u v hu hv
    unfold denseChunkIndex
    rw [if_neg (by rw [halg]; decide), linearize_colMajor _ halg, Int.toNat_natCast]
    simp only [Nat.zero_mul, Nat.add_zero]
  · intro u v hu hv
    have := delin_colMajor_arith c.chunkGrid.sizeX c.chunkGrid.sizeY u v 0 hu hv
    simp only [Nat.zero_mul, Nat.add_zero] at this
    unfold CellCoordinate.delinearizeChunkIndex
    rw [halg, if_neg (by decide), if_neg (by decide), if_pos rfl]
    exact congrArg some this

/-! ## Dense chunk index for the space-filling orderings -/

theorem map_fst_sort (l : List (Int × Nat × Nat × Nat)) :
    (List.insertionSort (fun a b => a.1 ≤ b.1) l).map (fun e => e.1) =
      List.insertionSort (fun a b : Int => a ≤ b) (l.map (fun e => e.1)) := by
  haveI hTot : IsTotal (Int × Nat × Nat × Nat) (fun a b => a.1 ≤ b.1) :=
    ⟨fun a b => le_total a.1 b.1⟩
  haveI hTr : IsTrans (Int × Nat × Nat × Nat) (fun a b => a.1 ≤ b.1) :=
    ⟨fun a b d hab hbd => le_trans hab hbd⟩
  have hperm : ((List.insertionSort (fun a b => a.1 ≤ b.1) l).map (fun e => e.1)).Perm
      (List.insertionSort (fun a b : Int => a ≤ b) (l.map (fun e => e.1))) :=
    ((List.perm_insertionSort _ l).map _).trans (List.perm_insertionSort _ _).symm
  have hs1 : ((List.insertionSort (fun a b => a.1 ≤ b.1) l).map (fun e => e.1)).Sorted
      (fun a b : Int => a ≤ b) := by
    have hs := List.sorted_insertionSort (fun a b : Int × Nat × Nat × Nat => a.1 ≤ b.1) l
    exact List.Pairwise.map _ (fun a b h => h) hs
  have hs2 : (List.insertionSort (fun a b : Int => a ≤ b) (l.map (fun e => e.1))).Sorted
      (fun a b : Int => a ≤ b) := List.sorted_insertionSort _ _
  exact List.eq_of_perm_of_sorted hperm hs1 hs2

theorem sortedChunkEntries_map_fst (g : GridCoordinate) :
    (sortedChunkEntries g).map (fun e => e.1) =
      List.insertionSort (fun a b : Int => a ≤ b) ((chunkEntries g).map (fun e => e.1)) :=
  map_fst_sort (chunkEntries g)

theorem sortedChunkEntries_perm (g : GridCoordinate) :
    (sortedChunkEntries g).Perm (chunkEntries g) :=
  List.perm_insertionSort _ _

theorem chunkEntries_2d (g : GridCoordinate) (hz : g.sizeZ = 1) :
    chunkEntries g = (List.range g.sizeY).flatMap fun cy =>
      (List.range g.sizeX).map fun cx => (g.calculateLinearPosition cx cy 0, cx, cy, 0) := by
  unfold chunkEntries
  rw [hz, range_one_flatMap]

theorem chunkEntries_2d_map_fst (g : GridCoordinate) (hz : g.sizeZ = 1) :
    (chunkEntries g).map (fun e => e.1) = (List.range g.sizeY).flatMap fun cy =>
      (List.range g.sizeX).map fun cx => g.calculateLinearPosition cx cy 0 := by
  rw [chunkEntries_2d g hz]
  simp only [List.map_flatMap, List.map_map, Function.comp_def]

theorem get_eq_of_fst_mem (l : List (Int × Nat × Nat × Nat))
    (hnd : (l.map (fun e => e.1)).Nodup) (e : Int × Nat × Nat × Nat) (he : e ∈ l)
    (i : Nat) (hi : i < l.length) (h : (l.get ⟨i, hi⟩).1 = e.1) : l.get ⟨i, hi⟩ = e := by
  obtain ⟨⟨j, hj⟩, hje⟩ := List.mem_iff_get.mp he
  have hmi : i < (l.map (fun e => e.1)).length := by rw [List.length_map]; exact hi
  have hmj : j < (l.map (fun e => e.1)).length := by rw [List.length_map]; exact hj
  have h1 : (l.map (fun e => e.1)).get ⟨i, hmi⟩ = (l.map (fun e => e.1)).get ⟨j, hmj⟩ := by
    simp only [List.get_eq_getElem, List.getElem_map]
    simp only [List.get_eq_getElem] at h hje
    rw [hje]
    exact h
  have hij : (⟨i, hmi⟩ : Fin _) = ⟨j, hmj⟩ := List.nodup_iff_injective_get.mp hnd h1
  have hij' : i = j := by
    have := congrArg Fin.val hij
    simpa using this
  subst hij'
  exact hje

theorem chunk_raw_inj (c : CellCoordinate)
    (halg : c.chunkGrid.algorithm = "row-major" ∨ c.chunkGrid.algorithm = "col-major" ∨
      c.chunkGrid.algorithm = "z-order" ∨ c.chunkGrid.algorithm = "hilbert")
    (hz : c.chunkGrid.sizeZ = 1)
    (hX : c.chunkGrid.sizeX ≤ 2 ^ 16) (hY : c.chunkGrid.sizeY ≤ 2 ^ 16) :
    ∀ u v u' v', u < c.chunkGrid.sizeX → v < c.chunkGrid.sizeY →
      u' < c.chunkGrid.sizeX → v' < c.chunkGrid.sizeY →
      c.chunkGrid.calculateLinearPosition u v 0 = c.chunkGrid.calculateLinearPosition u' v' 0 →
      u = u' ∧ v = v' := by
  intro u v u' v' hu hv hu' hv' h
  unfold GridCoordinate.calculateLinearPosition at h
  rw [hz] at h
  exact linearPosition_inj_2d _ halg _ _ hX hY _ _ _ _ hu hv hu' hv' h

theorem chunk_dense_sfc (c : CellCoordinate)
    (halg : c.chunkGrid.algorithm = "z-order" ∨ c.chunkGrid.algorithm = "hilbert")
    (hz : c.chunkGrid.sizeZ = 1)
    (hX : c.chunkGrid.sizeX ≤ 2 ^ 16) (hY : c.chunkGrid.sizeY ≤ 2 ^ 16) :
    ∃ D : Nat → Nat → Nat, DenseOk c c.chunkGrid.sizeX c.chunkGrid.sizeY D := by
  have halg4 : c.chunkGrid.algorithm = "row-major" ∨ c.chunkGrid.algorithm = "col-major" ∨
      c.chunkGrid.algorithm = "z-order" ∨ c.chunkGrid.algorithm = "hilbert" := by
    rcases halg with h | h
    · exact Or.inr (Or.inr (Or.inl h))
    · exact Or.inr (Or.inr (Or.inr h))
  have hinj := chunk_raw_inj c halg4 hz hX hY
  have hnd0 : ((chunkEntries c.chunkGrid).map (fun e => e.1)).Nodup := by
    rw [chunkEntries_2d_map_fst c.chunkGrid hz]
    exact grid2_nodup _ _ _ hinj
  have hpermL : ((sortedChunkEntries c.chunkGrid).map (fun e => e.1)).Perm
      ((chunkEntries c.chunkGrid).map (fun e => e.1)) :=
    (sortedChunkEntries_perm c.chunkGrid).map _
  have hnd : ((sortedChunkEntries c.chunkGrid).map (fun e => e.1)).Nodup :=
    hpermL.nodup_iff.mpr hnd0
  have hlen : ((sortedChunkEntries c.chunkGrid).map (fun e => e.1)).length =
      c.chunkGrid.sizeX * c.chunkGrid.sizeY := by
    rw [hpermL.length_eq, List.length_map, chunkEntries_2d c.chunkGrid hz,
      grid2_length, Nat.mul_comm]
  have hmemL : ∀ u v, u < c.chunkGrid.sizeX → v < c.chunkGrid.sizeY →
      c.chunkGrid.calculateLinearPosition u v 0 ∈
        (sortedChunkEntries c.chunkGrid).map (fun e => e.1) := by
    intro u v hu hv
    rw [hpermL.mem_iff, chunkEntries_2d_map_fst c.chunkGrid hz, grid2_mem]
    exact ⟨u, v, hu, hv, rfl⟩
  have hseq : ∀ u v, u < c.chunkGrid.sizeX → v < c.chunkGrid.sizeY →
      ∃ i, ∃ hi : i < ((sortedChunkEntries c.chunkGrid).map (fun e => e.1)).length,
        seqIndexOf ((sortedChunkEntries c.chunkGrid).map (fun e => e.1))
          (c.chunkGrid.calculateLinearPosition u v 0) = some i ∧
        ((sortedChunkEntries c.chunkGrid).map (fun e => e.1)).get ⟨i, hi⟩ =
          c.chunkGrid.calculateLinearPosition u v 0 := by
    intro u v hu hv
    obtain ⟨⟨i, hi⟩, hgi⟩ := List.mem_iff_get.mp (hmemL u v hu hv)
    refine ⟨i, hi, ?_, hgi⟩
    rw [← hgi]
    exact seqIndexOf_get _ hnd i hi
  refine ⟨fun u v => (seqIndexOf ((sortedChunkEntries c.chunkGrid).map (fun e => e.1))
      (c.chunkGrid.calculateLinearPosition u v 0)).getD 0, ?_, ?_, ?_, ?_, ?_⟩
  · intro u v hu hv
    obtain ⟨i, hi, hsome, _⟩ := hseq u v hu hv
    dsimp only
    rw [hsome]
    rw [hlen] at hi
    exact hi
  · intro u v u' v' hu hv hu' hv' h
    obtain ⟨i, hi, hsome, hget⟩ := hseq u v hu hv
    obtain ⟨i', hi', hsome', hget'⟩ := hseq u' v' hu' hv'
    dsimp only at h
    rw [hsome, hsome'] at h
    simp only [Option.getD_some] at h
    subst h
    apply hinj u v u' v' hu hv hu' hv'
    rw [← hget, ← hget']
  · intro i hi
    rw [← hlen] at hi
    have hi2 : i < (sortedChunkEntries c.chunkGrid).length := by
      rw [List.length_map] at hi
      exact hi
    have hmem : (sortedChunkEntries c.chunkGrid).get ⟨i, hi2⟩ ∈ chunkEntries c.chunkGrid := by
      rw [← (sortedChunkEntries_perm c.chunkGrid).mem_iff]
      exact List.get_mem _ _ _
    rw [chunkEntries_2d c.chunkGrid hz, grid2_mem] at hmem
    obtain ⟨u, v, hu, hv, hev⟩ := hmem
    refine ⟨u, v, hu, hv, ?_⟩
    dsimp only
    have hgetL : ((sortedChunkEntries c.chunkGrid).map (fun e => e.1)).get ⟨i, hi⟩ =
        c.chunkGrid.calculateLinearPosition u v 0 := by
      simp only [List.get_eq_getElem, List.getElem_map]
      simp only [List.get_eq_getElem] at hev
      rw [hev]
    rw [← hgetL, seqIndexOf_get _ hnd i hi]
    rfl
  · intro u v hu hv
    obtain ⟨i, hi, hsome, _⟩ := hseq u v hu hv
    dsimp only
    unfold denseChunkIndex
    rw [if_pos halg]
    show c.getNormalizedChunkIndex (c.chunkGrid.calculateLinearPosition u v 0) = _
    unfold CellCoordinate.getNormalizedChunkIndex
    rw [hsome]
    rfl
  · intro u v hu hv
    obtain ⟨i, hi, hsome, hget⟩ := hseq u v hu hv
    dsimp only
    unfold CellCoordinate.delinearizeChunkIndex
    rw [if_pos halg, hsome]
    have hi2 : i < (sortedChunkEntries c.chunkGrid).length := by
      rw [List.length_map] at hi
      exact hi
    have hment : ((c.chunkGrid.calculateLinearPosition u v 0, u, v, 0) :
        Int × Nat × Nat × Nat) ∈ sortedChunkEntries c.chunkGrid := by
      rw [(sortedChunkEntries_perm c.chunkGrid).mem_iff, chunkEntries_2d c.chunkGrid hz,
        grid2_mem]
      exact ⟨u, v, hu, hv, rfl⟩
    have hfst : ((sortedChunkEntries c.chunkGrid).get ⟨i, hi2⟩).1 =
        c.chunkGrid.calculateLinearPosition u v 0 := by
      have : ((sortedChunkEntries c.chunkGrid).map (fun e => e.1)).get ⟨i, hi⟩ =
          ((sortedChunkEntries c.chunkGrid).get ⟨i, hi2⟩).1 := by
        simp only [List.get_eq_getElem, List.getElem_map]
      rw [← this, hget]
    have heq := get_eq_of_fst_mem (sortedChunkEntries c.chunkGrid) hnd _ hment i hi2 hfst
    simp only [Option.getD_some]
    rw [List.getElem?_eq_getElem hi2]
    simp only [List.get_eq_getElem] at heq
    rw [heq]
    rfl

/-- The dense chunk index stage of `getGlobalIndex` is a bijection onto
`[0, chunksX·chunksY)` for every 2D chunk grid under any of the four orderings,
and `delinearizeChunkIndex` inverts it. -/
theorem chunk_dense (c : CellCoordinate)
    (halg : c.chunkGrid.algorithm = "row-major" ∨ c.chunkGrid.algorithm = "col-major" ∨
      c.chunkGrid.algorithm = "z-order" ∨ c.chunkGrid.algorithm = "hilbert")
    (hz : c.chunkGrid.sizeZ = 1)
    (hX : c.chunkGrid.sizeX ≤ 2 ^ 16) (hY : c.chunkGrid.sizeY ≤ 2 ^ 16) :
    ∃ D : Nat → Nat → Nat, DenseOk c c.chunkGrid.sizeX c.chunkGrid.sizeY D := by
  rcases halg with h | h | h | h
  · exact ⟨_, chunk_dense_rowMajor c h hz⟩
  · exact ⟨_, chunk_dense_colMajor c h hz⟩
  · exact chunk_dense_sfc c (Or.inl h) hz hX hY
  · exact chunk_dense_sfc c (Or.inr h) hz hX hY

/-! ## Boundary-clipped per-axis cell counts -/

theorem axCount_pos (cs s u : Nat) (hcs : 0 < cs) (hu : u * cs < s) :
    0 < axCount cs s u := by
  unfold axCount
  rw [Nat.min_def]
  split_ifs <;> omega

theorem axCount_le (cs s u : Nat) : axCount cs s u ≤ cs := by
  unfold axCount
  rw [Nat.min_def]
  split_ifs <;> omega

theorem axCount_le_s (cs s u : Nat) : axCount cs s u ≤ s :=
  le_trans (Nat.sub_le_sub_right (Nat.min_le_right _ _) _) (Nat.sub_le _ _)

theorem axCount_add (cs s u : Nat) (hu : u * cs < s) :
    u * cs + axCount cs s u = min ((u + 1) * cs) s := by
  unfold axCount
  rw [Nat.min_def, Nat.min_def, Nat.add_one_mul]
  split_ifs <;> omega

theorem mono_of_step (F : Nat → Nat) (hm : ∀ i, F i ≤ F (i + 1)) :
    ∀ m n, m ≤ n → F m ≤ F n := by
  intro m n h
  induction n with
  | zero =>
      interval_cases m
      exact le_rfl
  | succ n' ih =>
      rcases Nat.lt_or_ge m (n' + 1) with h1 | h2
      · exact le_trans (ih (by omega)) (hm n')
      · have hmn : m = n' + 1 := by omega
        rw [hmn]

theorem sum_range_sub_of_monotone (F : Nat → Nat) (hm : ∀ i, F i ≤ F (i + 1)) (n : Nat) :
    ((List.range n).map (fun u => F (u + 1) - F u)).sum = F n - F 0 := by
  induction n with
  | zero => simp
  | succ n' ih =>
      rw [listSum_range_succ, ih]
      have h0 : F 0 ≤ F n' := mono_of_step F hm 0 n' (by omega)
      have h1 : F n' ≤ F (n' + 1) := hm n'
      omega

theorem axCount_sum (cs s : Nat) (hcs : 0 < cs) :
    ((List.range (SimulationModel.ceilDiv s cs)).map (fun u => axCount cs s u)).sum = s := by
  have hcongr : (List.range (SimulationModel.ceilDiv s cs)).map (fun u => axCount cs s u) =
      (List.range (SimulationModel.ceilDiv s cs)).map
        (fun u => min ((u + 1) * cs) s - min (u * cs) s) := by
    apply List.map_congr_left
    intro u hu
    rw [List.mem_range] at hu
    rcases Nat.eq_zero_or_pos s with rfl | hs
    · unfold axCount
      simp
    · have hlt : u * cs < s := SimulationModel.lt_of_lt_ceilDiv_mul s cs u hcs hs hu
      rw [Nat.min_eq_left (le_of_lt hlt), ← axCount_add cs s u hlt]
      omega
  rw [hcongr, sum_range_sub_of_monotone (fun u => min (u * cs) s)
    (fun i => min_le_min (Nat.mul_le_mul_right cs (by omega)) le_rfl)]
  rcases Nat.eq_zero_or_pos s with rfl | hs
  · simp
  · have hge : s ≤ SimulationModel.ceilDiv s cs * cs := SimulationModel.ceilDiv_mul_ge s cs hcs
    rw [Nat.min_eq_right hge]
    simp

/-! ## Generic dense rank over a sorted 2D grid of raw values -/

theorem denseRank_grid (A B : Nat) (F : Nat → Nat → Int)
    (hF : ∀ x y x' y', x < A → y < B → x' < A → y' < B → F x y = F x' y' →
      x = x' ∧ y = y') :
    ∃ L : Nat → Nat → Nat,
      (∀ x y, x < A → y < B → L x y < A * B) ∧
      (∀ x y x' y', x < A → y < B → x' < A → y' < B → L x y = L x' y' →
        x = x' ∧ y = y') ∧
      (∀ i, i < A * B → ∃ x y, x < A ∧ y < B ∧ L x y = i) ∧
      (∀ x y, x < A → y < B →
        seqIndexOf (List.insertionSort (fun a b : Int => a ≤ b)
          ((List.range B).flatMap fun yy => (List.range A).map fun xx => F xx yy))
          (F x y) = some (L x y)) := by
  have hnd0 : ((List.range B).flatMap fun yy =>
      (List.range A).map fun xx => F xx yy).Nodup := grid2_nodup A B F hF
  have hperm : (List.insertionSort (fun a b : Int => a ≤ b)
      ((List.range B).flatMap fun yy => (List.range A).map fun xx => F xx yy)).Perm
        ((List.range B).flatMap fun yy => (List.range A).map fun xx => F xx yy) :=
    List.perm_insertionSort _ _
  have hnd : (List.insertionSort (fun a b : Int => a ≤ b)
      ((List.range B).flatMap fun yy => (List.range A).map fun xx => F xx yy)).Nodup :=
    hperm.nodup_iff.mpr hnd0
  have hlen : (List.insertionSort (fun a b : Int => a ≤ b)
      ((List.range B).flatMap fun yy => (List.range A).map fun xx => F xx yy)).length =
        A * B := by
    rw [hperm.length_eq, grid2_length, Nat.mul_comm]
  have hseq : ∀ x y, x < A → y < B →
      ∃ i, ∃ hi : i < (List.insertionSort (fun a b : Int => a ≤ b)
          ((List.range B).flatMap fun yy => (List.range A).map fun xx => F xx yy)).length,
        seqIndexOf (List.insertionSort (fun a b : Int => a ≤ b)
          ((List.range B).flatMap fun yy => (List.range A).map fun xx => F xx yy))
          (F x y) = some i ∧
        (List.insertionSort (fun a b : Int => a ≤ b)
          ((List.range B).flatMap fun yy => (List.range A).map fun xx => F xx yy)).get
            ⟨i, hi⟩ = F x y := by
    intro x y hx hy
    have hmem : F x y ∈ List.insertionSort (fun a b : Int => a ≤ b)
        ((List.range B).flatMap fun yy => (List.range A).map fun xx => F xx yy) := by
      rw [hperm.mem_iff, grid2_mem]
      exact ⟨x, y, hx, hy, rfl⟩
    obtain ⟨⟨i, hi⟩, hgi⟩ := List.mem_iff_get.mp hmem
    refine ⟨i, hi, ?_, hgi⟩
    rw [← hgi]
    exact seqIndexOf_get _ hnd i hi
  refine ⟨fun x y => (seqIndexOf (List.insertionSort (fun a b : Int => a ≤ b)
      ((List.range B).flatMap fun yy => (List.range A).map fun xx => F xx yy))
      (F x y)).getD 0, ?_, ?_, ?_, ?_⟩
  · intro x y hx hy
    obtain ⟨i, hi, hsome, _⟩ := hseq x y hx hy
    dsimp only
    rw [hsome]
    rw [hlen] at hi
    exact hi
  · intro x y x' y' hx hy hx' hy' h
    obtain ⟨i, hi, hsome, hget⟩ := hseq x y hx hy
    obtain ⟨i', hi', hsome', hget'⟩ := hseq x' y' hx' hy'
    dsimp only at h
    rw [hsome, hsome'] at h
    simp only [Option.getD_some] at h
    subst h
    apply hF x y x' y' hx hy hx' hy'
    rw [← hget, ← hget']
  · intro i hi
    rw [← hlen] at hi
    have hmem : (List.insertionSort (fun a b : Int => a ≤ b)
        ((List.range B).flatMap fun yy => (List.range A).map fun xx => F xx yy)).get
          ⟨i, hi⟩ ∈ (List.range B).flatMap fun yy => (List.range A).map fun xx => F xx yy := by
      rw [← hperm.mem_iff]
      exact List.get_mem _ _ _
    rw [grid2_mem] at hmem
    obtain ⟨x, y, hx, hy, hev⟩ := hmem
    refine ⟨x, y, hx, hy, ?_⟩
    dsimp only
    rw [← hev, seqIndexOf_get _ hnd i hi]
    rfl
  · intro x y hx hy
    obtain ⟨i, hi, hsome, _⟩ := hseq x y hx hy
    dsimp only
    rw [hsome]
    rfl

/-! ## The per-chunk local index -/

theorem localPositions_2d (alg : String) (aX aY : Nat) :
    localPositions alg aX aY 1 = (List.range aY).flatMap fun ly =>
      (List.range aX).map fun lx => linearPosition alg aX aY 1 lx ly 0 := by
  unfold localPositions
  rw [range_one_flatMap]

theorem getLocalCellIndex_2d (c : CellCoordinate) (hsz : c.sizeZ = 1) (hcz : c.chunkSizeZ = 1)
    (u v lx ly : Nat) :
    c.getLocalCellIndex (u * c.chunkSizeX + lx) (v * c.chunkSizeY + ly) 0 (u, v, 0) =
      if c.algorithm = "z-order" ∨ c.algorithm = "hilbert" then
        (c.getNormalizedLocalPosition
            (linearPosition c.algorithm (axCount c.chunkSizeX c.sizeX u)
              (axCount c.chunkSizeY c.sizeY v) 1 lx ly 0)
            (axCount c.chunkSizeX c.sizeX u) (axCount c.chunkSizeY c.sizeY v) 1).map
          (fun n => (n : Int))
      else
        some (linearPosition c.algorithm (axCount c.chunkSizeX c.sizeX u)
          (axCount c.chunkSizeY c.sizeY v) 1 lx ly 0) := by
  unfold CellCoordinate.getLocalCellIndex CellCoordinate.calculateLinearPosition axCount
  rw [hsz, hcz]
  simp only [Nat.add_sub_cancel_left, Nat.zero_mul, Nat.zero_add, Nat.sub_zero, Nat.sub_self,
    Nat.min_self]

theorem local_ok (c : CellCoordinate)
    (halg : c.algorithm = "row-major" ∨ c.algorithm = "col-major" ∨
      c.algorithm = "z-order" ∨ c.algorithm = "hilbert")
    (hsz : c.sizeZ = 1) (hcz : c.chunkSizeZ = 1)
    (hsX : c.sizeX ≤ 2 ^ 16) (hsY : c.sizeY ≤ 2 ^ 16) (u v : Nat) :
    ∃ L : Nat → Nat → Nat,
      (∀ lx ly, lx < axCount c.chunkSizeX c.sizeX u → ly < axCount c.chunkSizeY c.sizeY v →
        L lx ly < axCount c.chunkSizeX c.sizeX u * axCount c.chunkSizeY c.sizeY v) ∧
      (∀ lx ly lx' ly', lx < axCount c.chunkSizeX c.sizeX u →
        ly < axCount c.chunkSizeY c.sizeY v → lx' < axCount c.chunkSizeX c.sizeX u →
        ly' < axCount c.chunkSizeY c.sizeY v → L lx ly = L lx' ly' →
        lx = lx' ∧ ly = ly') ∧
      (∀ i, i < axCount c.chunkSizeX c.sizeX u * axCount c.chunkSizeY c.sizeY v →
        ∃ lx ly, lx < axCount c.chunkSizeX c.sizeX u ∧
          ly < axCount c.chunkSizeY c.sizeY v ∧ L lx ly = i) ∧
      (∀ lx ly, lx < axCount c.chunkSizeX c.sizeX u → ly < axCount c.chunkSizeY c.sizeY v →
        c.getLocalCellIndex (u * c.chunkSizeX + lx) (v * c.chunkSizeY + ly) 0 (u, v, 0) =
          some ((L lx ly : Nat) : Int)) := by
  have haX : axCount c.chunkSizeX c.sizeX u ≤ 2 ^ 16 :=
    le_trans (axCount_le_s _ _ _) hsX
  have haY : axCount c.chunkSizeY c.sizeY v ≤ 2 ^ 16 :=
    le_trans (axCount_le_s _ _ _) hsY
  rcases halg with h | h | h | h
  · refine ⟨fun lx ly => lx + ly * axCount c.chunkSizeX c.sizeX u,
      fun lx ly hlx hly => xy_lt _ _ _ _ hlx hly, ?_, ?_, ?_⟩
    · intro lx ly lx' ly' hlx hly hlx' hly' hL
      obtain ⟨hd, hm⟩ := block_decompose (axCount c.chunkSizeX c.sizeX u) lx ly hlx
      obtain ⟨hd', hm'⟩ := block_decompose (axCount c.chunkSizeX c.sizeX u) lx' ly' hlx'
      simp only at hL
      refine ⟨?_, ?_⟩
      · rw [← hm, hL, hm']
      · rw [← hd, hL, hd']
    · intro i hi
      have hA : 0 < axCount c.chunkSizeX c.sizeX u := by
        rcases Nat.eq_zero_or_pos (axCount c.chunkSizeX c.sizeX u) with h0 | hp
        · rw [h0] at hi; simp at hi
        · exact hp
      refine ⟨i % axCount c.chunkSizeX c.sizeX u, i / axCount c.chunkSizeX c.sizeX u,
        Nat.mod_lt _ hA, ?_, Nat.mod_add_div' i _⟩
      rw [Nat.div_lt_iff_lt_mul hA, Nat.mul_comm]
      exact hi
    · intro lx ly hlx hly
      rw [getLocalCellIndex_2d c hsz hcz, if_neg (by rw [h]; decide), h,
        linearPosition_rowMajor]
      simp only [Nat.zero_mul, Nat.add_zero]
  · refine ⟨fun lx ly => ly + lx * axCount c.chunkSizeY c.sizeY v, ?_, ?_, ?_, ?_⟩
    · intro lx ly hlx hly
      rw [Nat.mul_comm (axCount c.chunkSizeX c.sizeX u)]
      exact xy_lt _ _ _ _ hly hlx
    · intro lx ly lx' ly' hlx hly hlx' hly' hL
      obtain ⟨hd, hm⟩ := block_decompose (axCount c.chunkSizeY c.sizeY v) ly lx hly
      obtain ⟨hd', hm'⟩ := block_decompose (axCount c.chunkSizeY c.sizeY v) ly' lx' hly'
      simp only at hL
      refine ⟨?_, ?_⟩
      · rw [← hd, hL, hd']
      · rw [← hm, hL, hm']
    · intro i hi
      have hB : 0 < axCount c.chunkSizeY c.sizeY v := by
        rcases Nat.eq_zero_or_pos (axCount c.chunkSizeY c.sizeY v) with h0 | hp
        · rw [h0] at hi; simp at hi
        · exact hp
      refine ⟨i / axCount c.chunkSizeY c.sizeY v, i % axCount c.chunkSizeY c.sizeY v,
        ?_, Nat.mod_lt _ hB, Nat.mod_add_div' i _⟩
      rw [Nat.div_lt_iff_lt_mul hB]
      exact hi
    · intro lx ly hlx hly
      rw [getLocalCellIndex_2d c hsz hcz, if_neg (by rw [h]; decide), h,
        linearPosition_colMajor]
      simp only [Nat.zero_mul, Nat.add_zero]
  all_goals {
    first
    | have hsfc : c.algorithm = "z-order" ∨ c.algorithm = "hilbert" := Or.inl h
    | have hsfc : c.algorithm = "z-order" ∨ c.algorithm = "hilbert" := Or.inr h
    have halg4 : c.algorithm = "row-major" ∨ c.algorithm = "col-major" ∨
        c.algorithm = "z-order" ∨ c.algorithm = "hilbert" := by
      rcases hsfc with h' | h'
      · exact Or.inr (Or.inr (Or.inl h'))
      · exact Or.inr (Or.inr (Or.inr h'))
    obtain ⟨L, hb, hinj, hsurj, hseq⟩ := denseRank_grid
      (axCount c.chunkSizeX c.sizeX u) (axCount c.chunkSizeY c.sizeY v)
      (fun lx ly => linearPosition c.algorithm (axCount c.chunkSizeX c.sizeX u)
        (axCount c.chunkSizeY c.sizeY v) 1 lx ly 0)
      (fun x y x' y' hx hy hx' hy' hFeq =>
        linearPosition_inj_2d c.algorithm halg4 _ _ haX haY x y x' y' hx hy hx' hy' hFeq)
    refine ⟨L, hb, hinj, hsurj, ?_⟩
    intro lx ly hlx hly
    rw [getLocalCellIndex_2d c hsz hcz, if_pos hsfc]
    unfold CellCoordinate.getNormalizedLocalPosition
    rw [localPositions_2d, hseq lx ly hlx hly]
    rfl
  }

/-! ## Cells before a chunk, and the partition of the whole array -/

theorem cellsBefore_eq (c : CellCoordinate) (CX CY : Nat) (D : Nat → Nat → Nat)
    (hD : DenseOk c CX CY D) (i : Nat) (hi : i ≤ CX * CY) :
    c.calculateCellsBeforeChunk i = some (((List.range i).map (chunkCellCount c)).sum) := by
  unfold CellCoordinate.calculateCellsBeforeChunk
  have hmm : ∀ j ∈ List.range i, c.delinearizeChunkIndex j = some (delinD c j) := by
    intro j hj
    rw [List.mem_range] at hj
    obtain ⟨u, v, hu, hv, hDuv⟩ := hD.2.2.1 j (by omega)
    have hdel := hD.2.2.2.2 u v hu hv
    rw [hDuv] at hdel
    rw [hdel]
    unfold delinD
    rw [hdel]
    rfl
  rw [mapM_eq_map _ _ _ hmm]
  simp only [Option.map_some']
  rw [List.map_map]
  rfl

theorem actualCellsInChunk_2d (c : CellCoordinate) (hsz : c.sizeZ = 1) (hcz : c.chunkSizeZ = 1)
    (u v : Nat) :
    c.actualCellsInChunk (u, v, 0) =
      axCount c.chunkSizeX c.sizeX u * axCount c.chunkSizeY c.sizeY v := by
  unfold CellCoordinate.actualCellsInChunk axCount
  rw [hsz, hcz]
  simp only [Nat.zero_mul, Nat.zero_add, Nat.sub_zero, Nat.min_self, Nat.mul_one]

theorem chunkCellCount_D (c : CellCoordinate) (CX CY : Nat) (D : Nat → Nat → Nat)
    (hD : DenseOk c CX CY D) (hsz : c.sizeZ = 1) (hcz : c.chunkSizeZ = 1)
    (u v : Nat) (hu : u < CX) (hv : v < CY) :
    chunkCellCount c (D u v) =
      axCount c.chunkSizeX c.sizeX u * axCount c.chunkSizeY c.sizeY v := by
  unfold chunkCellCount delinD
  rw [hD.2.2.2.2 u v hu hv]
  simp only [Option.getD_some]
  exact actualCellsInChunk_2d c hsz hcz u v

theorem listSum_eq_finsetSum (f : Nat → Nat) (n : Nat) :
    ((List.range n).map f).sum = ∑ i ∈ Finset.range n, f i := by
  induction n with
  | zero => simp
  | succ n' ih => rw [listSum_range_succ, Finset.sum_range_succ, ih]

theorem total_cellsBefore (c : CellCoordinate) (CX CY : Nat) (D : Nat → Nat → Nat)
    (hD : DenseOk c CX CY D) (hsz : c.sizeZ = 1) (hcz : c.chunkSizeZ = 1)
    (hCX : CX = SimulationModel.ceilDiv c.sizeX c.chunkSizeX)
    (hCY : CY = SimulationModel.ceilDiv c.sizeY c.chunkSizeY)
    (hcX : 0 < c.chunkSizeX) (hcY : 0 < c.chunkSizeY) :
    ((List.range (CX * CY)).map (chunkCellCount c)).sum = c.sizeX * c.sizeY := by
  rw [listSum_eq_finsetSum]
  have hbij : ∑ i ∈ Finset.range (CX * CY), chunkCellCount c i =
      ∑ p ∈ Finset.range CX ×ˢ Finset.range CY,
        axCount c.chunkSizeX c.sizeX p.1 * axCount c.chunkSizeY c.sizeY p.2 := by
    symm
    refine Finset.sum_bij (fun p _ => D p.1 p.2) ?_ ?_ ?_ ?_
    · intro p hp
      rw [Finset.mem_product, Finset.mem_range, Finset.mem_range] at hp
      rw [Finset.mem_range]
      exact hD.1 p.1 p.2 hp.1 hp.2
    · intro p hp q hq hpq
      rw [Finset.mem_product, Finset.mem_range, Finset.mem_range] at hp hq
      obtain ⟨h1, h2⟩ := hD.2.1 p.1 p.2 q.1 q.2 hp.1 hp.2 hq.1 hq.2 hpq
      exact Prod.ext h1 h2
    · intro i hi
      rw [Finset.mem_range] at hi
      obtain ⟨u, v, hu, hv, hDuv⟩ := hD.2.2.1 i hi
      exact ⟨(u, v), Finset.mem_product.mpr ⟨Finset.mem_range.mpr hu, Finset.mem_range.mpr hv⟩,
        by dsimp only; omega⟩
    · intro p hp
      rw [Finset.mem_product, Finset.mem_range, Finset.mem_range] at hp
      exact (chunkCellCount_D c CX CY D hD hsz hcz p.1 p.2 hp.1 hp.2).symm
  rw [hbij, Finset.sum_product, ← Finset.sum_mul_sum, hCX, hCY,
    ← listSum_eq_finsetSum, ← listSum_eq_finsetSum, axCount_sum _ _ hcX, axCount_sum _ _ hcY]

/-! ## The structure of getGlobalIndex on 2D configurations -/

theorem mod_lt_axCount (cs s x : Nat) (hcs : 0 < cs) (hx : x < s) :
    x % cs < axCount cs s (x / cs) := by
  have h1 : x % cs < cs := Nat.mod_lt _ hcs
  have h2 : x / cs * cs + x % cs = x := Nat.div_add_mod' x cs
  unfold axCount
  rw [Nat.min_def]
  split_ifs <;> omega

theorem globalIndex_repr (c : CellCoordinate)
    (hsX : 0 < c.sizeX) (hsY : 0 < c.sizeY) (hsz : c.sizeZ = 1)
    (hcX : 0 < c.chunkSizeX) (hcY : 0 < c.chunkSizeY) (hcz : c.chunkSizeZ = 1)
    (hbX : c.sizeX ≤ 2 ^ 16) (hbY : c.sizeY ≤ 2 ^ 16)
    (hgX : c.chunkGrid.sizeX = SimulationModel.ceilDiv c.sizeX c.chunkSizeX)
    (hgY : c.chunkGrid.sizeY = SimulationModel.ceilDiv c.sizeY c.chunkSizeY)
    (hgz : c.chunkGrid.sizeZ = 1)
    (hcalg : c.algorithm = "row-major" ∨ c.algorithm = "col-major" ∨
      c.algorithm = "z-order" ∨ c.algorithm = "hilbert")
    (hkalg : c.chunkGrid.algorithm = "row-major" ∨ c.chunkGrid.algorithm = "col-major" ∨
      c.chunkGrid.algorithm = "z-order" ∨ c.chunkGrid.algorithm = "hilbert") :
    ∃ dIdx lIdx : Nat → Nat → Nat,
      (∀ x y, x < c.sizeX → y < c.sizeY →
        denseChunkIndex c (x / c.chunkSizeX) (y / c.chunkSizeY) 0 = some (dIdx x y) ∧
        c.getLocalCellIndex x y 0 (x / c.chunkSizeX, y / c.chunkSizeY, 0) =
          some ((lIdx x y : Nat) : Int) ∧
        c.calculateCellsBeforeChunk (dIdx x y) =
          some (((List.range (dIdx x y)).map (chunkCellCount c)).sum) ∧
        lIdx x y < chunkCellCount c (dIdx x y) ∧
        dIdx x y < c.chunkGrid.sizeX * c.chunkGrid.sizeY ∧
        c.getGlobalIndex x y 0 =
          some ((((List.range (dIdx x y)).map (chunkCellCount c)).sum + lIdx x y : Nat) : Int) ∧
        ((List.range (dIdx x y)).map (chunkCellCount c)).sum + lIdx x y <
          c.sizeX * c.sizeY) ∧
      (∀ x y x' y', x < c.sizeX → y < c.sizeY → x' < c.sizeX → y' < c.sizeY →
        dIdx x y = dIdx x' y' → lIdx x y = lIdx x' y' → x = x' ∧ y = y') ∧
      (∀ g, g < c.sizeX * c.sizeY → ∃ x y, x < c.sizeX ∧ y < c.sizeY ∧
        ((List.range (dIdx x y)).map (chunkCellCount c)).sum + lIdx x y = g) := by
  obtain ⟨D, hD⟩ := chunk_dense c hkalg hgz
    (by rw [hgX]; exact le_trans (SimulationModel.ceilDiv_le_self _ _ hcX) hbX)
    (by rw [hgY]; exact le_trans (SimulationModel.ceilDiv_le_self _ _ hcY) hbY)
  have hL := fun u v => local_ok c hcalg hsz hcz hbX hbY u v
  choose Lf hLb hLinj hLsurj hLval using hL
  have htot : ((List.range (c.chunkGrid.sizeX * c.chunkGrid.sizeY)).map
      (chunkCellCount c)).sum = c.sizeX * c.sizeY :=
    total_cellsBefore c _ _ D hD hsz hcz hgX hgY hcX hcY
  have hu : ∀ x, x < c.sizeX → x / c.chunkSizeX < c.chunkGrid.sizeX := by
    intro x hx
    rw [hgX]
    exact SimulationModel.div_lt_ceilDiv _ _ _ hcX hx
  have hv : ∀ y, y < c.sizeY → y / c.chunkSizeY < c.chunkGrid.sizeY := by
    intro y hy
    rw [hgY]
    exact SimulationModel.div_lt_ceilDiv _ _ _ hcY hy
  have hlxb : ∀ x, x < c.sizeX →
      x % c.chunkSizeX < axCount c.chunkSizeX c.sizeX (x / c.chunkSizeX) :=
    fun x hx => mod_lt_axCount _ _ _ hcX hx
  have hlyb : ∀ y, y < c.sizeY →
      y % c.chunkSizeY < axCount c.chunkSizeY c.sizeY (y / c.chunkSizeY) :=
    fun y hy => mod_lt_axCount _ _ _ hcY hy
  have hparent : ∀ x y : Nat, c.getParentChunk x y 0 =
      (x / c.chunkSizeX, y / c.chunkSizeY, 0) := by
    intro x y
    unfold CellCoordinate.getParentChunk
    rw [Nat.zero_div]
  have hlocal : ∀ x y, x < c.sizeX → y < c.sizeY →
      c.getLocalCellIndex x y 0 (x / c.chunkSizeX, y / c.chunkSizeY, 0) =
        some ((Lf (x / c.chunkSizeX) (y / c.chunkSizeY) (x % c.chunkSizeX)
          (y % c.chunkSizeY) : Nat) : Int) := by
    intro x y hx hy
    have := hLval (x / c.chunkSizeX) (y / c.chunkSizeY) (x % c.chunkSizeX) (y % c.chunkSizeY)
      (hlxb x hx) (hlyb y hy)
    rw [Nat.div_add_mod', Nat.div_add_mod'] at this
    exact this
  have hlltN : ∀ x y, x < c.sizeX → y < c.sizeY →
      Lf (x / c.chunkSizeX) (y / c.chunkSizeY) (x % c.chunkSizeX) (y % c.chunkSizeY) <
        chunkCellCount c (D (x / c.chunkSizeX) (y / c.chunkSizeY)) := by
    intro x y hx hy
    rw [chunkCellCount_D c _ _ D hD hsz hcz _ _ (hu x hx) (hv y hy)]
    exact hLb _ _ _ _ (hlxb x hx) (hlyb y hy)
  refine ⟨fun x y => D (x / c.chunkSizeX) (y / c.chunkSizeY),
    fun x y => Lf (x / c.chunkSizeX) (y / c.chunkSizeY) (x % c.chunkSizeX) (y % c.chunkSizeY),
    ?_, ?_, ?_⟩
  · intro x y hx hy
    dsimp only
    have hd1 := hD.2.2.2.1 _ _ (hu x hx) (hv y hy)
    have hcb := cellsBefore_eq c _ _ D hD (D (x / c.chunkSizeX) (y / c.chunkSizeY))
      (le_of_lt (hD.1 _ _ (hu x hx) (hv y hy)))
    have hglb : ((List.range (D (x / c.chunkSizeX) (y / c.chunkSizeY))).map
        (chunkCellCount c)).sum +
          Lf (x / c.chunkSizeX) (y / c.chunkSizeY) (x % c.chunkSizeX) (y % c.chunkSizeY) <
        c.sizeX * c.sizeY := by
      rw [← htot]
      exact block_sum_lt (chunkCellCount c) _ _ _ (hD.1 _ _ (hu x hx) (hv y hy))
        (hlltN x y hx hy)
    refine ⟨hd1, hlocal x y hx hy, hcb, hlltN x y hx hy, hD.1 _ _ (hu x hx) (hv y hy), ?_,
      hglb⟩
    rw [getGlobalIndex_eq, hparent]
    simp only
    rw [hd1, Option.some_bind, hcb, Option.some_bind, hlocal x y hx hy, Option.map_some']
    norm_cast
  · intro x y x' y' hx hy hx' hy' hdEq hlEq
    dsimp only at hdEq hlEq
    obtain ⟨huu, hvv⟩ := hD.2.1 _ _ _ _ (hu x hx) (hv y hy) (hu x' hx') (hv y' hy') hdEq
    rw [huu, hvv] at hlEq
    obtain ⟨hxx, hyy⟩ := hLinj _ _ _ _ _ _ (by rw [← huu]; exact hlxb x hx)
      (by rw [← hvv]; exact hlyb y hy) (hlxb x' hx') (hlyb y' hy') hlEq
    constructor
    · have e1 : x / c.chunkSizeX * c.chunkSizeX + x % c.chunkSizeX = x :=
        Nat.div_add_mod' x c.chunkSizeX
      have e2 : x' / c.chunkSizeX * c.chunkSizeX + x' % c.chunkSizeX = x' :=
        Nat.div_add_mod' x' c.chunkSizeX
      rw [← e1, ← e2, huu, hxx]
    · have e1 : y / c.chunkSizeY * c.chunkSizeY + y % c.chunkSizeY = y :=
        Nat.div_add_mod' y c.chunkSizeY
      have e2 : y' / c.chunkSizeY * c.chunkSizeY + y' % c.chunkSizeY = y' :=
        Nat.div_add_mod' y' c.chunkSizeY
      rw [← e1, ← e2, hvv, hyy]
  · intro g hg
    dsimp only
    obtain ⟨i, r, hiM, hrN, hrep⟩ := block_sum_rep (chunkCellCount c) _ g (by rw [htot]; exact hg)
    obtain ⟨u, v, huX, hvY, hDuv⟩ := hD.2.2.1 i hiM
    rw [← hDuv, chunkCellCount_D c _ _ D hD hsz hcz u v huX hvY] at hrN
    obtain ⟨lx, ly, hlx, hly, hLeq⟩ := hLsurj u v r hrN
    have hux : u * c.chunkSizeX < c.sizeX := by
      apply SimulationModel.lt_of_lt_ceilDiv_mul _ _ _ hcX hsX
      rw [← hgX]
      exact huX
    have hvy : v * c.chunkSizeY < c.sizeY := by
      apply SimulationModel.lt_of_lt_ceilDiv_mul _ _ _ hcY hsY
      rw [← hgY]
      exact hvY
    have haxX := axCount_add c.chunkSizeX c.sizeX u hux
    have haxY := axCount_add c.chunkSizeY c.sizeY v hvy
    have hxlt : u * c.chunkSizeX + lx < c.sizeX := by
      have hmin : min ((u + 1) * c.chunkSizeX) c.sizeX ≤ c.sizeX := Nat.min_le_right _ _
      omega
    have hylt : v * c.chunkSizeY + ly < c.sizeY := by
      have hmin : min ((v + 1) * c.chunkSizeY) c.sizeY ≤ c.sizeY := Nat.min_le_right _ _
      omega
    have hlxcs : lx < c.chunkSizeX := lt_of_lt_of_le hlx (axCount_le _ _ _)
    have hlycs : ly < c.chunkSizeY := lt_of_lt_of_le hly (axCount_le _ _ _)
    have hdivX : (u * c.chunkSizeX + lx) / c.chunkSizeX = u := by
      rw [Nat.add_comm]
      exact (block_decompose _ lx u hlxcs).1
    have hmodX : (u * c.chunkSizeX + lx) % c.chunkSizeX = lx := by
      rw [Nat.add_comm]
      exact (block_decompose _ lx u hlxcs).2
    have hdivY : (v * c.chunkSizeY + ly) / c.chunkSizeY = v := by
      rw [Nat.add_comm]
      exact (block_decompose _ ly v hlycs).1
    have hmodY : (v * c.chunkSizeY + ly) % c.chunkSizeY = ly := by
      rw [Nat.add_comm]
      exact (block_decompose _ ly v hlycs).2
    refine ⟨u * c.chunkSizeX + lx, v * c.chunkSizeY + ly, hxlt, hylt, ?_⟩
    rw [hdivX, hdivY, hmodX, hmodY, hDuv, hLeq]
    exact hrep

/-- C1 (amended): for every 2D configuration (sizeZ = chunkSizeZ = 1) with
positive sizes at most 2^16, positive chunk sizes at most the array sizes, and
any pair of cell/chunk orderings among the four known identifiers,
`getGlobalIndex` restricted to in-bounds cells is total and a bijection onto
`[0, sizeX·sizeY·sizeZ)`. (For sizeZ > 1 with a space-filling ordering the map
collides — see the counterexample.) -/
theorem C1_global_index_bijection (p : SimParams)
    (hsX : 0 < p.sizeX) (hsY : 0 < p.sizeY) (hsZ : p.sizeZ = 1)
    (hcX : 0 < p.chunkX) (hcY : 0 < p.chunkY) (hcZ : p.chunkZ = 1)
    (_hcXle : p.chunkX ≤ p.sizeX) (_hcYle : p.chunkY ≤ p.sizeY)
    (hbX : p.sizeX ≤ 2 ^ 16) (hbY : p.sizeY ≤ 2 ^ 16)
    (hcalg : p.cellAlgorithm = "row-major" ∨ p.cellAlgorithm = "col-major" ∨
      p.cellAlgorithm = "z-order" ∨ p.cellAlgorithm = "hilbert")
    (hkalg : p.chunkAlgorithm = "row-major" ∨ p.chunkAlgorithm = "col-major" ∨
      p.chunkAlgorithm = "z-order" ∨ p.chunkAlgorithm = "hilbert") :
    (∀ x y z, x < p.sizeX → y < p.sizeY → z < p.sizeZ →
      ∃ g : Nat, (SimulationModel.getCellCoordinateSystem p).getGlobalIndex x y z =
        some ((g : Nat) : Int) ∧ g < p.sizeX * p.sizeY * p.sizeZ) ∧
    (∀ x y z x' y' z', x < p.sizeX → y < p.sizeY → z < p.sizeZ →
      x' < p.sizeX → y' < p.sizeY → z' < p.sizeZ →
      (SimulationModel.getCellCoordinateSystem p).getGlobalIndex x y z =
        (SimulationModel.getCellCoordinateSystem p).getGlobalIndex x' y' z' →
      x = x' ∧ y = y' ∧ z = z') ∧
    (∀ g : Nat, g < p.sizeX * p.sizeY * p.sizeZ →
      ∃ x y z, x < p.sizeX ∧ y < p.sizeY ∧ z < p.sizeZ ∧
        (SimulationModel.getCellCoordinateSystem p).getGlobalIndex x y z =
          some ((g : Nat) : Int)) := by
  have hsz : (SimulationModel.getCellCoordinateSystem p).sizeZ = 1 := by
    show max 1 p.sizeZ = 1
    rw [hsZ]
    exact max_self 1
  have hcz : (SimulationModel.getCellCoordinateSystem p).chunkSizeZ = 1 := hcZ
  have hgz : (SimulationModel.getCellCoordinateSystem p).chunkGrid.sizeZ = 1 := by
    show max 1 (SimulationModel.ceilDiv p.sizeZ p.chunkZ) = 1
    rw [hsZ, hcZ]
    decide
  obtain ⟨dIdx, lIdx, hmain, hinj, hsurj⟩ := globalIndex_repr
    (SimulationModel.getCellCoordinateSystem p) hsX hsY hsz hcX hcY hcz hbX hbY rfl rfl hgz
    hcalg hkalg
  have hprod : p.sizeX * p.sizeY * p.sizeZ = p.sizeX * p.sizeY := by
    rw [hsZ, Nat.mul_one]
  refine ⟨?_, ?_, ?_⟩
  · intro x y z hx hy hz
    have hz0 : z = 0 := by omega
    subst hz0
    obtain ⟨_, _, _, _, _, hval, hlt⟩ := hmain x y hx hy
    exact ⟨_, hval, by rw [hprod]; exact hlt⟩
  · intro x y z x' y' z' hx hy hz hx' hy' hz' heq
    have hz0 : z = 0 := by omega
    have hz0' : z' = 0 := by omega
    subst hz0
    subst hz0'
    obtain ⟨_, _, _, hlb, _, hval, _⟩ := hmain x y hx hy
    obtain ⟨_, _, _, hlb', _, hval', _⟩ := hmain x' y' hx' hy'
    rw [hval, hval'] at heq
    have hnat : ((List.range (dIdx x y)).map
        (chunkCellCount (SimulationModel.getCellCoordinateSystem p))).sum + lIdx x y =
        ((List.range (dIdx x' y')).map
          (chunkCellCount (SimulationModel.getCellCoordinateSystem p))).sum + lIdx x' y' := by
      have := Option.some.inj heq
      exact_mod_cast this
    obtain ⟨hdEq, hlEq⟩ := block_sum_unique _ _ _ _ _ hlb hlb' hnat
    obtain ⟨hxx, hyy⟩ := hinj x y x' y' hx hy hx' hy' hdEq hlEq
    exact ⟨hxx, hyy, rfl⟩
  · intro g hg
    rw [hprod] at hg
    obtain ⟨x, y, hx, hy, hgeq⟩ := hsurj g hg
    obtain ⟨_, _, _, _, _, hval, _⟩ := hmain x y hx hy
    refine ⟨x, y, 0, hx, hy, by omega, ?_⟩
    rw [hval, hgeq]

/-- C1 witness: the bijection applied to the 5×5 hilbert/hilbert
configuration at cell (3, 2, 0). -/
theorem C1_global_index_bijection_witness :
    ∃ g : Nat, (SimulationModel.getCellCoordinateSystem wC1).getGlobalIndex 3 2 0 =
      some ((g : Nat) : Int) ∧ g < wC1.sizeX * wC1.sizeY * wC1.sizeZ :=
  (C1_global_index_bijection wC1 (by decide) (by decide) rfl (by decide) (by decide) rfl
    (by decide) (by decide) (by decide) (by decide)
    (Or.inr (Or.inr (Or.inr rfl))) (Or.inr (Or.inr (Or.inr rfl)))).1
    3 2 0 (by decide) (by decide) (by decide)

/-- C1 counterexample: in the 3D configuration `ceC1` (3×3×2 array, single
3×3×2 chunk, hilbert cell ordering) two distinct in-bounds cells receive the
same global index 12, so the map is not a bijection for every configuration
with positive sizes and chunk sizes at most the array sizes. -/
theorem C1_counterexample :
    (0 < ceC1.sizeX ∧ 0 < ceC1.sizeY ∧ 0 < ceC1.sizeZ ∧
     0 < ceC1.chunkX ∧ 0 < ceC1.chunkY ∧ 0 < ceC1.chunkZ ∧
     ceC1.chunkX ≤ ceC1.sizeX ∧ ceC1.chunkY ≤ ceC1.sizeY ∧ ceC1.chunkZ ≤ ceC1.sizeZ) ∧
    (2 < ceC1.sizeX ∧ 1 < ceC1.sizeY ∧ 0 < ceC1.sizeZ) ∧
    (0 < ceC1.sizeX ∧ 2 < ceC1.sizeY ∧ 1 < ceC1.sizeZ) ∧
    SimulationModel.getGlobalPosition ceC1 2 1 0 = some 12 ∧
    SimulationModel.getGlobalPosition ceC1 0 2 1 = some 12 ∧
    ¬((2, 1, 0) = ((0, 2, 1) : Nat × Nat × Nat)) := by
  decide

/-- C2 (amended): for every 2D configuration (as in C1), the global indices of
two in-bounds cells compare exactly lexicographically on (dense chunk index,
within-chunk local index), the chunk contribution being the sum of the
boundary-clipped cell counts of the chunks of smaller dense index. (For 3D
hilbert chunk orderings the dense chunk rank can collide and the equivalence
fails — see the counterexample.) -/
theorem C2_order_lex (p : SimParams)
    (hsX : 0 < p.sizeX) (hsY : 0 < p.sizeY) (hsZ : p.sizeZ = 1)
    (hcX : 0 < p.chunkX) (hcY : 0 < p.chunkY) (hcZ : p.chunkZ = 1)
    (_hcXle : p.chunkX ≤ p.sizeX) (_hcYle : p.chunkY ≤ p.sizeY)
    (hbX : p.sizeX ≤ 2 ^ 16) (hbY : p.sizeY ≤ 2 ^ 16)
    (hcalg : p.cellAlgorithm = "row-major" ∨ p.cellAlgorithm = "col-major" ∨
      p.cellAlgorithm = "z-order" ∨ p.cellAlgorithm = "hilbert")
    (hkalg : p.chunkAlgorithm = "row-major" ∨ p.chunkAlgorithm = "col-major" ∨
      p.chunkAlgorithm = "z-order" ∨ p.chunkAlgorithm = "hilbert") :
    ∀ x y z x' y' z', x < p.sizeX → y < p.sizeY → z < p.sizeZ →
      x' < p.sizeX → y' < p.sizeY → z' < p.sizeZ →
      ∃ (ga gb : Int) (da db : Nat) (la lb : Int),
        (SimulationModel.getCellCoordinateSystem p).getGlobalIndex x y z = some ga ∧
        (SimulationModel.getCellCoordinateSystem p).getGlobalIndex x' y' z' = some gb ∧
        denseChunkIndex (SimulationModel.getCellCoordinateSystem p)
          ((SimulationModel.getCellCoordinateSystem p).getParentChunk x y z).1
          ((SimulationModel.getCellCoordinateSystem p).getParentChunk x y z).2.1
          ((SimulationModel.getCellCoordinateSystem p).getParentChunk x y z).2.2 =
            some da ∧
        denseChunkIndex (SimulationModel.getCellCoordinateSystem p)
          ((SimulationModel.getCellCoordinateSystem p).getParentChunk x' y' z').1
          ((SimulationModel.getCellCoordinateSystem p).getParentChunk x' y' z').2.1
          ((SimulationModel.getCellCoordinateSystem p).getParentChunk x' y' z').2.2 =
            some db ∧
        (SimulationModel.getCellCoordinateSystem p).getLocalCellIndex x y z
          ((SimulationModel.getCellCoordinateSystem p).getParentChunk x y z) = some la ∧
        (SimulationModel.getCellCoordinateSystem p).getLocalCellIndex x' y' z'
          ((SimulationModel.getCellCoordinateSystem p).getParentChunk x' y' z') = some lb ∧
        (SimulationModel.getCellCoordinateSystem p).calculateCellsBeforeChunk da =
          some (((List.range da).map
            (chunkCellCount (SimulationModel.getCellCoordinateSystem p))).sum) ∧
        (SimulationModel.getCellCoordinateSystem p).calculateCellsBeforeChunk db =
          some (((List.range db).map
            (chunkCellCount (SimulationModel.getCellCoordinateSystem p))).sum) ∧
        (ga < gb ↔ (da < db ∨ (da = db ∧ la < lb))) := by
  have hsz : (SimulationModel.getCellCoordinateSystem p).sizeZ = 1 := by
    show max 1 p.sizeZ = 1
    rw [hsZ]
    exact max_self 1
  have hcz : (SimulationModel.getCellCoordinateSystem p).chunkSizeZ = 1 := hcZ
  have hgz : (SimulationModel.getCellCoordinateSystem p).chunkGrid.sizeZ = 1 := by
    show max 1 (SimulationModel.ceilDiv p.sizeZ p.chunkZ) = 1
    rw [hsZ, hcZ]
    decide
  obtain ⟨dIdx, lIdx, hmain, _, _⟩ := globalIndex_repr
    (SimulationModel.getCellCoordinateSystem p) hsX hsY hsz hcX hcY hcz hbX hbY rfl rfl hgz
    hcalg hkalg
  have hparent : ∀ a b : Nat,
      (SimulationModel.getCellCoordinateSystem p).getParentChunk a b 0 =
        (a / p.chunkX, b / p.chunkY, 0) := by
    intro a b
    show (a / p.chunkX, b / p.chunkY, 0 / p.chunkZ) = _
    rw [Nat.zero_div]
  intro x y z x' y' z' hx hy hz hx' hy' hz'
  have hz0 : z = 0 := by omega
  have hz0' : z' = 0 := by omega
  subst hz0
  subst hz0'
  obtain ⟨hd1, hl1, hcb1, hlb1, _, hval1, _⟩ := hmain x y hx hy
  obtain ⟨hd2, hl2, hcb2, hlb2, _, hval2, _⟩ := hmain x' y' hx' hy'
  refine ⟨_, _, dIdx x y, dIdx x' y', ((lIdx x y : Nat) : Int), ((lIdx x' y' : Nat) : Int),
    hval1, hval2, ?_, ?_, ?_, ?_, hcb1, hcb2, ?_⟩
  · rw [hparent]
    exact hd1
  · rw [hparent]
    exact hd2
  · rw [hparent]
    exact hl1
  · rw [hparent]
    exact hl2
  · have hiff := block_sum_order
      (chunkCellCount (SimulationModel.getCellCoordinateSystem p))
      (dIdx x y) (lIdx x y) (dIdx x' y') (lIdx x' y') hlb1 hlb2
    simp only [Nat.cast_lt]
    exact hiff

/-- C2 witness: the lexicographic comparison at two cells of the 5×5
hilbert/hilbert configuration. -/
theorem C2_order_lex_witness :
    ∃ (ga gb : Int) (da db : Nat) (la lb : Int),
      (SimulationModel.getCellCoordinateSystem wC1).getGlobalIndex 1 2 0 = some ga ∧
      (SimulationModel.getCellCoordinateSystem wC1).getGlobalIndex 3 4 0 = some gb ∧
      denseChunkIndex (SimulationModel.getCellCoordinateSystem wC1)
        ((SimulationModel.getCellCoordinateSystem wC1).getParentChunk 1 2 0).1
        ((SimulationModel.getCellCoordinateSystem wC1).getParentChunk 1 2 0).2.1
        ((SimulationModel.getCellCoordinateSystem wC1).getParentChunk 1 2 0).2.2 =
          some da ∧
      denseChunkIndex (SimulationModel.getCellCoordinateSystem wC1)
        ((SimulationModel.getCellCoordinateSystem wC1).getParentChunk 3 4 0).1
        ((SimulationModel.getCellCoordinateSystem wC1).getParentChunk 3 4 0).2.1
        ((SimulationModel.getCellCoordinateSystem wC1).getParentChunk 3 4 0).2.2 =
          some db ∧
      (SimulationModel.getCellCoordinateSystem wC1).getLocalCellIndex 1 2 0
        ((SimulationModel.getCellCoordinateSystem wC1).getParentChunk 1 2 0) = some la ∧
      (SimulationModel.getCellCoordinateSystem wC1).getLocalCellIndex 3 4 0
        ((SimulationModel.getCellCoordinateSystem wC1).getParentChunk 3 4 0) = some lb ∧
      (SimulationModel.getCellCoordinateSystem wC1).calculateCellsBeforeChunk da =
        some (((List.range da).map
          (chunkCellCount (SimulationModel.getCellCoordinateSystem wC1))).sum) ∧
      (SimulationModel.getCellCoordinateSystem wC1).calculateCellsBeforeChunk db =
        some (((List.range db).map
          (chunkCellCount (SimulationModel.getCellCoordinateSystem wC1))).sum) ∧
      (ga < gb ↔ (da < db ∨ (da = db ∧ la < lb))) :=
  C2_order_lex wC1 (by decide) (by decide) rfl (by decide) (by decide) rfl
    (by decide) (by decide) (by decide) (by decide)
    (Or.inr (Or.inr (Or.inr rfl))) (Or.inr (Or.inr (Or.inr rfl)))
    1 2 0 3 4 0 (by decide) (by decide) (by decide) (by decide) (by decide) (by decide)

/-- C2 counterexample: in the 3D configuration `ceC2` (5×5×3 array, 2×2×2
chunks, hilbert chunk ordering) the cells (4,2,1) and (4,0,0) have dense chunk
indices 12 < 13 and local indices 2 and 0, yet both global indices equal 64:
the global order is not the lexicographic (chunk, local) order. -/
theorem C2_counterexample :
    SimulationModel.getGlobalPosition ceC2 4 2 1 = some 64 ∧
    SimulationModel.getGlobalPosition ceC2 4 0 0 = some 64 ∧
    (SimulationModel.getCellCoordinateSystem ceC2).getParentChunk 4 2 1 = (2, 1, 0) ∧
    (SimulationModel.getCellCoordinateSystem ceC2).getParentChunk 4 0 0 = (2, 0, 0) ∧
    denseChunkIndex (SimulationModel.getCellCoordinateSystem ceC2) 2 1 0 = some 12 ∧
    denseChunkIndex (SimulationModel.getCellCoordinateSystem ceC2) 2 0 0 = some 13 ∧
    (SimulationModel.getCellCoordinateSystem ceC2).getLocalCellIndex 4 2 1 (2, 1, 0) =
      some 2 ∧
    (SimulationModel.getCellCoordinateSystem ceC2).getLocalCellIndex 4 0 0 (2, 0, 0) =
      some 0 ∧
    (4 < ceC2.sizeX ∧ 2 < ceC2.sizeY ∧ 1 < ceC2.sizeZ) ∧
    ¬(((64 : Int) < 64) ↔ (12 < 13 ∨ (12 = 13 ∧ (2 : Int) < 0))) := by
  decide

/-! ## Byte-range coalescing: structural model of the merge fold -/

namespace SimulationModel

theorem byteRanges_foldl (rest : List Int) : ∀ (acc : List (Int × Int)) (s e : Int),
    (rest.foldl
      (fun (a : List (Int × Int) × Int × Int) vi =>
        if vi = a.2.2 + 1 then (a.1, a.2.1, vi)
        else (a.1 ++ [(a.2.1, a.2.2)], vi, vi)) (acc, s, e)).1 ++
      [(rest.foldl
        (fun (a : List (Int × Int) × Int × Int) vi =>
          if vi = a.2.2 + 1 then (a.1, a.2.1, vi)
          else (a.1 ++ [(a.2.1, a.2.2)], vi, vi)) (acc, s, e)).2] =
      acc ++ runsGo rest s e := by
  induction rest with
  | nil =>
      intro acc s e
      simp [runsGo]
  | cons v rest ih =>
      intro acc s e
      simp only [List.foldl_cons]
      by_cases hv : v = e + 1
      · rw [if_pos hv, ih acc s v]
        simp only [runsGo, if_pos hv]
      · rw [if_neg hv, ih (acc ++ [(s, e)]) v v]
        simp only [runsGo, if_neg hv]
        rw [List.append_assoc]
        rfl

theorem calculateByteRanges_eq_runsGo (positions : List Int) (v : Int) (rest : List Int)
    (h : List.insertionSort (· ≤ ·) positions = v :: rest) :
    calculateByteRanges positions = runsGo rest v v := by
  unfold calculateByteRanges
  rw [h]
  simp only
  have := byteRanges_foldl rest [] v v
  simpa using this

theorem calculateByteRanges_nil (positions : List Int)
    (h : List.insertionSort (· ≤ ·) positions = []) :
    calculateByteRanges positions = [] := by
  unfold calculateByteRanges
  rw [h]

end SimulationModel

theorem runsGo_props : ∀ (rest : List Int) (s e : Int), s ≤ e →
    List.Chain' (· < ·) (e :: rest) →
    (runsGo rest s e ≠ [] ∧
     (runsGo rest s e).head?.map (fun r => r.1) = some s ∧
     (∀ r ∈ runsGo rest s e, r.1 ≤ r.2) ∧
     (∀ w : Int, (∃ r ∈ runsGo rest s e, r.1 ≤ w ∧ w ≤ r.2) ↔
       (s ≤ w ∧ w ≤ e) ∨ w ∈ rest) ∧
     List.Chain' (fun r r' : Int × Int => r.2 + 2 ≤ r'.1) (runsGo rest s e)) := by
  intro rest
  induction rest with
  | nil =>
      intro s e hse _
      refine ⟨by simp [runsGo], by simp [runsGo], ?_, ?_, by simp [runsGo]⟩
      · intro r hr
        simp only [runsGo, List.mem_singleton] at hr
        rw [hr]
        exact hse
      · intro w
        simp only [runsGo, List.mem_singleton, List.not_mem_nil, or_false]
        constructor
        · rintro ⟨r, rfl, h1, h2⟩
          exact ⟨h1, h2⟩
        · rintro ⟨h1, h2⟩
          exact ⟨(s, e), rfl, h1, h2⟩
  | cons v rest ih =>
      intro s e hse hch
      obtain ⟨hev, hch'⟩ := List.chain'_cons.mp hch
      by_cases hv : v = e + 1
      · have hres := ih s v (by omega) hch'
        rw [show runsGo (v :: rest) s e = runsGo rest s v from by simp [runsGo, hv]]
        refine ⟨hres.1, hres.2.1, hres.2.2.1, ?_, hres.2.2.2.2⟩
        intro w
        rw [hres.2.2.2.1 w]
        constructor
        · rintro (⟨h1, h2⟩ | hmem)
          · by_cases hw : w = v
            · exact Or.inr (hw ▸ List.mem_cons_self v rest)
            · exact Or.inl ⟨h1, by omega⟩
          · exact Or.inr (List.mem_cons_of_mem v hmem)
        · rintro (⟨h1, h2⟩ | hmem)
          · exact Or.inl ⟨h1, by omega⟩
          · rcases List.mem_cons.mp hmem with rfl | hm
            · exact Or.inl ⟨by omega, le_refl w⟩
            · exact Or.inr hm
      · have hv2 : e + 2 ≤ v := by omega
        have hres := ih v v le_rfl hch'
        rw [show runsGo (v :: rest) s e = (s, e) :: runsGo rest v v from by simp [runsGo, hv]]
        refine ⟨by simp, by simp, ?_, ?_, ?_⟩
        · intro r hr
          rcases List.mem_cons.mp hr with rfl | hm
          · exact hse
          · exact hres.2.2.1 r hm
        · intro w
          constructor
          · rintro ⟨r, hr, h1, h2⟩
            rcases List.mem_cons.mp hr with rfl | hm
            · exact Or.inl ⟨h1, h2⟩
            · rcases (hres.2.2.2.1 w).mp ⟨r, hm, h1, h2⟩ with ⟨hh1, hh2⟩ | hh
              · have hwv : w = v := by omega
                exact Or.inr (hwv ▸ List.mem_cons_self v rest)
              · exact Or.inr (List.mem_cons_of_mem v hh)
          · rintro (⟨h1, h2⟩ | hmem)
            · exact ⟨(s, e), List.mem_cons_self _ _, h1, h2⟩
            · rcases List.mem_cons.mp hmem with rfl | hm
              · obtain ⟨r, hr, hh⟩ := (hres.2.2.2.1 w).mpr (Or.inl ⟨le_rfl, le_rfl⟩)
                exact ⟨r, List.mem_cons_of_mem _ hr, hh⟩
              · obtain ⟨r, hr, hh⟩ := (hres.2.2.2.1 w).mpr (Or.inr hm)
                exact ⟨r, List.mem_cons_of_mem _ hr, hh⟩
        · rw [List.chain'_cons']
          refine ⟨?_, hres.2.2.2.2⟩
          intro b hb
          rw [Option.mem_def] at hb
          have hhead := hres.2.1
          rw [hb] at hhead
          simp only [Option.map_some', Option.some.injEq] at hhead
          show e + 2 ≤ b.1
          omega

/-- The characterization of `calculateByteRanges` on duplicate-free inputs:
empty iff empty input, the intervals cover exactly the input values, each is
nonempty, and consecutive intervals are in order with a gap of at least 2
(maximal runs). -/
theorem calculateByteRanges_char (positions : List Int) (hnd : positions.Nodup) :
    (SimulationModel.calculateByteRanges positions = [] ↔ positions = []) ∧
    (∀ w : Int, (∃ r ∈ SimulationModel.calculateByteRanges positions,
      r.1 ≤ w ∧ w ≤ r.2) ↔ w ∈ positions) ∧
    (∀ r ∈ SimulationModel.calculateByteRanges positions, r.1 ≤ r.2) ∧
    List.Chain' (fun r r' : Int × Int => r.2 + 2 ≤ r'.1)
      (SimulationModel.calculateByteRanges positions) := by
  have hperm : (List.insertionSort (· ≤ ·) positions).Perm positions :=
    List.perm_insertionSort _ _
  cases hs : List.insertionSort (· ≤ ·) positions with
  | nil =>
      have hpos : positions = [] := by
        rw [hs] at hperm
        exact hperm.symm.eq_nil
      rw [SimulationModel.calculateByteRanges_nil positions hs, hpos]
      refine ⟨by simp, ?_, by simp, by simp⟩
      intro w
      simp
  | cons v rest =>
      have hR := SimulationModel.calculateByteRanges_eq_runsGo positions v rest hs
      have hsorted : List.Sorted (· ≤ ·) (v :: rest) := by
        rw [← hs]
        exact List.sorted_insertionSort _ _
      have hnds : (v :: rest).Nodup := by
        rw [← hs]
        exact hperm.nodup_iff.mpr hnd
      have hchain : List.Chain' (· < ·) (v :: rest) := by
        apply List.Pairwise.chain'
        have hcomb := List.Pairwise.and hsorted hnds
        exact hcomb.imp (fun hab => lt_of_le_of_ne hab.1 hab.2)
      have hprops := runsGo_props rest v v le_rfl hchain
      have hmm : ∀ w : Int, w ∈ positions ↔ (v ≤ w ∧ w ≤ v) ∨ w ∈ rest := by
        intro w
        rw [← hperm.mem_iff, hs, List.mem_cons]
        constructor
        · rintro (rfl | hm)
          · exact Or.inl ⟨le_rfl, le_rfl⟩
          · exact Or.inr hm
        · rintro (⟨h1, h2⟩ | hm)
          · exact Or.inl (by omega)
          · exact Or.inr hm
      refine ⟨?_, ?_, ?_, ?_⟩
      · rw [hR]
        constructor
        · intro h
          exact absurd h hprops.1
        · intro h
          rw [h] at hs
          simp at hs
      · intro w
        rw [hR, hprops.2.2.2.1 w, ← hmm w]
      · rw [hR]
        exact hprops.2.2.1
      · rw [hR]
        exact hprops.2.2.2.2

/-! ## Global positions over a 2D simulation configuration -/

theorem globalPosition_total_inj (p : SimParams)
    (hsX : 0 < p.sizeX) (hsY : 0 < p.sizeY) (hsZ : p.sizeZ = 1)
    (hcX : 0 < p.chunkX) (hcY : 0 < p.chunkY) (hcZ : p.chunkZ = 1)
    (hbX : p.sizeX ≤ 2 ^ 16) (hbY : p.sizeY ≤ 2 ^ 16)
    (hcalg : p.cellAlgorithm = "row-major" ∨ p.cellAlgorithm = "col-major" ∨
      p.cellAlgorithm = "z-order" ∨ p.cellAlgorithm = "hilbert")
    (hkalg : p.chunkAlgorithm = "row-major" ∨ p.chunkAlgorithm = "col-major" ∨
      p.chunkAlgorithm = "z-order" ∨ p.chunkAlgorithm = "hilbert") :
    (∀ x y z, x < p.sizeX → y < p.sizeY → z < p.sizeZ →
      ∃ g : Nat, SimulationModel.getGlobalPosition p x y z = some ((g : Nat) : Int)) ∧
    (∀ x y z x' y' z', x < p.sizeX → y < p.sizeY → z < p.sizeZ →
      x' < p.sizeX → y' < p.sizeY → z' < p.sizeZ →
      SimulationModel.getGlobalPosition p x y z =
        SimulationModel.getGlobalPosition p x' y' z' →
      (x, y, z) = ((x', y', z') : Nat × Nat × Nat)) := by
  have hsz : (SimulationModel.getCellCoordinateSystem p).sizeZ = 1 := by
    show max 1 p.sizeZ = 1
    rw [hsZ]
    exact max_self 1
  have hcz : (SimulationModel.getCellCoordinateSystem p).chunkSizeZ = 1 := hcZ
  have hgz : (SimulationModel.getCellCoordinateSystem p).chunkGrid.sizeZ = 1 := by
    show max 1 (SimulationModel.ceilDiv p.sizeZ p.chunkZ) = 1
    rw [hsZ, hcZ]
    decide
  obtain ⟨dIdx, lIdx, hmain, hpinj, _⟩ := globalIndex_repr
    (SimulationModel.getCellCoordinateSystem p) hsX hsY hsz hcX hcY hcz hbX hbY rfl rfl hgz
    hcalg hkalg
  constructor
  · intro x y z hx hy hz
    have hz0 : z = 0 := by omega
    subst hz0
    obtain ⟨_, _, _, _, _, hval, _⟩ := hmain x y hx hy
    exact ⟨_, hval⟩
  · intro x y z x' y' z' hx hy hz hx' hy' hz' heq
    have hz0 : z = 0 := by omega
    have hz0' : z' = 0 := by omega
    subst hz0
    subst hz0'
    obtain ⟨_, _, _, hlb, _, hval, _⟩ := hmain x y hx hy
    obtain ⟨_, _, _, hlb', _, hval', _⟩ := hmain x' y' hx' hy'
    have heq' : (SimulationModel.getCellCoordinateSystem p).getGlobalIndex x y 0 =
        (SimulationModel.getCellCoordinateSystem p).getGlobalIndex x' y' 0 := heq
    rw [hval, hval'] at heq'
    have hnat : ((List.range (dIdx x y)).map
        (chunkCellCount (SimulationModel.getCellCoordinateSystem p))).sum + lIdx x y =
        ((List.range (dIdx x' y')).map
          (chunkCellCount (SimulationModel.getCellCoordinateSystem p))).sum + lIdx x' y' := by
      have := Option.some.inj heq'
      exact_mod_cast this
    obtain ⟨hdEq, hlEq⟩ := block_sum_unique _ _ _ _ _ hlb hlb' hnat
    obtain ⟨hxx, hyy⟩ := hpinj x y x' y' hx hy hx' hy' hdEq hlEq
    rw [hxx, hyy]

namespace SimulationModel

theorem nodup_foldl_jsSetAdd_id {α : Type} [DecidableEq α] :
    ∀ (l : List α) (s : List α), s.Nodup → (l.foldl jsSetAdd s).Nodup := by
  intro l
  induction l with
  | nil => exact fun s h => h
  | cons a l ih => exact fun s h => ih _ (nodup_jsSetAdd s a h)

theorem nodup_foldl_foldl_jsSetAdd {α β : Type} [DecidableEq α] (h : β → List α)
    (l : List β) (init : List α) (hin : init.Nodup) :
    (l.foldl (fun s idx => (h idx).foldl jsSetAdd s) init).Nodup := by
  induction l generalizing init with
  | nil => exact hin
  | cons a l ih => exact ih _ (nodup_foldl_jsSetAdd_id (h a) init hin)

theorem actualCells_nodup (p : SimParams) :
    (SimulationModel.calculateData p).actualCells.Nodup := by
  have heq : (SimulationModel.calculateData p).actualCells =
      calculateActualCellsFromChunks p (calculateRequestedCellsAndChunks p).2 := rfl
  rw [heq]
  unfold calculateActualCellsFromChunks
  exact nodup_foldl_foldl_jsSetAdd _ _ _ List.nodup_nil

end SimulationModel

set_option maxHeartbeats 2000000 in
/-- C5 (amended): for every 2D configuration (as in C1), `chunkedRanges` and
`unchunkedRanges` are returned (no normalization error), and each equals the
maximal-run decomposition of the global indices of `actualCells` respectively
`requestedCells`: empty iff the cell set is empty, the inclusive intervals
cover exactly the global indices of the set, each interval is nonempty, and
consecutive intervals are ascending with a gap of at least 2. (In 3D hilbert
configurations duplicate global indices break the decomposition — see the
counterexample.) -/
theorem C5_ranges_run_decomposition (p : SimParams)
    (hsX : 0 < p.sizeX) (hsY : 0 < p.sizeY) (hsZ : p.sizeZ = 1)
    (hcX : 0 < p.chunkX) (hcY : 0 < p.chunkY) (hcZ : p.chunkZ = 1)
    (_hcXle : p.chunkX ≤ p.sizeX) (_hcYle : p.chunkY ≤ p.sizeY)
    (hbX : p.sizeX ≤ 2 ^ 16) (hbY : p.sizeY ≤ 2 ^ 16)
    (hcalg : p.cellAlgorithm = "row-major" ∨ p.cellAlgorithm = "col-major" ∨
      p.cellAlgorithm = "z-order" ∨ p.cellAlgorithm = "hilbert")
    (hkalg : p.chunkAlgorithm = "row-major" ∨ p.chunkAlgorithm = "col-major" ∨
      p.chunkAlgorithm = "z-order" ∨ p.chunkAlgorithm = "hilbert") :
    ∃ ranges uranges : List (Int × Int),
      (SimulationModel.calculateData p).chunkedRanges = some ranges ∧
      (SimulationModel.calculateData p).unchunkedRanges = some uranges ∧
      ((SimulationModel.calculateData p).actualCells = [] ↔ ranges = []) ∧
      ((SimulationModel.calculateData p).requestedCells = [] ↔ uranges = []) ∧
      (∀ w : Int, (∃ r ∈ ranges, r.1 ≤ w ∧ w ≤ r.2) ↔
        ∃ cell ∈ (SimulationModel.calculateData p).actualCells,
          SimulationModel.getGlobalPosition p cell.1 cell.2.1 cell.2.2 = some w) ∧
      (∀ w : Int, (∃ r ∈ uranges, r.1 ≤ w ∧ w ≤ r.2) ↔
        ∃ cell ∈ (SimulationModel.calculateData p).requestedCells,
          SimulationModel.getGlobalPosition p cell.1 cell.2.1 cell.2.2 = some w) ∧
      (∀ r ∈ ranges, r.1 ≤ r.2) ∧ (∀ r ∈ uranges, r.1 ≤ r.2) ∧
      List.Chain' (fun r r' : Int × Int => r.2 + 2 ≤ r'.1) ranges ∧
      List.Chain' (fun r r' : Int × Int => r.2 + 2 ≤ r'.1) uranges := by
  obtain ⟨htotal, hinj⟩ :=
    globalPosition_total_inj p hsX hsY hsZ hcX hcY hcZ hbX hbY hcalg hkalg
  have key : ∀ l : List (Nat × Nat × Nat), l.Nodup →
      (∀ cell ∈ l, cell.1 < p.sizeX ∧ cell.2.1 < p.sizeY ∧ cell.2.2 < p.sizeZ) →
      ∃ pos : List Int,
        l.mapM (fun c => SimulationModel.getGlobalPosition p c.1 c.2.1 c.2.2) = some pos ∧
        pos.Nodup ∧ pos.length = l.length ∧
        (∀ w : Int, w ∈ pos ↔ ∃ cell ∈ l,
          SimulationModel.getGlobalPosition p cell.1 cell.2.1 cell.2.2 = some w) := by
    intro l hnd hbounds
    have hf : ∀ cell ∈ l, SimulationModel.getGlobalPosition p cell.1 cell.2.1 cell.2.2 =
        some ((SimulationModel.getGlobalPosition p cell.1 cell.2.1 cell.2.2).getD 0) := by
      intro cell hc
      obtain ⟨hx, hy, hz⟩ := hbounds cell hc
      obtain ⟨g, hg⟩ := htotal cell.1 cell.2.1 cell.2.2 hx hy hz
      rw [hg]
      rfl
    refine ⟨l.map (fun c => (SimulationModel.getGlobalPosition p c.1 c.2.1 c.2.2).getD 0),
      ?_, ?_, List.length_map _ _, ?_⟩
    · exact mapM_eq_map _ _ l hf
    · refine List.Nodup.map_on ?_ hnd
      intro a ha b hb hab
      have hfa := hf a ha
      have hfb := hf b hb
      rw [hab, ← hfb] at hfa
      obtain ⟨hax, hay, haz⟩ := hbounds a ha
      obtain ⟨hbx, hby, hbz⟩ := hbounds b hb
      exact hinj a.1 a.2.1 a.2.2 b.1 b.2.1 b.2.2 hax hay haz hbx hby hbz hfa
    · intro w
      rw [List.mem_map]
      constructor
      · rintro ⟨cell, hc, rfl⟩
        exact ⟨cell, hc, hf cell hc⟩
      · rintro ⟨cell, hc, hsome⟩
        refine ⟨cell, hc, ?_⟩
        rw [hsome]
        rfl
  have hactbounds : ∀ cell ∈ (SimulationModel.calculateData p).actualCells,
      cell.1 < p.sizeX ∧ cell.2.1 < p.sizeY ∧ cell.2.2 < p.sizeZ := by
    intro cell hc
    have heq : (SimulationModel.calculateData p).actualCells =
        SimulationModel.calculateActualCellsFromChunks p
          (SimulationModel.calculateRequestedCellsAndChunks p).2 := rfl
    rw [heq, SimulationModel.mem_actualCells] at hc
    obtain ⟨idx, _, hmem⟩ := hc
    have hb := SimulationModel.chunkCellList_bounds p _ _ hmem
    refine ⟨hb.1, hb.2.1, ?_⟩
    rcases hb.2.2 with h0 | h
    · omega
    · exact h
  have hreqbounds : ∀ cell ∈ (SimulationModel.calculateData p).requestedCells,
      cell.1 < p.sizeX ∧ cell.2.1 < p.sizeY ∧ cell.2.2 < p.sizeZ := by
    intro cell hc
    have heq : (SimulationModel.calculateData p).requestedCells =
        (SimulationModel.calculateRequestedCellsAndChunks p).1 := rfl
    rw [heq, SimulationModel.mem_requestedCells,
      SimulationModel.mem_queryBoxCells p hsX hsY (by omega)] at hc
    exact ⟨hc.2.2.1, hc.2.2.2.2.2.1, hc.2.2.2.2.2.2.2.2⟩
  obtain ⟨posC, hmapC, hndC, hlenC, hmemC⟩ :=
    key _ (SimulationModel.actualCells_nodup p) hactbounds
  obtain ⟨posU, hmapU, hndU, hlenU, hmemU⟩ :=
    key _ (SimulationModel.requestedCells_nodup p) hreqbounds
  obtain ⟨hemptyC, hcovC, hleC, hchC⟩ := calculateByteRanges_char posC hndC
  obtain ⟨hemptyU, hcovU, hleU, hchU⟩ := calculateByteRanges_char posU hndU
  have hlinkC : (SimulationModel.calculateData p).actualCells = [] ↔ posC = [] := by
    rw [← List.length_eq_zero, ← List.length_eq_zero, hlenC]
  have hlinkU : (SimulationModel.calculateData p).requestedCells = [] ↔ posU = [] := by
    rw [← List.length_eq_zero, ← List.length_eq_zero, hlenU]
  have hchr : (SimulationModel.calculateData p).chunkedRanges =
      ((SimulationModel.calculateData p).actualCells.mapM
        (fun c => SimulationModel.getGlobalPosition p c.1 c.2.1 c.2.2)).map
        SimulationModel.calculateByteRanges := rfl
  have huchr : (SimulationModel.calculateData p).unchunkedRanges =
      ((SimulationModel.calculateData p).requestedCells.mapM
        (fun c => SimulationModel.getGlobalPosition p c.1 c.2.1 c.2.2)).map
        SimulationModel.calculateByteRanges := rfl
  refine ⟨SimulationModel.calculateByteRanges posC,
    SimulationModel.calculateByteRanges posU,
    by rw [hchr, hmapC]; rfl, by rw [huchr, hmapU]; rfl,
    hlinkC.trans hemptyC.symm, hlinkU.trans hemptyU.symm,
    fun w => (hcovC w).trans (hmemC w), fun w => (hcovU w).trans (hmemU w),
    hleC, hleU, hchC, hchU⟩

/-- C5 witness: the run decomposition at the 5×5 hilbert/hilbert
configuration. -/
theorem C5_ranges_run_decomposition_witness :
    ∃ ranges uranges : List (Int × Int),
      (SimulationModel.calculateData wC1).chunkedRanges = some ranges ∧
      (SimulationModel.calculateData wC1).unchunkedRanges = some uranges ∧
      ((SimulationModel.calculateData wC1).actualCells = [] ↔ ranges = []) ∧
      ((SimulationModel.calculateData wC1).requestedCells = [] ↔ uranges = []) ∧
      (∀ w : Int, (∃ r ∈ ranges, r.1 ≤ w ∧ w ≤ r.2) ↔
        ∃ cell ∈ (SimulationModel.calculateData wC1).actualCells,
          SimulationModel.getGlobalPosition wC1 cell.1 cell.2.1 cell.2.2 = some w) ∧
      (∀ w : Int, (∃ r ∈ uranges, r.1 ≤ w ∧ w ≤ r.2) ↔
        ∃ cell ∈ (SimulationModel.calculateData wC1).requestedCells,
          SimulationModel.getGlobalPosition wC1 cell.1 cell.2.1 cell.2.2 = some w) ∧
      (∀ r ∈ ranges, r.1 ≤ r.2) ∧ (∀ r ∈ uranges, r.1 ≤ r.2) ∧
      List.Chain' (fun r r' : Int × Int => r.2 + 2 ≤ r'.1) ranges ∧
      List.Chain' (fun r r' : Int × Int => r.2 + 2 ≤ r'.1) uranges :=
  C5_ranges_run_decomposition wC1 (by decide) (by decide) rfl (by decide) (by decide) rfl
    (by decide) (by decide) (by decide) (by decide)
    (Or.inr (Or.inr (Or.inr rfl))) (Or.inr (Or.inr (Or.inr rfl)))

/-- C5 counterexample: in the 3D configuration `ceC1` the returned
`chunkedRanges` contain the consecutive intervals (12,12) and (12,17), which
overlap instead of being separated by a gap of at least 2, so the list is not
a maximal-run decomposition of the cell set. -/
theorem C5_counterexample :
    (SimulationModel.calculateData ceC1).chunkedRanges =
      some [((0 : Int), (10 : Int)), (12, 12), (12, 17)] ∧
    ¬ List.Chain' (fun r r' : Int × Int => r.2 + 2 ≤ r'.1)
      [((0 : Int), (10 : Int)), (12, 12), (12, 17)] := by
  refine ⟨rfl, by norm_num [List.chain'_cons]⟩
